import Mathlib

/-!
# Buffer cache (`kernel/bio.c`)

A shallow embedding of the xv6 buffer cache: the pool `bcache.buf[NBUF]`, the
sentinel `bcache.head`, the circular doubly-linked recency list threaded through
`prev`/`next`, and the operations `binit`, `bget`, `bread`, `bwrite`, `brelse`,
`bpin`, `bunpin`.

* Pointers to `struct buf` are values of `Ptr`: `Ptr.slot i` is `&bcache.buf[i]`,
  `Ptr.head` is `&bcache.head`, `Ptr.null` is the null pointer of the
  zero-initialised image.  Every `b->f = v` is a store through a pointer
  (`Sys.modify`), in the order of the source.
* The two loops of `bget` follow `next`/`prev` with fuel; on a well-formed list
  `NBUF + 1` rounds are enough (`WF.bgetFuel_eq`).
* `refcnt` is a `uint`: `refcnt++` and `refcnt--` are taken modulo `2^32`.
* The content lock of a slot is `none` or `some pid`.  A call of `acquiresleep` on
  a held lock ends the call with `Result.sleeps`: the caller is suspended, the
  state is the one it left behind; `bread_wake` is its resumption.
* The device is a map from `(dev, blockno)` to block bytes, and every lock or
  device call is recorded in `Sys.trace`.

Definitions come first, then the lemmas on the list structure, on each operation,
on runs of operations, and the theorems for the properties of the specification.
-/

namespace Bio

/-! ## Data model -/

/-- A pointer to a `struct buf`. -/
inductive Ptr where
  | null
  | head
  | slot (i : Nat)
deriving DecidableEq, Repr

/-- The bytes of one block (`uchar data[BSIZE]`). -/
abbrev Data := List Nat

/-- Arithmetic on `uint` values is modulo `2^32`. -/
def UINT_MOD : Nat := 4294967296

/-- Modelled from the spec: `struct buf` (buf.h is not among the sources).
`lock` is the per-slot content lock (a sleeplock): `none` when free,
`some pid` when held by process `pid`. -/
structure Buf where
  valid : Nat
  dev : Nat
  blockno : Nat
  lock : Option Nat
  refcnt : Nat
  prev : Ptr
  next : Ptr
  data : Data
deriving DecidableEq, Repr

/-- Lock and device events, in the order the code issues them. -/
inductive Event where
  | acquire
  | release
  | acquiresleep (b : Ptr)
  | releasesleep (b : Ptr)
  | disk_rw (b : Ptr) (write : Nat)
deriving DecidableEq, Repr

/-- The state the buffer cache works on: the pool `bcache.buf`, the sentinel
`bcache.head`, the device as a map from `(dev, blockno)` to block bytes, and the
lock/device events issued so far. -/
structure Sys where
  buf : List Buf
  head : Buf
  disk : Nat → Nat → Data
  trace : List Event

/-- How a call ends: it returns, it panics, the caller is suspended inside
`acquiresleep` on a held content lock, or a list walk never ends. -/
inductive Result (α : Type) where
  | ret (a : α) (s : Sys)
  | panic (msg : String) (s : Sys)
  | sleeps (b : Ptr) (s : Sys)
  | hang

/-- A zero-filled `struct buf` with `bsize` data bytes. -/
def zeroBuf (bsize : Nat) : Buf :=
  { valid := 0, dev := 0, blockno := 0, lock := none, refcnt := 0,
    prev := Ptr.null, next := Ptr.null, data := List.replicate bsize 0 }

/-- The zero-initialised `bcache` of `nbuf` slots in front of device `disk`. -/
def zeroSys (nbuf bsize : Nat) (disk : Nat → Nat → Data) : Sys :=
  { buf := List.replicate nbuf (zeroBuf bsize), head := zeroBuf bsize,
    disk := disk, trace := [] }

/-- Source `NBUF`, the number of slots of the pool. -/
def Sys.NBUF (s : Sys) : Nat := s.buf.length

/-- Dereference a pointer. -/
def Sys.get (s : Sys) : Ptr → Buf
  | Ptr.head => s.head
  | Ptr.slot i => (s.buf.get? i).getD (zeroBuf 0)
  | Ptr.null => zeroBuf 0

/-- Store through a pointer: `*p = f(*p)`. -/
def Sys.modify (s : Sys) (p : Ptr) (f : Buf → Buf) : Sys :=
  match p with
  | Ptr.head => { s with head := f s.head }
  | Ptr.slot i => { s with buf := s.buf.set i (f (s.get (Ptr.slot i))) }
  | Ptr.null => s

/-- Append an event to the trace. -/
def Sys.emit (s : Sys) (e : Event) : Sys := { s with trace := s.trace ++ [e] }

/-! ## Lock and device primitives -/

/-- Modelled from the spec: `acquire(&bcache.lock)` (spinlock.c is not among the
sources): taking the metadata lock is recorded as an event. -/
def acquire (s : Sys) : Sys := s.emit Event.acquire

/-- Modelled from the spec: `release(&bcache.lock)` (spinlock.c is not among the
sources): releasing the metadata lock is recorded as an event. -/
def release (s : Sys) : Sys := s.emit Event.release

/-- Modelled from the spec: `initsleeplock` (sleeplock.c is not among the
sources): the content lock starts free. -/
def initsleeplock (b : Ptr) (s : Sys) : Sys :=
  s.modify b (fun x => { x with lock := none })

/-- Modelled from the spec: `holdingsleep` (sleeplock.c is not among the
sources): "is held by current caller". -/
def holdingsleep (pid : Nat) (b : Ptr) (s : Sys) : Bool :=
  (s.get b).lock == some pid

/-- Modelled from the spec: `acquiresleep` (sleeplock.c is not among the
sources): a blocking lock; the caller takes a free lock and is suspended on a
held one. -/
def acquiresleep (pid : Nat) (b : Ptr) (s : Sys) : Result Unit :=
  let s := s.emit (Event.acquiresleep b)
  match (s.get b).lock with
  | none => Result.ret () (s.modify b (fun x => { x with lock := some pid }))
  | some _ => Result.sleeps b s

/-- Modelled from the spec: `releasesleep` (sleeplock.c is not among the
sources). -/
def releasesleep (b : Ptr) (s : Sys) : Sys :=
  (s.emit (Event.releasesleep b)).modify b (fun x => { x with lock := none })

/-- Modelled from the spec: `virtio_disk_rw` (the driver is not among the
sources): a synchronous transfer of one block; `write = 0` loads the block
`(b->dev, b->blockno)` into `b->data`, otherwise `b->data` is stored to it. -/
def virtio_disk_rw (b : Ptr) (write : Nat) (s : Sys) : Sys :=
  let s := s.emit (Event.disk_rw b write)
  if write = 0 then
    s.modify b (fun x => { x with data := s.disk x.dev x.blockno })
  else
    { s with disk := fun d n =>
        if d = (s.get b).dev ∧ n = (s.get b).blockno then (s.get b).data else s.disk d n }

/-! ## The operations of `bio.c` -/

/-- The loop of `binit`, from slot `i` on, `k` slots to go. -/
def binit_loop : Nat → Nat → Sys → Sys
  | 0, _, s => s
  | k + 1, i, s =>
    let b := Ptr.slot i
    let s := s.modify b (fun x => { x with next := s.head.next })
    let s := s.modify b (fun x => { x with prev := Ptr.head })
    let s := initsleeplock b s
    let s := s.modify s.head.next (fun x => { x with prev := b })
    let s := s.modify Ptr.head (fun x => { x with next := b })
    binit_loop k (i + 1) s

/-- Source `binit` (`initlock` only names the metadata lock and has no effect on the
state modelled here). -/
def binit (s : Sys) : Sys :=
  let s := s.modify Ptr.head (fun x => { x with prev := Ptr.head })
  let s := s.modify Ptr.head (fun x => { x with next := Ptr.head })
  binit_loop s.NBUF 0 s

/-- The first loop of `bget`: follow `next` from `b` up to `&bcache.head`, looking
for a slot with identity `(dev, blockno)`.  `none` is out of fuel, `some none` is
the loop running to its end, `some (some b)` is the `if` being taken at `b`. -/
def bget_scan_cached (s : Sys) (dev blockno : Nat) : Nat → Ptr → Option (Option Ptr)
  | 0, _ => none
  | fuel + 1, b =>
    if b = Ptr.head then some none
    else if (s.get b).dev = dev ∧ (s.get b).blockno = blockno then some (some b)
    else bget_scan_cached s dev blockno fuel (s.get b).next

/-- The second loop of `bget`: follow `prev` from `b` up to `&bcache.head`, looking
for a slot with `refcnt == 0`. -/
def bget_scan_unused (s : Sys) : Nat → Ptr → Option (Option Ptr)
  | 0, _ => none
  | fuel + 1, b =>
    if b = Ptr.head then some none
    else if (s.get b).refcnt = 0 then some (some b)
    else bget_scan_unused s fuel (s.get b).prev

/-- The body of the `if` of the first loop of `bget`, up to `release`: the slot
`b` is cached, take one more reference. -/
def bget_hit (s : Sys) (b : Ptr) : Sys :=
  let s := s.modify b (fun x => { x with refcnt := (x.refcnt + 1) % UINT_MOD })
  release s

/-- The body of the `if` of the second loop of `bget`, up to `release`: recycle
the unused slot `b` for `(dev, blockno)`. -/
def bget_recycle (s : Sys) (b : Ptr) (dev blockno : Nat) : Sys :=
  let s := s.modify b (fun x => { x with dev := dev })
  let s := s.modify b (fun x => { x with blockno := blockno })
  let s := s.modify b (fun x => { x with valid := 0 })
  let s := s.modify b (fun x => { x with refcnt := 1 })
  release s

/-- Source `acquiresleep(&b->lock); return b;`. -/
def lock_and_return (pid : Nat) (b : Ptr) (s : Sys) : Result Ptr :=
  match acquiresleep pid b s with
  | Result.ret _ s => Result.ret b s
  | Result.panic m s => Result.panic m s
  | Result.sleeps b s => Result.sleeps b s
  | Result.hang => Result.hang

/-- Source `bget` with explicit fuel for its two loops. -/
def bgetFuel (fuel : Nat) (pid : Nat) (s : Sys) (dev blockno : Nat) : Result Ptr :=
  let s := acquire s
  match bget_scan_cached s dev blockno fuel s.head.next with
  | none => Result.hang
  | some (some b) => lock_and_return pid b (bget_hit s b)
  | some none =>
    match bget_scan_unused s fuel s.head.prev with
    | none => Result.hang
    | some (some b) => lock_and_return pid b (bget_recycle s b dev blockno)
    | some none => Result.panic "bget: no buffers" s

/-- Source `bget`: each loop visits at most the `NBUF` slots and then the sentinel. -/
def bget (pid : Nat) (s : Sys) (dev blockno : Nat) : Result Ptr :=
  bgetFuel (s.NBUF + 1) pid s dev blockno

/-- The part of `bread` after `bget` has returned `b`. -/
def bread_load (b : Ptr) (s : Sys) : Sys :=
  if (s.get b).valid = 0 then
    let s := virtio_disk_rw b 0 s
    s.modify b (fun x => { x with valid := 1 })
  else s

/-- Source `bread`. -/
def bread (pid : Nat) (s : Sys) (dev blockno : Nat) : Result Ptr :=
  match bget pid s dev blockno with
  | Result.ret b s => Result.ret b (bread_load b s)
  | Result.panic m s => Result.panic m s
  | Result.sleeps b s => Result.sleeps b s
  | Result.hang => Result.hang

/-- A caller suspended in the `acquiresleep` of `bget` is woken once the content
lock of `b` is free: it takes the lock and runs the rest of `bread`. -/
def bread_wake (pid : Nat) (b : Ptr) (s : Sys) : Result Ptr :=
  match (s.get b).lock with
  | none => Result.ret b (bread_load b (s.modify b (fun x => { x with lock := some pid })))
  | some _ => Result.sleeps b s

/-- Source `bwrite`. -/
def bwrite (pid : Nat) (s : Sys) (b : Ptr) : Result Unit :=
  if !holdingsleep pid b s then Result.panic "bwrite" s
  else Result.ret () (virtio_disk_rw b 1 s)

/-- The body of `if (b->refcnt == 0)` in `brelse`: unlink `b` and link it in
again right after the sentinel. -/
def brelse_relink (s : Sys) (b : Ptr) : Sys :=
  let s := s.modify (s.get b).next (fun x => { x with prev := (s.get b).prev })
  let s := s.modify (s.get b).prev (fun x => { x with next := (s.get b).next })
  let s := s.modify b (fun x => { x with next := s.head.next })
  let s := s.modify b (fun x => { x with prev := Ptr.head })
  let s := s.modify s.head.next (fun x => { x with prev := b })
  s.modify Ptr.head (fun x => { x with next := b })

/-- The state of `brelse` when it reaches `if (b->refcnt == 0)`: the content lock
released, the metadata lock taken, `refcnt` decremented. -/
def brelse_dec (s : Sys) (b : Ptr) : Sys :=
  let s := releasesleep b s
  let s := acquire s
  s.modify b (fun x => { x with refcnt := (x.refcnt + UINT_MOD - 1) % UINT_MOD })

/-- Source `brelse`. -/
def brelse (pid : Nat) (s : Sys) (b : Ptr) : Result Unit :=
  if !holdingsleep pid b s then Result.panic "brelse" s
  else
    let s := releasesleep b s
    let s := acquire s
    let s := s.modify b (fun x => { x with refcnt := (x.refcnt + UINT_MOD - 1) % UINT_MOD })
    let s := if (s.get b).refcnt = 0 then brelse_relink s b else s
    Result.ret () (release s)

/-- Source `bpin`. -/
def bpin (s : Sys) (b : Ptr) : Sys :=
  let s := acquire s
  let s := s.modify b (fun x => { x with refcnt := (x.refcnt + 1) % UINT_MOD })
  release s

/-- Source `bunpin`. -/
def bunpin (s : Sys) (b : Ptr) : Sys :=
  let s := acquire s
  let s := s.modify b (fun x => { x with refcnt := (x.refcnt + UINT_MOD - 1) % UINT_MOD })
  release s

/-! ## The recency list -/

/-- The pointer is the sentinel or one of the slots of the pool. -/
def Sys.valid (s : Sys) : Ptr → Prop
  | Ptr.head => True
  | Ptr.slot i => i < s.buf.length
  | Ptr.null => False

instance (s : Sys) (p : Ptr) : Decidable (s.valid p) := by
  cases p <;> unfold Sys.valid <;> infer_instance

/-- The pointer is one of the slots of the pool. -/
def Sys.isSlot (s : Sys) : Ptr → Prop
  | Ptr.slot i => i < s.buf.length
  | _ => False

instance (s : Sys) (p : Ptr) : Decidable (s.isSlot p) := by
  cases p <;> unfold Sys.isSlot <;> infer_instance

/-- Follow `next` from `p`, collecting slots until something that is not a slot
(the sentinel) is met or the fuel is spent. -/
def walk (s : Sys) : Nat → Ptr → List Ptr
  | 0, _ => []
  | fuel + 1, p =>
    match p with
    | Ptr.slot i => Ptr.slot i :: walk s fuel (s.get (Ptr.slot i)).next
    | _ => []

/-- The recency order: the slots met following `next` from `bcache.head.next`,
most recently released first. -/
def Sys.lru (s : Sys) : List Ptr := walk s s.NBUF s.head.next

/-- A doubly-linked segment: `next` leads from `a` through `xs` to `z` and `prev`
leads back. -/
def Linked (s : Sys) : Ptr → List Ptr → Ptr → Prop
  | a, [], z => (s.get a).next = z ∧ (s.get z).prev = a
  | a, x :: xs, z => (s.get a).next = x ∧ (s.get x).prev = a ∧ Linked s x xs z

instance (s : Sys) (a : Ptr) (xs : List Ptr) (z : Ptr) : Decidable (Linked s a xs z) := by
  induction xs generalizing a with
  | nil => unfold Linked; infer_instance
  | cons x xs ih => unfold Linked; infer_instance

/-- The list `l` of distinct slots is a circular doubly-linked list through the
sentinel. -/
def Chain (s : Sys) (l : List Ptr) : Prop :=
  Linked s Ptr.head l Ptr.head ∧ l.Nodup ∧ ∀ p ∈ l, s.isSlot p

instance (s : Sys) (l : List Ptr) : Decidable (Chain s l) := by
  unfold Chain; infer_instance

/-- Well-formedness of the recency list: the `next`/`prev` links form one circular
doubly-linked list through the sentinel in which each of the `NBUF` slots occurs
exactly once. -/
def WF (s : Sys) : Prop := Chain s s.lru ∧ s.lru.length = s.NBUF

instance (s : Sys) : Decidable (WF s) := by
  unfold WF; infer_instance

/-- The identity `(dev, blockno)` of a slot. -/
def Sys.key (s : Sys) (p : Ptr) : Nat × Nat := ((s.get p).dev, (s.get p).blockno)

/-- What `bread` does to the slot `bget` returned: the block is loaded from the
device when `valid` is 0. -/
def Buf.load (x : Buf) (disk : Nat → Nat → Data) : Buf :=
  if x.valid = 0 then { x with data := disk x.dev x.blockno, valid := 1 } else x

/-- The slots of the pool, in array order. -/
def Sys.slots (s : Sys) : List Ptr := (List.range s.NBUF).map Ptr.slot

/-- The slot the first loop of `bget` stops at in a well-formed list: the first
slot in recency order with identity `(dev, blockno)`. -/
def Sys.cached (s : Sys) (dev blockno : Nat) : Option Ptr :=
  s.lru.find? (fun p => decide ((s.get p).dev = dev ∧ (s.get p).blockno = blockno))

/-- The slot the second loop of `bget` stops at in a well-formed list: the slot
with `refcnt == 0` nearest the tail of the recency order. -/
def Sys.victim (s : Sys) : Option Ptr :=
  s.lru.reverse.find? (fun p => decide ((s.get p).refcnt = 0))

/-! ## Runs of the cache -/

/-- The calls a run is made of.  `bread` is the call of `bread` up to its return,
or up to its caller being suspended in `acquiresleep`; `wake` is a suspended
caller taking the content lock once it is free and finishing its `bread`; `store`
is a caller changing the bytes of a slot whose content lock it holds. -/
inductive Op where
  | bread (pid dev blockno : Nat)
  | wake (pid : Nat) (b : Ptr)
  | store (pid : Nat) (b : Ptr) (c : Data)
  | bwrite (pid : Nat) (b : Ptr)
  | brelse (pid : Nat) (b : Ptr)
  | bpin (b : Ptr)
  | bunpin (b : Ptr)
deriving DecidableEq, Repr

/-- The state a call leaves, `none` when it panics, never ends or cannot go on. -/
def Op.run : Op → Sys → Option Sys
  | Op.bread pid dev blockno, s =>
    match Bio.bread pid s dev blockno with
    | Result.ret _ s' => some s'
    | Result.sleeps _ s' => some s'
    | _ => none
  | Op.wake pid b, s =>
    match bread_wake pid b s with
    | Result.ret _ s' => some s'
    | _ => none
  | Op.store pid b c, s =>
    if holdingsleep pid b s then some (s.modify b (fun x => { x with data := c })) else none
  | Op.bwrite pid b, s =>
    match Bio.bwrite pid s b with
    | Result.ret _ s' => some s'
    | _ => none
  | Op.brelse pid b, s =>
    match Bio.brelse pid s b with
    | Result.ret _ s' => some s'
    | _ => none
  | Op.bpin b, s => some (Bio.bpin s b)
  | Op.bunpin b, s => some (Bio.bunpin s b)

/-- The handle a call is applied to. -/
def Op.handle : Op → Option Ptr
  | Op.bread _ _ _ => none
  | Op.wake _ b => some b
  | Op.store _ b _ => some b
  | Op.bwrite _ b => some b
  | Op.brelse _ b => some b
  | Op.bpin b => some b
  | Op.bunpin b => some b

/-- One call of a run whose handles satisfy `P`. -/
def Step (P : Sys → Ptr → Prop) (s s' : Sys) : Prop :=
  ∃ op : Op, (∀ b, op.handle = some b → P s b) ∧ op.run s = some s'

/-- The states reached from `binit` on a zero-initialised pool by calls whose
handles satisfy `P`. -/
inductive Reachable (P : Sys → Ptr → Prop) : Sys → Prop where
  | boot (nbuf bsize : Nat) (disk : Nat → Nat → Data) :
      Reachable P (binit (zeroSys nbuf bsize disk))
  | step {s s' : Sys} : Reachable P s → Step P s s' → Reachable P s'

/-- Any pointer at all is passed as a handle. -/
def AnyPtr (_ : Sys) (_ : Ptr) : Prop := True

/-- Handles are slots of the pool. -/
def AnySlot (s : Sys) (b : Ptr) : Prop := s.isSlot b

/-- Handles are slots the caller still holds: `refcnt > 0`. -/
def Held (s : Sys) (b : Ptr) : Prop := s.isSlot b ∧ 0 < (s.get b).refcnt

/-- A slot nobody has a reference to, has locked or has loaded. -/
def Buf.pristine (x : Buf) : Prop := x.refcnt = 0 ∧ x.lock = none ∧ x.valid = 0

instance (x : Buf) : Decidable x.pristine := by
  unfold Buf.pristine; infer_instance

/-- Handles are slots that are referenced, locked or loaded. -/
def InUse (s : Sys) (b : Ptr) : Prop := s.isSlot b ∧ ¬ (s.get b).pristine

/-- The slot is the first one in recency order with its identity: the one a
lookup of its key stops at. -/
def Sys.first (s : Sys) (b : Ptr) : Prop :=
  s.cached (s.get b).dev (s.get b).blockno = some b

instance (s : Sys) (b : Ptr) : Decidable (s.first b) := by
  unfold Sys.first; infer_instance

/-- No two slots share an identity other than `(0, 0)`, the identity all slots
carry in the zero-initialised pool. -/
def KeysUnique (s : Sys) : Prop :=
  ∀ p q, s.isSlot p → s.isSlot q → p ≠ q → s.key p = s.key q → s.key p = (0, 0)

/-- Every slot that is referenced, locked or loaded is the first one in recency
order with its identity. -/
def InUseFirst (s : Sys) : Prop :=
  ∀ b, s.isSlot b → ¬ (s.get b).pristine → s.first b

/-- The call neither asks for block `(dev, blockno)` nor stores to or writes back
a slot that has it as identity. -/
def Op.quiet (dev blockno : Nat) (s : Sys) : Op → Prop
  | Op.bread _ d n => (d, n) ≠ (dev, blockno)
  | Op.wake _ b => s.key b ≠ (dev, blockno)
  | Op.store _ b _ => s.key b ≠ (dev, blockno)
  | Op.bwrite _ b => s.key b ≠ (dev, blockno)
  | Op.brelse _ _ => True
  | Op.bpin _ => True
  | Op.bunpin _ => True

/-- One call on a slot of the pool that leaves block `(dev, blockno)` alone. -/
def QuietStep (dev blockno : Nat) (s s' : Sys) : Prop :=
  ∃ op : Op, op.quiet dev blockno s ∧ (∀ b, op.handle = some b → s.isSlot b) ∧
    op.run s = some s'

/-- The device holds `c` in block `(dev, blockno)` and so does every loaded slot
with that identity. -/
def Fresh (dev blockno : Nat) (c : Data) (s : Sys) : Prop :=
  s.disk dev blockno = c ∧
    ∀ q, s.isSlot q → s.key q = (dev, blockno) → (s.get q).valid ≠ 0 → (s.get q).data = c

/-- The state a call leaves, whatever way it ends. -/
def Result.state {α : Type} (d : Sys) : Result α → Sys
  | Result.ret _ s => s
  | Result.panic _ s => s
  | Result.sleeps _ s => s
  | Result.hang => d

/-- A device whose block `(d, n)` holds the two bytes `d`, `n`. -/
def exDisk : Nat → Nat → Data := fun d n => [d, n]

/-- A pool of two slots right after `binit`. -/
def exBoot : Sys := binit (zeroSys 2 2 exDisk)

/-- The pool `exBoot` after process 1 has called `bread(1, 5)`: slot 0 holds the
block, locked by process 1. -/
def exA : Sys := Result.state exBoot (bread 1 exBoot 1 5)

/-- The pool `exA` after process 2 has called `bread(1, 6)`: both slots are
held. -/
def exB : Sys := Result.state exA (bread 2 exA 1 6)

/-- The pool `exA` after process 1 has stored `[7, 7]` in slot 0 and called
`bwrite`. -/
def exW3 : Sys :=
  Result.state exA
    (bwrite 1 (exA.modify (Ptr.slot 0) (fun x => { x with data := [7, 7] })) (Ptr.slot 0))

/-- The pool `exW3` after process 1 has called `brelse` on slot 0. -/
def exW4 : Sys := Result.state exW3 (brelse 1 exW3 (Ptr.slot 0))

/-- The calls that follow in the example: blocks `(1, 6)` and `(1, 8)` are read and
released, which evicts block `(1, 5)` from slot 0. -/
def exQuietOps : List Op :=
  [Op.bread 2 1 6, Op.brelse 2 (Ptr.slot 1), Op.bread 2 1 8, Op.brelse 2 (Ptr.slot 0)]

/-- Run a list of calls, as far as they go. -/
def runOps : List Op → Sys → Sys
  | [], s => s
  | op :: ops, s =>
    match op.run s with
    | some s' => runOps ops s'
    | none => s

/-- The pool `exW4` after the calls of `exQuietOps`. -/
def exW5 : Sys := runOps exQuietOps exW4

/-- The pool `exW5` after process 1 has called `bread(1, 5)` again. -/
def exW6 : Sys := Result.state exW5 (bread 1 exW5 1 5)

/-! ## Lock order on event sequences -/

/-- Whether a sequence of events respects the two-tier lock order.  `m` tells
whether the metadata lock is held and `l` lists the content locks the caller
holds: the metadata lock is taken only when free and released only when held; a
content lock is asked for, and a device transfer is issued, only while the
metadata lock is not held; a transfer on `b` needs the content lock of `b`; a
content lock is released only by its holder and while the metadata lock is not
held. -/
def lockOrder : Bool → List Ptr → List Event → Bool
  | _, _, [] => true
  | m, l, Event.acquire :: es => !m && lockOrder true l es
  | m, l, Event.release :: es => m && lockOrder false l es
  | m, l, Event.acquiresleep b :: es => !m && lockOrder m (b :: l) es
  | m, l, Event.releasesleep b :: es => !m && decide (b ∈ l) && lockOrder m (l.erase b) es
  | m, l, Event.disk_rw b _ :: es => !m && decide (b ∈ l) && lockOrder m l es

/-- Whether the metadata lock is held after a sequence of events. -/
def metaHeld : Bool → List Event → Bool
  | m, [] => m
  | _, Event.acquire :: es => metaHeld true es
  | _, Event.release :: es => metaHeld false es
  | m, _ :: es => metaHeld m es

/-- The content locks among `[b]` the caller `pid` holds in state `s`. -/
def heldLocks (pid : Nat) (b : Ptr) (s : Sys) : List Ptr :=
  if holdingsleep pid b s then [b] else []

/-- The call that took `s` to `s'` issued the events `ev`. -/
def Emits (s s' : Sys) (ev : List Event) : Prop := s'.trace = s.trace ++ ev

/-! ## Runs with a clock -/

/-- The pool with a clock: the state of the pool, the number of calls made so far,
and for each slot the time of the call at which its `refcnt` last went from a
non-zero value to zero (`dropped`) and the time of the call of `brelse` that
last found its `refcnt` at zero and moved it to the head of the list
(`moved`). -/
structure Timed where
  sys : Sys
  clock : Nat
  dropped : Ptr → Option Nat
  moved : Ptr → Option Nat

/-- The pool right after `binit`, at time 0. -/
def Timed.boot (nbuf bsize : Nat) (disk : Nat → Nat → Data) : Timed :=
  { sys := binit (zeroSys nbuf bsize disk), clock := 0,
    dropped := fun _ => none, moved := fun _ => none }

/-- Whether the handle of the call, if it has one, is a slot of the pool. -/
def Op.slotHandle (op : Op) (s : Sys) : Bool :=
  match op.handle with
  | none => true
  | some b => decide (s.isSlot b)

/-- Whether the call is a `brelse` of `q` that leaves `refcnt` of `q` at zero in
`s'`, the case in which `brelse` moves the slot to the head of the list. -/
def Op.moves (op : Op) (s' : Sys) (q : Ptr) : Bool :=
  match op with
  | Op.brelse _ b => decide (q = b ∧ (s'.get b).refcnt = 0)
  | _ => false

/-- One call with a clock, on a slot of the pool. -/
def Timed.step (op : Op) (t : Timed) : Option Timed :=
  if op.slotHandle t.sys then
    match op.run t.sys with
    | none => none
    | some s' =>
      some
        { sys := s', clock := t.clock + 1,
          dropped := fun q =>
            if (t.sys.get q).refcnt ≠ 0 ∧ (s'.get q).refcnt = 0 then some t.clock
            else t.dropped q,
          moved := fun q => if op.moves s' q then some t.clock else t.moved q }
  else none

/-- The holders of slots in a run: `got` has one entry `(pid, b)` for each call of
`bread` by `pid` that returned `b` and has not been answered by `brelse`,
`waiting` one entry for each caller suspended in `bread` on the content lock of
`b`, `pinned` one entry for each `bpin` not yet undone by `bunpin`. -/
structure Ledger where
  got : List (Nat × Ptr)
  waiting : List (Nat × Ptr)
  pinned : List Ptr

/-- Nobody holds anything. -/
def Ledger.empty : Ledger := { got := [], waiting := [], pinned := [] }

/-- Which calls the ledger allows: `brelse` by a caller on a slot it got from
`bread` and has not given back, `bunpin` on a slot with an outstanding `bpin`,
the completion of `bread` for a caller suspended on that slot; `bpin`, `bwrite`
and stores on slots of the pool. -/
def Ledger.allows (g : Ledger) (s : Sys) : Op → Bool
  | Op.bread _ _ _ => true
  | Op.wake pid b => decide ((pid, b) ∈ g.waiting)
  | Op.store _ b _ => decide (s.isSlot b)
  | Op.bwrite _ b => decide (s.isSlot b)
  | Op.brelse pid b => decide ((pid, b) ∈ g.got)
  | Op.bpin b => decide (s.isSlot b)
  | Op.bunpin b => decide (b ∈ g.pinned)

/-- The ledger after a call made in state `s`. -/
def Ledger.book (g : Ledger) (s : Sys) : Op → Ledger
  | Op.bread pid dev blockno =>
    match Bio.bread pid s dev blockno with
    | Result.ret b _ => { g with got := (pid, b) :: g.got }
    | Result.sleeps b _ => { g with waiting := (pid, b) :: g.waiting }
    | _ => g
  | Op.wake pid b =>
    { g with got := (pid, b) :: g.got, waiting := g.waiting.erase (pid, b) }
  | Op.store _ _ _ => g
  | Op.bwrite _ _ => g
  | Op.brelse pid b => { g with got := g.got.erase (pid, b) }
  | Op.bpin b => { g with pinned := b :: g.pinned }
  | Op.bunpin b => { g with pinned := g.pinned.erase b }

/-- One call of a run with a ledger. -/
def Ledger.step (op : Op) (x : Sys × Ledger) : Option (Sys × Ledger) :=
  if x.2.allows x.1 op then
    match op.run x.1 with
    | none => none
    | some s' => some (s', x.2.book x.1 op)
  else none

/-- A run with a ledger: the calls of the list, one after the other. -/
def Ledger.run : List Op → Sys × Ledger → Option (Sys × Ledger)
  | [], x => some x
  | op :: ops, x =>
    match Ledger.step op x with
    | none => none
    | some x' => Ledger.run ops x'

/-- Which calls a run that tracks changed content allows, `d` being the slots
whose bytes a caller has changed and not yet written back: handles are slots of
the pool that are referenced, locked or loaded, and `brelse` is not applied to
a slot with changed bytes (the caller calls `bwrite` first). -/
def dirtyAllows (d : List Ptr) (s : Sys) (op : Op) : Bool :=
  (match op.handle with
    | none => true
    | some b => decide (s.isSlot b ∧ ¬ (s.get b).pristine)) &&
  (match op with
    | Op.brelse _ b => decide (b ∉ d)
    | _ => true)

/-- The slots with changed bytes after a call: a store adds its slot, `bwrite`
takes its slot off. -/
def dirtyBook (d : List Ptr) : Op → List Ptr
  | Op.store _ b _ => b :: d
  | Op.bwrite _ b => d.filter (fun q => decide (q ≠ b))
  | _ => d

/-- One call of a run that tracks changed content. -/
def dirtyStep (op : Op) (x : Sys × List Ptr) : Option (Sys × List Ptr) :=
  if dirtyAllows x.2 x.1 op then
    match op.run x.1 with
    | none => none
    | some s' => some (s', dirtyBook x.2 op)
  else none

/-- A run that tracks changed content: the calls of the list, one after the
other. -/
def dirtyRun : List Op → Sys × List Ptr → Option (Sys × List Ptr)
  | [], x => some x
  | op :: ops, x =>
    match dirtyStep op x with
    | none => none
    | some x' => dirtyRun ops x'

/-- The bookkeeping of such a run: slots in use are first with their identity,
the list is well formed, a slot with changed bytes is locked, and a loaded slot
without changed bytes holds the bytes of its block on the device. -/
def Coherent (s : Sys) (d : List Ptr) : Prop :=
  InUseFirst s ∧ WF s ∧ (∀ b ∈ d, (s.get b).lock ≠ none) ∧
    (∀ b, s.isSlot b → (s.get b).valid ≠ 0 → b ∉ d →
      (s.get b).data = s.disk (s.get b).dev (s.get b).blockno)

/-- A run on a pool of two slots: process 1 reads block `(1, 5)`, changes it,
writes it back and releases it. -/
def exCohOps : List Op :=
  [Op.bread 1 1 5, Op.store 1 (Ptr.slot 0) [7, 7], Op.bwrite 1 (Ptr.slot 0),
    Op.brelse 1 (Ptr.slot 0)]

/-- The state the run `exCohOps` ends in, with the slots whose bytes are
changed. -/
def exCoh : Sys × List Ptr := (dirtyRun exCohOps (exBoot, [])).getD (exBoot, [])

/-! ## States at the ends of the `uint` range -/

/-- The pool `exBoot` after `bunpin` on slot 1: the `uint` decrement has taken
`refcnt` of slot 1 from 0 to `2^32 - 1`. -/
def exWrap : Sys := bunpin exBoot (Ptr.slot 1)

/-- The pool `exWrap` after process 1 has called `bread(0, 0)`. -/
def exWrap1 : Sys := Result.state exWrap (bread 1 exWrap 0 0)

/-- The pool `exA` after `bunpin` on slot 0: process 1 holds the content lock of
slot 0, whose `refcnt` is 0. -/
def exHeldZero : Sys := bunpin exA (Ptr.slot 0)

/-! ## Runs with valid handles and a clock -/

/-- The number of outstanding references of all slots together. -/
def Ledger.total (g : Ledger) : Nat := g.got.length + g.waiting.length + g.pinned.length

/-- Whether `bpin` and `bunpin` are applied to a buffer in use: a slot whose
content lock is held, by the caller that got it from `bread` and has not yet
called `brelse` on it. -/
def Op.pinsHeld (op : Op) (s : Sys) : Bool :=
  match op with
  | Op.bpin b => (s.get b).lock.isSome
  | Op.bunpin b => (s.get b).lock.isSome
  | _ => true

/-- A run with valid handles: the pool with its clock and time stamps, the
ledger of holders, and the largest number of outstanding references there has
been at any time of the run. -/
structure Strict where
  timed : Timed
  ledger : Ledger
  peak : Nat

/-- The pool right after `binit`, nothing held. -/
def Strict.boot (nbuf bsize : Nat) (disk : Nat → Nat → Data) : Strict :=
  { timed := Timed.boot nbuf bsize disk, ledger := Ledger.empty, peak := 0 }

/-- One call of a run with valid handles: the ledger allows the call (`brelse`
answers a `bread`, `bunpin` a `bpin`), and `bpin`/`bunpin` are applied to a
buffer the caller holds. -/
def Strict.step (op : Op) (a : Strict) : Option Strict :=
  if a.ledger.allows a.timed.sys op && op.pinsHeld a.timed.sys then
    match Timed.step op a.timed with
    | none => none
    | some t' =>
      some
        { timed := t', ledger := a.ledger.book a.timed.sys op,
          peak := max a.peak (a.ledger.book a.timed.sys op).total }
  else none

/-- A run with valid handles: the calls of the list, one after the other. -/
def Strict.run : List Op → Strict → Option Strict
  | [], a => some a
  | op :: ops, a =>
    match Strict.step op a with
    | none => none
    | some a' => Strict.run ops a'

@[simp] theorem modify_length (s : Sys) (p : Ptr) (f : Buf → Buf) :
    (s.modify p f).buf.length = s.buf.length := by
  cases p <;> simp [Sys.modify]

@[simp] theorem modify_NBUF (s : Sys) (p : Ptr) (f : Buf → Buf) :
    (s.modify p f).NBUF = s.NBUF := by
  simp [Sys.NBUF]

@[simp] theorem modify_disk (s : Sys) (p : Ptr) (f : Buf → Buf) :
    (s.modify p f).disk = s.disk := by
  cases p <;> rfl

@[simp] theorem modify_trace (s : Sys) (p : Ptr) (f : Buf → Buf) :
    (s.modify p f).trace = s.trace := by
  cases p <;> rfl

@[simp] theorem modify_valid (s : Sys) (p q : Ptr) (f : Buf → Buf) :
    (s.modify p f).valid q ↔ s.valid q := by
  cases q <;> simp [Sys.valid]

@[simp] theorem modify_isSlot (s : Sys) (p q : Ptr) (f : Buf → Buf) :
    (s.modify p f).isSlot q ↔ s.isSlot q := by
  cases q <;> simp [Sys.isSlot]

theorem isSlot_valid {s : Sys} {p : Ptr} (h : s.isSlot p) : s.valid p := by
  cases p <;> simp_all [Sys.isSlot, Sys.valid]

theorem isSlot_ne_head {s : Sys} {p : Ptr} (h : s.isSlot p) : p ≠ Ptr.head := by
  cases p <;> simp_all [Sys.isSlot]

theorem head_eq_get (s : Sys) : s.head = s.get Ptr.head := rfl

theorem get_modify (s : Sys) (p q : Ptr) (f : Buf → Buf) :
    (s.modify p f).get q = if q = p ∧ s.valid p then f (s.get p) else s.get q := by
  cases p with
  | null => simp [Sys.modify, Sys.valid]
  | head =>
    cases q <;> simp [Sys.modify, Sys.valid, Sys.get]
  | slot i =>
    cases q with
    | null => simp [Sys.modify, Sys.get]
    | head => simp [Sys.modify, Sys.get]
    | slot j =>
      by_cases hji : j = i
      · subst hji
        by_cases hj : j < s.buf.length
        · simp [Sys.modify, Sys.get, Sys.valid, hj, List.getElem?_set]
        · simp [Sys.modify, Sys.get, Sys.valid, hj]
          rw [List.set_eq_of_length_le (by omega)]
      · have hij : i ≠ j := fun h => hji h.symm
        simp [Sys.modify, Sys.get, hji, hij, List.getElem?_set]

theorem get_modify_self {s : Sys} {p : Ptr} (f : Buf → Buf) (h : s.valid p) :
    (s.modify p f).get p = f (s.get p) := by
  simp [get_modify, h]

theorem get_modify_ne {s : Sys} {p q : Ptr} (f : Buf → Buf) (h : q ≠ p) :
    (s.modify p f).get q = s.get q := by
  simp [get_modify, h]

@[simp] theorem get_modify_valid_pres (s : Sys) (p q : Ptr) (f : Buf → Buf)
    (hf : ∀ x, (f x).valid = x.valid) : ((s.modify p f).get q).valid = (s.get q).valid := by
  rw [get_modify]; split_ifs with h
  · rw [hf, h.1]
  · rfl

@[simp] theorem get_modify_valid_set (s : Sys) (p q : Ptr) (g : Buf → Nat) :
    ((s.modify p (fun x => { x with valid := g x })).get q).valid =
      if q = p ∧ s.valid p then g (s.get p) else (s.get q).valid := by
  rw [get_modify]; split_ifs <;> rfl

@[simp] theorem get_modify_dev_pres (s : Sys) (p q : Ptr) (f : Buf → Buf)
    (hf : ∀ x, (f x).dev = x.dev) : ((s.modify p f).get q).dev = (s.get q).dev := by
  rw [get_modify]; split_ifs with h
  · rw [hf, h.1]
  · rfl

@[simp] theorem get_modify_dev_set (s : Sys) (p q : Ptr) (g : Buf → Nat) :
    ((s.modify p (fun x => { x with dev := g x })).get q).dev =
      if q = p ∧ s.valid p then g (s.get p) else (s.get q).dev := by
  rw [get_modify]; split_ifs <;> rfl

@[simp] theorem get_modify_blockno_pres (s : Sys) (p q : Ptr) (f : Buf → Buf)
    (hf : ∀ x, (f x).blockno = x.blockno) : ((s.modify p f).get q).blockno = (s.get q).blockno := by
  rw [get_modify]; split_ifs with h
  · rw [hf, h.1]
  · rfl

@[simp] theorem get_modify_blockno_set (s : Sys) (p q : Ptr) (g : Buf → Nat) :
    ((s.modify p (fun x => { x with blockno := g x })).get q).blockno =
      if q = p ∧ s.valid p then g (s.get p) else (s.get q).blockno := by
  rw [get_modify]; split_ifs <;> rfl

@[simp] theorem get_modify_lock_pres (s : Sys) (p q : Ptr) (f : Buf → Buf)
    (hf : ∀ x, (f x).lock = x.lock) : ((s.modify p f).get q).lock = (s.get q).lock := by
  rw [get_modify]; split_ifs with h
  · rw [hf, h.1]
  · rfl

@[simp] theorem get_modify_lock_set (s : Sys) (p q : Ptr) (g : Buf → Option Nat) :
    ((s.modify p (fun x => { x with lock := g x })).get q).lock =
      if q = p ∧ s.valid p then g (s.get p) else (s.get q).lock := by
  rw [get_modify]; split_ifs <;> rfl

@[simp] theorem get_modify_refcnt_pres (s : Sys) (p q : Ptr) (f : Buf → Buf)
    (hf : ∀ x, (f x).refcnt = x.refcnt) : ((s.modify p f).get q).refcnt = (s.get q).refcnt := by
  rw [get_modify]; split_ifs with h
  · rw [hf, h.1]
  · rfl

@[simp] theorem get_modify_refcnt_set (s : Sys) (p q : Ptr) (g : Buf → Nat) :
    ((s.modify p (fun x => { x with refcnt := g x })).get q).refcnt =
      if q = p ∧ s.valid p then g (s.get p) else (s.get q).refcnt := by
  rw [get_modify]; split_ifs <;> rfl

@[simp] theorem get_modify_prev_pres (s : Sys) (p q : Ptr) (f : Buf → Buf)
    (hf : ∀ x, (f x).prev = x.prev) : ((s.modify p f).get q).prev = (s.get q).prev := by
  rw [get_modify]; split_ifs with h
  · rw [hf, h.1]
  · rfl

@[simp] theorem get_modify_prev_set (s : Sys) (p q : Ptr) (g : Buf → Ptr) :
    ((s.modify p (fun x => { x with prev := g x })).get q).prev =
      if q = p ∧ s.valid p then g (s.get p) else (s.get q).prev := by
  rw [get_modify]; split_ifs <;> rfl

@[simp] theorem get_modify_next_pres (s : Sys) (p q : Ptr) (f : Buf → Buf)
    (hf : ∀ x, (f x).next = x.next) : ((s.modify p f).get q).next = (s.get q).next := by
  rw [get_modify]; split_ifs with h
  · rw [hf, h.1]
  · rfl

@[simp] theorem get_modify_next_set (s : Sys) (p q : Ptr) (g : Buf → Ptr) :
    ((s.modify p (fun x => { x with next := g x })).get q).next =
      if q = p ∧ s.valid p then g (s.get p) else (s.get q).next := by
  rw [get_modify]; split_ifs <;> rfl

@[simp] theorem get_modify_data_pres (s : Sys) (p q : Ptr) (f : Buf → Buf)
    (hf : ∀ x, (f x).data = x.data) : ((s.modify p f).get q).data = (s.get q).data := by
  rw [get_modify]; split_ifs with h
  · rw [hf, h.1]
  · rfl

@[simp] theorem get_modify_data_set (s : Sys) (p q : Ptr) (g : Buf → Data) :
    ((s.modify p (fun x => { x with data := g x })).get q).data =
      if q = p ∧ s.valid p then g (s.get p) else (s.get q).data := by
  rw [get_modify]; split_ifs <;> rfl

@[simp] theorem emit_get (s : Sys) (e : Event) (q : Ptr) : (s.emit e).get q = s.get q := by
  cases q <;> rfl

@[simp] theorem emit_buf (s : Sys) (e : Event) : (s.emit e).buf = s.buf := rfl

@[simp] theorem emit_head (s : Sys) (e : Event) : (s.emit e).head = s.head := rfl

@[simp] theorem emit_disk (s : Sys) (e : Event) : (s.emit e).disk = s.disk := rfl

@[simp] theorem emit_NBUF (s : Sys) (e : Event) : (s.emit e).NBUF = s.NBUF := rfl

@[simp] theorem emit_valid (s : Sys) (e : Event) (q : Ptr) : (s.emit e).valid q ↔ s.valid q := by
  cases q <;> simp [Sys.valid]

@[simp] theorem emit_isSlot (s : Sys) (e : Event) (q : Ptr) :
    (s.emit e).isSlot q ↔ s.isSlot q := by
  cases q <;> simp [Sys.isSlot]

/-! ## Doubly-linked segments -/

theorem Linked.frame {s s' : Sys} {xs : List Ptr} {a z : Ptr}
    (hn : ∀ q, q = a ∨ q ∈ xs → (s'.get q).next = (s.get q).next)
    (hp : ∀ q, q ∈ xs ∨ q = z → (s'.get q).prev = (s.get q).prev)
    (h : Linked s a xs z) : Linked s' a xs z := by
  induction xs generalizing a with
  | nil =>
    simp only [Linked] at h ⊢
    rw [hn a (Or.inl rfl), hp z (Or.inr rfl)]
    exact h
  | cons x xs ih =>
    simp only [Linked] at h ⊢
    refine ⟨?_, ?_, ?_⟩
    · rw [hn a (Or.inl rfl)]; exact h.1
    · rw [hp x (Or.inl (List.mem_cons_self _ _))]; exact h.2.1
    · apply ih _ _ h.2.2
      · intro q hq
        rcases hq with hq | hq
        · exact hn q (Or.inr (hq ▸ List.mem_cons_self _ _))
        · exact hn q (Or.inr (List.mem_cons_of_mem _ hq))
      · intro q hq
        rcases hq with hq | hq
        · exact hp q (Or.inl (List.mem_cons_of_mem _ hq))
        · exact hp q (Or.inr hq)

theorem Linked.append {s : Sys} {xs ys : List Ptr} {a y z : Ptr} :
    Linked s a (xs ++ y :: ys) z ↔ Linked s a xs y ∧ Linked s y ys z := by
  induction xs generalizing a with
  | nil => simp [Linked, and_assoc]
  | cons x xs ih => simp [Linked, ih, and_assoc]

theorem Linked.snoc {s : Sys} {xs : List Ptr} {a y z : Ptr} :
    Linked s a (xs ++ [y]) z ↔
      Linked s a xs y ∧ (s.get y).next = z ∧ (s.get z).prev = y := by
  rw [Linked.append]; simp [Linked]

theorem Linked.prev_mem {s : Sys} {xs ys : List Ptr} {a b z : Ptr}
    (h : Linked s a (xs ++ b :: ys) z) : (s.get b).prev = a ∨ (s.get b).prev ∈ xs := by
  induction xs generalizing a with
  | nil => simp only [List.nil_append, Linked] at h; exact Or.inl h.2.1
  | cons x xs ih =>
    simp only [List.cons_append, Linked] at h
    rcases ih h.2.2 with h1 | h1
    · exact Or.inr (h1 ▸ List.mem_cons_self _ _)
    · exact Or.inr (List.mem_cons_of_mem _ h1)

theorem Linked.next_mem {s : Sys} {xs ys : List Ptr} {a b z : Ptr}
    (h : Linked s a (xs ++ b :: ys) z) : (s.get b).next ∈ ys ∨ (s.get b).next = z := by
  have h2 := (Linked.append.mp h).2
  cases ys with
  | nil => simp only [Linked] at h2; exact Or.inr h2.1
  | cons y ys => simp only [Linked] at h2; exact Or.inl (h2.1 ▸ List.mem_cons_self _ _)

/-- Taking `b` out of a segment: its predecessor and successor are linked to each
other. -/
theorem Linked.unlink_seg {s s' : Sys} {xs ys : List Ptr} {a b z : Ptr}
    (h : Linked s a (xs ++ b :: ys) z)
    (hnd : (a :: (xs ++ b :: ys)).Nodup) (hz : z ∉ xs ++ b :: ys)
    (hn : ∀ q, (s'.get q).next =
      if q = (s.get b).prev then (s.get b).next else (s.get q).next)
    (hp : ∀ q, (s'.get q).prev =
      if q = (s.get b).next then (s.get b).prev else (s.get q).prev) :
    Linked s' a (xs ++ ys) z := by
  induction xs generalizing a with
  | nil =>
    simp only [List.nil_append, Linked] at h
    obtain ⟨h1, h2, h3⟩ := h
    simp only [List.nil_append, List.nodup_cons, List.mem_cons, not_or] at hnd hz
    cases ys with
    | nil =>
      simp only [Linked] at h3
      simp only [List.nil_append, Linked, hn, hp, h2, h3.1, if_true]
      exact ⟨trivial, trivial⟩
    | cons c ys =>
      simp only [Linked] at h3
      simp only [List.nil_append, Linked, hn, hp, h2, h3.1, if_true, true_and]
      apply Linked.frame _ _ h3.2.2
      · intro q hq
        have hqa : q ≠ a := by
          rintro rfl
          rcases hq with hq | hq
          · exact hnd.1.2 (by simp [hq])
          · exact hnd.1.2 (by simp [hq])
        simp [hn, h2, hqa]
      · intro q hq
        have hqc : q ≠ c := by
          rintro rfl
          rcases hq with hq | hq
          · simp only [List.nodup_cons] at hnd
            exact hnd.2.2.1 hq
          · exact hz.2 (by simp [hq])
        simp [hp, h3.1, hqc]
  | cons c xs ih =>
    have hnm := Linked.next_mem h
    simp only [List.cons_append, Linked] at h
    obtain ⟨h1, h2, h3⟩ := h
    have hpm := Linked.prev_mem h3
    have hnd' : (c :: (xs ++ b :: ys)).Nodup := (List.nodup_cons.mp hnd).2
    have hz' : z ∉ xs ++ b :: ys := fun hh => hz (List.mem_cons_of_mem _ hh)
    have ih' := ih h3 hnd' hz'
    simp only [List.cons_append, Linked]
    refine ⟨?_, ?_, ih'⟩
    · have : a ≠ (s.get b).prev := by
        intro e
        have ha := (List.nodup_cons.mp hnd).1
        rcases hpm with hpm | hpm
        · exact ha (by rw [e, hpm]; simp)
        · exact ha (by rw [e]; simp [hpm])
      simp [hn, this, h1]
    · have : c ≠ (s.get b).next := by
        intro e
        rcases hnm with hnm | hnm
        · rw [← e] at hnm
          have := (List.nodup_cons.mp hnd').1
          exact this (by simp [hnm])
        · exact hz (by rw [← hnm, ← e]; simp)
      simp [hp, this, h2]

/-! ## The circular list through the sentinel -/

theorem Chain.head_not_mem {s : Sys} {l : List Ptr} (h : Chain s l) : Ptr.head ∉ l :=
  fun hm => isSlot_ne_head (h.2.2 _ hm) rfl

/-- Linking slot `b` in right after the sentinel. -/
theorem Chain.insert_head {s s' : Sys} {l : List Ptr} {b : Ptr}
    (hc : Chain s l) (hb : s.isSlot b) (hnot : b ∉ l)
    (hslot : ∀ q, s'.isSlot q ↔ s.isSlot q)
    (hn : ∀ q, (s'.get q).next =
      if q = Ptr.head then b else if q = b then (s.get Ptr.head).next else (s.get q).next)
    (hp : ∀ q, (s'.get q).prev =
      if q = (s.get Ptr.head).next then b else if q = b then Ptr.head else (s.get q).prev) :
    Chain s' (b :: l) := by
  have hbh : b ≠ Ptr.head := isSlot_ne_head hb
  have hhb : Ptr.head ≠ b := fun e => hbh e.symm
  obtain ⟨hl, hnd, hsl⟩ := hc
  refine ⟨?_, List.nodup_cons.mpr ⟨hnot, hnd⟩, ?_⟩
  · cases l with
    | nil =>
      simp only [Linked] at hl
      simp [Linked, hn, hp, hl.1, hbh, hhb]
    | cons c l =>
      simp only [Linked] at hl
      have hcb : c ≠ b := fun e => hnot (e ▸ List.mem_cons_self _ _)
      have hbc : b ≠ c := fun e => hcb e.symm
      simp only [Linked, hn, hp, hl.1, if_true, hbh, hbc, if_false, true_and]
      apply Linked.frame _ _ hl.2.2
      · intro q hq
        have hq' : q ∈ c :: l := by
          rcases hq with hq | hq
          · exact hq ▸ List.mem_cons_self _ _
          · exact List.mem_cons_of_mem _ hq
        have h1 : q ≠ Ptr.head := isSlot_ne_head (hsl q hq')
        have h2 : q ≠ b := fun e => hnot (e ▸ hq')
        simp [hn, h1, h2]
      · intro q hq
        have h1 : q ≠ c := by
          rintro rfl
          rcases hq with hq | hq
          · exact (List.nodup_cons.mp hnd).1 hq
          · exact isSlot_ne_head (hsl q (List.mem_cons_self _ _)) hq
        have h2 : q ≠ b := by
          rintro rfl
          rcases hq with hq | hq
          · exact hnot (List.mem_cons_of_mem _ hq)
          · exact hbh hq
        simp [hp, hl.1, h1, h2]
  · intro p hp'
    rw [hslot]
    rcases List.mem_cons.mp hp' with rfl | hp'
    · exact hb
    · exact hsl p hp'

/-- Taking slot `b` out of the circular list. -/
theorem Chain.unlink {s s' : Sys} {xs ys : List Ptr} {b : Ptr}
    (hc : Chain s (xs ++ b :: ys))
    (hslot : ∀ q, s'.isSlot q ↔ s.isSlot q)
    (hn : ∀ q, (s'.get q).next =
      if q = (s.get b).prev then (s.get b).next else (s.get q).next)
    (hp : ∀ q, (s'.get q).prev =
      if q = (s.get b).next then (s.get b).prev else (s.get q).prev) :
    Chain s' (xs ++ ys) ∧ b ∉ xs ++ ys := by
  have hh := hc.head_not_mem
  obtain ⟨hl, hnd, hsl⟩ := hc
  have hnd2 : (xs ++ ys).Nodup ∧ b ∉ xs ++ ys := by
    have := List.nodup_middle.mp hnd
    exact ⟨(List.nodup_cons.mp this).2, (List.nodup_cons.mp this).1⟩
  refine ⟨⟨?_, hnd2.1, ?_⟩, hnd2.2⟩
  · exact Linked.unlink_seg hl (List.nodup_cons.mpr ⟨hh, hnd⟩) hh hn hp
  · intro p hp'
    rw [hslot]
    apply hsl
    rcases List.mem_append.mp hp' with h | h
    · exact List.mem_append_left _ h
    · exact List.mem_append_right _ (List.mem_cons_of_mem _ h)

theorem walk_eq_of_linked {s : Sys} {l : List Ptr} {a : Ptr} {fuel : Nat}
    (hl : Linked s a l Ptr.head) (hsl : ∀ p ∈ l, s.isSlot p) (hf : l.length ≤ fuel) :
    walk s fuel (s.get a).next = l := by
  induction l generalizing a fuel with
  | nil =>
    simp only [Linked] at hl
    rw [hl.1]
    cases fuel <;> simp [walk]
  | cons x xs ih =>
    simp only [Linked] at hl
    cases fuel with
    | zero => simp at hf
    | succ f =>
      have hx := hsl x (List.mem_cons_self _ _)
      rw [hl.1]
      cases x with
      | null => simp [Sys.isSlot] at hx
      | head => simp [Sys.isSlot] at hx
      | slot i =>
        simp only [walk]
        rw [ih hl.2.2 (fun p hp => hsl p (List.mem_cons_of_mem _ hp))
          (by simpa using hf)]

theorem mem_slots {s : Sys} {p : Ptr} : p ∈ s.slots ↔ s.isSlot p := by
  cases p <;> simp [Sys.slots, Sys.isSlot, Sys.NBUF]

theorem slots_length (s : Sys) : s.slots.length = s.NBUF := by
  simp [Sys.slots]

theorem Chain.length_le {s : Sys} {l : List Ptr} (h : Chain s l) : l.length ≤ s.NBUF := by
  have hsub : l ⊆ s.slots := fun p hp => mem_slots.mpr (h.2.2 p hp)
  have := (List.subperm_of_subset h.2.1 hsub).length_le
  simpa [slots_length] using this

theorem Chain.lru_eq {s : Sys} {l : List Ptr} (h : Chain s l) : s.lru = l := by
  unfold Sys.lru
  rw [head_eq_get]
  exact walk_eq_of_linked h.1 h.2.2 h.length_le

theorem Chain.wf {s : Sys} {l : List Ptr} (h : Chain s l) (hlen : l.length = s.NBUF) :
    WF s := by
  have := h.lru_eq
  unfold WF
  rw [this]
  exact ⟨h, hlen⟩

/-- In a well-formed list every slot of the pool occurs. -/
theorem WF.mem_lru {s : Sys} (h : WF s) {p : Ptr} : p ∈ s.lru ↔ s.isSlot p := by
  constructor
  · exact h.1.2.2 p
  · intro hp
    have hsub : s.lru ⊆ s.slots := fun q hq => mem_slots.mpr (h.1.2.2 q hq)
    have hsp := List.subperm_of_subset h.1.2.1 hsub
    have hperm : s.lru.Perm s.slots :=
      hsp.perm_of_length_le (by rw [slots_length, h.2])
    exact hperm.mem_iff.mpr (mem_slots.mpr hp)

/-- In a well-formed list every slot of the pool occurs exactly once. -/
theorem WF.count_eq_one {s : Sys} (h : WF s) {p : Ptr} (hp : s.isSlot p) :
    s.lru.count p = 1 :=
  List.count_eq_one_of_mem h.1.2.1 (h.mem_lru.mpr hp)

/-! ## `binit` -/

theorem range_rev_succ (i : Nat) :
    ((List.range (i + 1)).reverse.map Ptr.slot) =
      Ptr.slot i :: ((List.range i).reverse.map Ptr.slot) := by
  simp [List.range_succ]

theorem Chain.next_head_valid {s : Sys} {l : List Ptr} (h : Chain s l) :
    s.valid (s.get Ptr.head).next := by
  have hl := h.1
  cases l with
  | nil => simp only [Linked] at hl; rw [hl.1]; trivial
  | cons c l =>
    simp only [Linked] at hl; rw [hl.1]
    exact isSlot_valid (h.2.2 c (List.mem_cons_self _ _))

theorem binit_loop_chain (k : Nat) : ∀ (i : Nat) (s : Sys),
    Chain s ((List.range i).reverse.map Ptr.slot) → i + k ≤ s.NBUF →
    Chain (binit_loop k i s) ((List.range (i + k)).reverse.map Ptr.slot) ∧
      (binit_loop k i s).NBUF = s.NBUF := by
  induction k with
  | zero => intro i s h _; exact ⟨by simpa [binit_loop] using h, rfl⟩
  | succ k ih =>
    intro i s h hik
    have hb : s.isSlot (Ptr.slot i) := by
      simp only [Sys.isSlot]; unfold Sys.NBUF at hik; omega
    have hbv : s.valid (Ptr.slot i) := isSlot_valid hb
    have hnot : Ptr.slot i ∉ (List.range i).reverse.map Ptr.slot := by simp
    have hnv : s.valid (s.get Ptr.head).next := h.next_head_valid
    simp only [binit_loop, initsleeplock]
    rw [show i + (k + 1) = i + 1 + k by omega]
    have hgoal := ih (i + 1)
      (((((s.modify (Ptr.slot i) fun x => { x with next := s.head.next }).modify (Ptr.slot i)
        fun x => { x with prev := Ptr.head }).modify (Ptr.slot i)
          fun x => { x with lock := none }).modify
            (((s.modify (Ptr.slot i) fun x => { x with next := s.head.next }).modify (Ptr.slot i)
              fun x => { x with prev := Ptr.head }).modify (Ptr.slot i)
                fun x => { x with lock := none }).head.next
            fun x => { x with prev := Ptr.slot i }).modify Ptr.head
              fun x => { x with next := Ptr.slot i }) ?_ (by simp only [modify_NBUF]; omega)
    · refine ⟨hgoal.1, ?_⟩
      rw [hgoal.2]; simp
    · rw [range_rev_succ]
      refine Chain.insert_head h hb hnot (by intro q; simp) ?_ ?_
      · intro q
        simp only [head_eq_get, get_modify_next_pres, get_modify_prev_pres, get_modify_next_set,
          get_modify_prev_set, modify_valid]
        by_cases h1 : q = Ptr.head
        · subst h1; simp [Sys.valid]
        · by_cases h2 : q = Ptr.slot i
          · subst h2; simp [hbv]
          · simp [h1, h2]
      · intro q
        simp only [head_eq_get, get_modify_next_pres, get_modify_prev_pres, get_modify_next_set,
          get_modify_prev_set, modify_valid]
        by_cases h1 : q = (s.get Ptr.head).next
        · subst h1; simp [hnv]
        · by_cases h2 : q = Ptr.slot i
          · subst h2; simp [h1, hbv]
          · simp [h1, h2]

/-- The function `binit` links all the slots into a well-formed list, last array slot
first. -/
theorem binit_chain (s : Sys) :
    Chain (binit s) ((List.range s.NBUF).reverse.map Ptr.slot) ∧ (binit s).NBUF = s.NBUF := by
  unfold binit
  have h0 : Chain ((s.modify Ptr.head fun x => { x with prev := Ptr.head }).modify Ptr.head
      fun x => { x with next := Ptr.head }) ((List.range 0).reverse.map Ptr.slot) := by
    refine ⟨?_, by simp, by simp⟩
    simp [Linked, Sys.valid]
  have := binit_loop_chain s.NBUF 0 _ h0 (by simp)
  simpa using this

theorem binit_wf (s : Sys) : WF (binit s) := by
  have h := binit_chain s
  exact h.1.wf (by rw [h.2]; simp)

theorem binit_lru (s : Sys) : (binit s).lru = (List.range s.NBUF).reverse.map Ptr.slot :=
  (binit_chain s).1.lru_eq

/-! ## The two scans of `bget` -/

theorem scan_cached_eq {s : Sys} {dev blockno : Nat} {l : List Ptr} {a : Ptr} {fuel : Nat}
    (hl : Linked s a l Ptr.head) (hsl : ∀ p ∈ l, s.isSlot p) (hf : l.length < fuel) :
    bget_scan_cached s dev blockno fuel (s.get a).next =
      some (l.find? (fun p => decide ((s.get p).dev = dev ∧ (s.get p).blockno = blockno))) := by
  induction l generalizing a fuel with
  | nil =>
    simp only [Linked] at hl
    cases fuel with
    | zero => simp at hf
    | succ f => simp [bget_scan_cached, hl.1]
  | cons x xs ih =>
    simp only [Linked] at hl
    cases fuel with
    | zero => simp at hf
    | succ f =>
      have hx : x ≠ Ptr.head := isSlot_ne_head (hsl x (List.mem_cons_self _ _))
      have := @ih x f hl.2.2 (fun p hp => hsl p (List.mem_cons_of_mem _ hp))
        (by simpa using hf)
      rw [hl.1]
      simp only [bget_scan_cached, hx, if_false, List.find?_cons]
      by_cases hk : (s.get x).dev = dev ∧ (s.get x).blockno = blockno
      · simp [hk]
      · simp only [hk, if_false, decide_False]
        exact this

theorem scan_unused_eq {s : Sys} (l : List Ptr) : ∀ {z : Ptr} {fuel : Nat},
    Linked s Ptr.head l z → (∀ p ∈ l, s.isSlot p) → l.length < fuel →
    bget_scan_unused s fuel (s.get z).prev =
      some (l.reverse.find? (fun p => decide ((s.get p).refcnt = 0))) := by
  induction l using List.reverseRecOn with
  | nil =>
    intro z fuel hl _ hf
    simp only [Linked] at hl
    cases fuel with
    | zero => simp at hf
    | succ f => simp [bget_scan_unused, hl.2]
  | append_singleton xs x ih =>
    intro z fuel hl hsl hf
    rw [Linked.snoc] at hl
    cases fuel with
    | zero => simp at hf
    | succ f =>
      have hx : x ≠ Ptr.head := isSlot_ne_head (hsl x (by simp))
      have := @ih x f hl.1 (fun p hp => hsl p (by simp [hp]))
        (by simp at hf; omega)
      rw [hl.2.2]
      simp only [bget_scan_unused, hx, if_false, List.reverse_append, List.reverse_cons,
        List.reverse_nil, List.nil_append, List.singleton_append, List.find?_cons]
      by_cases hk : (s.get x).refcnt = 0
      · simp [hk]
      · simp only [hk, if_false, decide_False]
        exact this

theorem WF.scan_cached {s : Sys} (h : WF s) (dev blockno fuel : Nat) (hf : s.NBUF < fuel) :
    bget_scan_cached s dev blockno fuel s.head.next = some (s.cached dev blockno) := by
  rw [head_eq_get]
  exact scan_cached_eq h.1.1 h.1.2.2 (by rw [h.2]; exact hf)

theorem WF.scan_unused {s : Sys} (h : WF s) (fuel : Nat) (hf : s.NBUF < fuel) :
    bget_scan_unused s fuel s.head.prev = some s.victim := by
  rw [head_eq_get]
  exact scan_unused_eq s.lru h.1.1 h.1.2.2 (by rw [h.2]; exact hf)

/-! ## States with the same links -/

theorem walk_congr {s s' : Sys} (hn : ∀ q, (s'.get q).next = (s.get q).next) (fuel : Nat) :
    ∀ p, walk s' fuel p = walk s fuel p := by
  induction fuel with
  | zero => intro p; rfl
  | succ f ih =>
    intro p
    cases p with
    | null => rfl
    | head => rfl
    | slot i => simp only [walk, hn, ih]

theorem lru_congr {s s' : Sys} (hlen : s'.buf.length = s.buf.length)
    (hn : ∀ q, (s'.get q).next = (s.get q).next) : s'.lru = s.lru := by
  unfold Sys.lru Sys.NBUF
  rw [hlen, head_eq_get, head_eq_get, hn]
  exact walk_congr hn _ _

theorem isSlot_congr {s s' : Sys} (hlen : s'.buf.length = s.buf.length) (q : Ptr) :
    s'.isSlot q ↔ s.isSlot q := by
  cases q <;> simp [Sys.isSlot, hlen]

theorem WF.congr {s s' : Sys} (h : WF s) (hlen : s'.buf.length = s.buf.length)
    (hn : ∀ q, (s'.get q).next = (s.get q).next)
    (hp : ∀ q, (s'.get q).prev = (s.get q).prev) : WF s' := by
  have hl := lru_congr hlen hn
  unfold WF Chain
  rw [hl]
  refine ⟨⟨Linked.frame (fun q _ => hn q) (fun q _ => hp q) h.1.1, h.1.2.1, ?_⟩, ?_⟩
  · intro p hp'
    exact (isSlot_congr hlen p).mpr (h.1.2.2 p hp')
  · rw [h.2]; unfold Sys.NBUF; rw [hlen]

@[simp] theorem acquire_get (s : Sys) (q : Ptr) : (acquire s).get q = s.get q := emit_get _ _ _

@[simp] theorem release_get (s : Sys) (q : Ptr) : (release s).get q = s.get q := emit_get _ _ _

@[simp] theorem acquire_buf (s : Sys) : (acquire s).buf = s.buf := rfl

@[simp] theorem release_buf (s : Sys) : (release s).buf = s.buf := rfl

@[simp] theorem acquire_disk (s : Sys) : (acquire s).disk = s.disk := rfl

@[simp] theorem release_disk (s : Sys) : (release s).disk = s.disk := rfl

@[simp] theorem acquire_NBUF (s : Sys) : (acquire s).NBUF = s.NBUF := rfl

@[simp] theorem release_NBUF (s : Sys) : (release s).NBUF = s.NBUF := rfl

@[simp] theorem acquire_head (s : Sys) : (acquire s).head = s.head := rfl

@[simp] theorem release_head (s : Sys) : (release s).head = s.head := rfl

@[simp] theorem acquire_valid (s : Sys) (q : Ptr) : (acquire s).valid q ↔ s.valid q :=
  emit_valid _ _ _

@[simp] theorem release_valid (s : Sys) (q : Ptr) : (release s).valid q ↔ s.valid q :=
  emit_valid _ _ _

@[simp] theorem acquire_isSlot (s : Sys) (q : Ptr) : (acquire s).isSlot q ↔ s.isSlot q :=
  emit_isSlot _ _ _

@[simp] theorem release_isSlot (s : Sys) (q : Ptr) : (release s).isSlot q ↔ s.isSlot q :=
  emit_isSlot _ _ _

@[simp] theorem emit_lru (s : Sys) (e : Event) : (s.emit e).lru = s.lru :=
  lru_congr rfl (fun q => by simp)

@[simp] theorem acquire_lru (s : Sys) : (acquire s).lru = s.lru := emit_lru _ _

@[simp] theorem release_lru (s : Sys) : (release s).lru = s.lru := emit_lru _ _

@[simp] theorem emit_cached (s : Sys) (e : Event) (dev blockno : Nat) :
    (s.emit e).cached dev blockno = s.cached dev blockno := by
  simp [Sys.cached]

@[simp] theorem emit_victim (s : Sys) (e : Event) : (s.emit e).victim = s.victim := by
  simp [Sys.victim]

theorem emit_wf {s : Sys} (e : Event) (h : WF s) : WF (s.emit e) :=
  h.congr rfl (fun q => by simp) (fun q => by simp)

/-! ## `bget` on a well-formed list -/

/-- On a well-formed list the two loops of `bget` end within `NBUF + 1` rounds: a
hit on the first slot in recency order with the key, else the unused slot nearest
the tail is recycled, else the panic. -/
theorem WF.bgetFuel_eq {s : Sys} (h : WF s) (fuel pid dev blockno : Nat) (hf : s.NBUF < fuel) :
    bgetFuel fuel pid s dev blockno =
      match s.cached dev blockno with
      | some b => lock_and_return pid b (bget_hit (acquire s) b)
      | none =>
        match s.victim with
        | some b => lock_and_return pid b (bget_recycle (acquire s) b dev blockno)
        | none => Result.panic "bget: no buffers" (acquire s) := by
  have h' : WF (acquire s) := emit_wf _ h
  unfold bgetFuel
  simp only []
  rw [h'.scan_cached dev blockno fuel (by simpa using hf)]
  unfold acquire at *
  rw [emit_cached]
  cases hc : s.cached dev blockno with
  | some b => rfl
  | none =>
    simp only []
    rw [h'.scan_unused fuel (by simpa using hf), emit_victim]
    cases hv : s.victim <;> rfl

theorem WF.bget_eq {s : Sys} (h : WF s) (pid dev blockno : Nat) :
    bget pid s dev blockno =
      match s.cached dev blockno with
      | some b => lock_and_return pid b (bget_hit (acquire s) b)
      | none =>
        match s.victim with
        | some b => lock_and_return pid b (bget_recycle (acquire s) b dev blockno)
        | none => Result.panic "bget: no buffers" (acquire s) :=
  h.bgetFuel_eq _ pid dev blockno (Nat.lt_succ_self _)

/-! ## Taking the content lock -/

theorem lock_and_return_free {s : Sys} {b : Ptr} (pid : Nat) (h : (s.get b).lock = none) :
    lock_and_return pid b s =
      Result.ret b ((s.emit (Event.acquiresleep b)).modify b
        (fun x => { x with lock := some pid })) := by
  simp [lock_and_return, acquiresleep, h]

theorem lock_and_return_held {s : Sys} {b : Ptr} (pid : Nat) (h : (s.get b).lock ≠ none) :
    lock_and_return pid b s = Result.sleeps b (s.emit (Event.acquiresleep b)) := by
  cases hl : (s.get b).lock with
  | none => exact absurd hl h
  | some o => simp [lock_and_return, acquiresleep, hl]

/-- The state `bget` leaves once it has chosen `b` and reached `acquiresleep` in
state `s`: with the content lock taken when it was free. -/
theorem lock_and_return_cases (pid : Nat) (b : Ptr) (s : Sys) :
    ((s.get b).lock = none ∧ lock_and_return pid b s =
      Result.ret b ((s.emit (Event.acquiresleep b)).modify b
        (fun x => { x with lock := some pid }))) ∨
    ((s.get b).lock ≠ none ∧ lock_and_return pid b s =
      Result.sleeps b (s.emit (Event.acquiresleep b))) := by
  by_cases h : (s.get b).lock = none
  · exact Or.inl ⟨h, lock_and_return_free pid h⟩
  · exact Or.inr ⟨h, lock_and_return_held pid h⟩

theorem cached_some {s : Sys} {dev blockno : Nat} {b : Ptr}
    (h : s.cached dev blockno = some b) :
    b ∈ s.lru ∧ (s.get b).dev = dev ∧ (s.get b).blockno = blockno := by
  unfold Sys.cached at h
  have h1 := List.mem_of_find?_eq_some h
  have h2 := List.find?_some h
  simp only [decide_eq_true_eq] at h2
  exact ⟨h1, h2⟩

theorem cached_none {s : Sys} {dev blockno : Nat} (h : s.cached dev blockno = none) :
    ∀ p ∈ s.lru, s.key p ≠ (dev, blockno) := by
  unfold Sys.cached at h
  rw [List.find?_eq_none] at h
  intro p hp hk
  apply h p hp
  simp only [Sys.key, Prod.mk.injEq] at hk
  simp [hk]

theorem cached_eq_none_iff {s : Sys} (hwf : WF s) {dev blockno : Nat} :
    s.cached dev blockno = none ↔ ∀ p, s.isSlot p → s.key p ≠ (dev, blockno) := by
  constructor
  · intro h p hp
    exact cached_none h p (hwf.mem_lru.mpr hp)
  · intro h
    unfold Sys.cached
    rw [List.find?_eq_none]
    intro p hp hk
    simp only [decide_eq_true_eq] at hk
    exact h p (hwf.mem_lru.mp hp) (by simp [Sys.key, hk])

theorem victim_some {s : Sys} {b : Ptr} (h : s.victim = some b) :
    (s.get b).refcnt = 0 ∧ ∃ l1 l2, s.lru = l1 ++ b :: l2 ∧ ∀ q ∈ l2, (s.get q).refcnt ≠ 0 := by
  unfold Sys.victim at h
  rw [List.find?_eq_some] at h
  obtain ⟨hb, as, bs, hrev, has⟩ := h
  simp only [decide_eq_true_eq] at hb
  refine ⟨hb, bs.reverse, as.reverse, ?_, ?_⟩
  · have := congrArg List.reverse hrev
    simpa using this
  · intro q hq
    have := has q (List.mem_reverse.mp hq)
    simpa using this

theorem victim_eq_none_iff {s : Sys} (hwf : WF s) :
    s.victim = none ↔ ∀ p, s.isSlot p → (s.get p).refcnt ≠ 0 := by
  unfold Sys.victim
  rw [List.find?_eq_none]
  constructor
  · intro h p hp
    have := h p (List.mem_reverse.mpr (hwf.mem_lru.mpr hp))
    simpa using this
  · intro h p hp
    have := h p (hwf.mem_lru.mp (List.mem_reverse.mp hp))
    simpa using this

/-! ## Lock discipline of `bwrite` and `brelse` -/

theorem bwrite_panic_iff (s : Sys) (pid : Nat) (b : Ptr) :
    (∃ m s', bwrite pid s b = Result.panic m s') ↔ holdingsleep pid b s = false := by
  unfold bwrite
  cases h : holdingsleep pid b s <;> simp

theorem brelse_panic_iff (s : Sys) (pid : Nat) (b : Ptr) :
    (∃ m s', brelse pid s b = Result.panic m s') ↔ holdingsleep pid b s = false := by
  unfold brelse
  cases h : holdingsleep pid b s <;> simp

theorem bwrite_panic_state {s s' : Sys} {pid : Nat} {b : Ptr} {m : String}
    (h : bwrite pid s b = Result.panic m s') : m = "bwrite" ∧ s' = s := by
  unfold bwrite at h
  cases hh : holdingsleep pid b s <;> simp [hh] at h
  exact ⟨h.1.symm, h.2.symm⟩

theorem brelse_panic_state {s s' : Sys} {pid : Nat} {b : Ptr} {m : String}
    (h : brelse pid s b = Result.panic m s') : m = "brelse" ∧ s' = s := by
  unfold brelse at h
  cases hh : holdingsleep pid b s <;> simp [hh] at h
  exact ⟨h.1.symm, h.2.symm⟩

/-- C8 (lock discipline): for every state `s`, caller `pid` and pointer `b`
(whatever the slot's `refcnt`, `valid` flag or list position), `bwrite` panics
exactly when the caller does not hold the content lock of `b`, and so does
`brelse`; a panicking call leaves the whole state as it was: no device write has
been issued (trace and device unchanged) and `refcnt`, the lock and the recency
list are untouched. -/
theorem C8_lock_discipline (s : Sys) (pid : Nat) (b : Ptr) :
    ((∃ m s', bwrite pid s b = Result.panic m s') ↔ holdingsleep pid b s = false) ∧
    ((∃ m s', brelse pid s b = Result.panic m s') ↔ holdingsleep pid b s = false) ∧
    (∀ m s', bwrite pid s b = Result.panic m s' → m = "bwrite" ∧ s' = s) ∧
    (∀ m s', brelse pid s b = Result.panic m s' → m = "brelse" ∧ s' = s) :=
  ⟨bwrite_panic_iff s pid b, brelse_panic_iff s pid b,
    fun _ _ h => bwrite_panic_state h, fun _ _ h => brelse_panic_state h⟩

/-! ## Exhaustion -/

theorem WF.bget_panic_iff {s : Sys} (hwf : WF s) (pid dev blockno : Nat) :
    (∃ m s', bget pid s dev blockno = Result.panic m s') ↔
      s.cached dev blockno = none ∧ s.victim = none := by
  rw [hwf.bget_eq]
  cases hc : s.cached dev blockno with
  | some b =>
    rcases lock_and_return_cases pid b (bget_hit (acquire s) b) with h | h <;>
      simp [h.2]
  | none =>
    cases hv : s.victim with
    | some b =>
      rcases lock_and_return_cases pid b (bget_recycle (acquire s) b dev blockno) with h | h <;>
        simp [h.2]
    | none => simp

theorem WF.bget_selects {s : Sys} (hwf : WF s) (pid dev blockno : Nat)
    (h : ¬ (s.cached dev blockno = none ∧ s.victim = none)) :
    ∃ b s', s.isSlot b ∧
      (((s.get b).lock = none ∧ bget pid s dev blockno = Result.ret b s') ∨
       ((s.get b).lock ≠ none ∧ bget pid s dev blockno = Result.sleeps b s')) := by
  rw [hwf.bget_eq]
  cases hc : s.cached dev blockno with
  | some b =>
    have hb : s.isSlot b := hwf.mem_lru.mp (cached_some hc).1
    rcases lock_and_return_cases pid b (bget_hit (acquire s) b) with h1 | h1
    · refine ⟨b, _, hb, Or.inl ⟨?_, h1.2⟩⟩
      simpa [bget_hit] using h1.1
    · refine ⟨b, _, hb, Or.inr ⟨?_, h1.2⟩⟩
      simpa [bget_hit] using h1.1
  | none =>
    cases hv : s.victim with
    | some b =>
      have hb : s.isSlot b := by
        obtain ⟨_, l1, l2, hl, _⟩ := victim_some hv
        exact hwf.mem_lru.mp (by rw [hl]; simp)
      rcases lock_and_return_cases pid b (bget_recycle (acquire s) b dev blockno) with h1 | h1
      · refine ⟨b, _, hb, Or.inl ⟨?_, h1.2⟩⟩
        simpa [bget_recycle] using h1.1
      · refine ⟨b, _, hb, Or.inr ⟨?_, h1.2⟩⟩
        simpa [bget_recycle] using h1.1
    | none => exact absurd ⟨hc, hv⟩ h

theorem bget_panic_msg {s s' : Sys} {pid dev blockno : Nat} {m : String}
    (h : bget pid s dev blockno = Result.panic m s') :
    m = "bget: no buffers" ∧ s' = acquire s := by
  unfold bget bgetFuel at h
  simp only [] at h
  split at h
  · cases h
  · rename_i b _
    rcases lock_and_return_cases pid b (bget_hit (acquire s) b) with h1 | h1 <;>
      simp [h1.2] at h
  · split at h
    · cases h
    · rename_i b _
      rcases lock_and_return_cases pid b (bget_recycle (acquire s) b dev blockno) with h1 | h1 <;>
        simp [h1.2] at h
    · simp only [Result.panic.injEq] at h
      exact ⟨h.1.symm, h.2.symm⟩

/-- C6 (exhaustion is fatal, and only exhaustion): on a well-formed pool,
`bget(dev, blockno)` panics if and only if no slot has identity `(dev, blockno)`
and no slot has `refcnt == 0`, and the panic is `panic("bget: no buffers")`; in
every other case it selects a slot `b` of the pool and returns it (at once when
the content lock of `b` is free, and with the caller suspended in `acquiresleep`
on `b` while that lock is held).  In particular, with every slot at `refcnt > 0`
a request for a key no slot has panics. -/
theorem C6_exhaustion_iff (s : Sys) (hwf : WF s) (pid dev blockno : Nat) :
    ((∃ m s', bget pid s dev blockno = Result.panic m s') ↔
      (∀ p, s.isSlot p → s.key p ≠ (dev, blockno)) ∧
      (∀ p, s.isSlot p → (s.get p).refcnt ≠ 0)) ∧
    (∀ m s', bget pid s dev blockno = Result.panic m s' → m = "bget: no buffers") ∧
    (¬ ((∀ p, s.isSlot p → s.key p ≠ (dev, blockno)) ∧
        (∀ p, s.isSlot p → (s.get p).refcnt ≠ 0)) →
      ∃ b s', s.isSlot b ∧
        (((s.get b).lock = none ∧ bget pid s dev blockno = Result.ret b s') ∨
         ((s.get b).lock ≠ none ∧ bget pid s dev blockno = Result.sleeps b s'))) ∧
    ((∀ p, s.isSlot p → 0 < (s.get p).refcnt) →
      (∀ p, s.isSlot p → s.key p ≠ (dev, blockno)) →
      ∃ s', bget pid s dev blockno = Result.panic "bget: no buffers" s') := by
  have hiff := hwf.bget_panic_iff pid dev blockno
  rw [cached_eq_none_iff hwf, victim_eq_none_iff hwf] at hiff
  refine ⟨hiff, fun m s' h => (bget_panic_msg h).1, ?_, ?_⟩
  · intro hn
    apply hwf.bget_selects
    rw [cached_eq_none_iff hwf, victim_eq_none_iff hwf]
    exact hn
  · intro hpos hkey
    obtain ⟨m, s', h⟩ := hiff.mpr ⟨hkey, fun p hp => Nat.pos_iff_ne_zero.mp (hpos p hp)⟩
    exact ⟨s', by rw [h, (bget_panic_msg h).1]⟩

/-! ## The miss path of `bget` -/

theorem bget_recycle_get {s : Sys} {b : Ptr} (dev blockno : Nat) (hb : s.valid b) (q : Ptr) :
    (bget_recycle s b dev blockno).get q =
      if q = b then
        { s.get b with dev := dev, blockno := blockno, valid := 0, refcnt := 1 }
      else s.get q := by
  by_cases h : q = b
  · subst h; simp [bget_recycle, get_modify, hb]
  · simp [bget_recycle, get_modify, h]

theorem bget_hit_get {s : Sys} {b : Ptr} (hb : s.valid b) (q : Ptr) :
    (bget_hit s b).get q =
      if q = b then { s.get b with refcnt := ((s.get b).refcnt + 1) % UINT_MOD }
      else s.get q := by
  by_cases h : q = b
  · subst h; simp [bget_hit, get_modify, hb]
  · simp [bget_hit, get_modify, h]

@[simp] theorem bget_recycle_length (s : Sys) (b : Ptr) (dev blockno : Nat) :
    (bget_recycle s b dev blockno).buf.length = s.buf.length := by
  simp [bget_recycle]

@[simp] theorem bget_hit_length (s : Sys) (b : Ptr) : (bget_hit s b).buf.length = s.buf.length := by
  simp [bget_hit]

@[simp] theorem bget_recycle_disk (s : Sys) (b : Ptr) (dev blockno : Nat) :
    (bget_recycle s b dev blockno).disk = s.disk := by
  simp [bget_recycle]

@[simp] theorem bget_hit_disk (s : Sys) (b : Ptr) : (bget_hit s b).disk = s.disk := by
  simp [bget_hit]

theorem valid_congr {s s' : Sys} (hlen : s'.buf.length = s.buf.length) (q : Ptr) :
    s'.valid q ↔ s.valid q := by
  cases q <;> simp [Sys.valid, hlen]

@[simp] theorem bget_recycle_valid (s : Sys) (b : Ptr) (dev blockno : Nat) (q : Ptr) :
    (bget_recycle s b dev blockno).valid q ↔ s.valid q := valid_congr (by simp) q

@[simp] theorem bget_hit_valid (s : Sys) (b : Ptr) (q : Ptr) :
    (bget_hit s b).valid q ↔ s.valid q := valid_congr (by simp) q

/-- What `bget` does on a miss when the eviction scan stops at `b`. -/
theorem WF.bget_miss {s : Sys} (hwf : WF s) (pid dev blockno : Nat) {b : Ptr}
    (hc : s.cached dev blockno = none) (hv : s.victim = some b) :
    ∃ s', bget pid s dev blockno =
        (if (s.get b).lock = none then Result.ret b s' else Result.sleeps b s') ∧
      s'.get b =
        { s.get b with
          dev := dev, blockno := blockno, valid := 0, refcnt := 1,
          lock := if (s.get b).lock = none then some pid else (s.get b).lock } ∧
      (∀ q, q ≠ b → s'.get q = s.get q) ∧ s'.buf.length = s.buf.length ∧
      s'.disk = s.disk := by
  have hb : s.isSlot b := by
    obtain ⟨_, l1, l2, hl, _⟩ := victim_some hv
    exact hwf.mem_lru.mp (by rw [hl]; simp)
  have hbv : s.valid b := isSlot_valid hb
  rw [hwf.bget_eq, hc, hv]
  simp only []
  rcases lock_and_return_cases pid b (bget_recycle (acquire s) b dev blockno) with h1 | h1
  · have hl : (s.get b).lock = none := by simpa [bget_recycle] using h1.1
    refine ⟨_, by rw [h1.2, if_pos hl], ?_, ?_, by simp, by simp⟩
    · rw [get_modify_self _ (by simpa using hbv), emit_get,
        bget_recycle_get _ _ (by simpa using hbv)]
      simp [hl]
    · intro q hq
      rw [get_modify_ne _ hq, emit_get, bget_recycle_get _ _ (by simpa using hbv)]
      simp [hq]
  · have hl : (s.get b).lock ≠ none := by simpa [bget_recycle] using h1.1
    refine ⟨_, by rw [h1.2, if_neg hl], ?_, ?_, by simp, by simp⟩
    · rw [emit_get, bget_recycle_get _ _ (by simpa using hbv)]
      simp [hl]
    · intro q hq
      rw [emit_get, bget_recycle_get _ _ (by simpa using hbv)]
      simp [hq]

/-- What `bget` does on a hit on `b`. -/
theorem WF.bget_hit_res {s : Sys} (hwf : WF s) (pid dev blockno : Nat) {b : Ptr}
    (hc : s.cached dev blockno = some b) :
    ∃ s', bget pid s dev blockno =
        (if (s.get b).lock = none then Result.ret b s' else Result.sleeps b s') ∧
      s'.get b =
        { s.get b with
          refcnt := ((s.get b).refcnt + 1) % UINT_MOD,
          lock := if (s.get b).lock = none then some pid else (s.get b).lock } ∧
      (∀ q, q ≠ b → s'.get q = s.get q) ∧ s'.buf.length = s.buf.length ∧
      s'.disk = s.disk := by
  have hb : s.isSlot b := hwf.mem_lru.mp (cached_some hc).1
  have hbv : s.valid b := isSlot_valid hb
  rw [hwf.bget_eq, hc]
  simp only []
  rcases lock_and_return_cases pid b (bget_hit (acquire s) b) with h1 | h1
  · have hl : (s.get b).lock = none := by simpa [bget_hit] using h1.1
    refine ⟨_, by rw [h1.2, if_pos hl], ?_, ?_, by simp, by simp⟩
    · rw [get_modify_self _ (by simpa using hbv), emit_get,
        bget_hit_get (by simpa using hbv)]
      simp [hl]
    · intro q hq
      rw [get_modify_ne _ hq, emit_get, bget_hit_get (by simpa using hbv)]
      simp [hq]
  · have hl : (s.get b).lock ≠ none := by simpa [bget_hit] using h1.1
    refine ⟨_, by rw [h1.2, if_neg hl], ?_, ?_, by simp, by simp⟩
    · rw [emit_get, bget_hit_get (by simpa using hbv)]
      simp [hl]
    · intro q hq
      rw [emit_get, bget_hit_get (by simpa using hbv)]
      simp [hq]

/-! ## `bread` -/

theorem bread_load_get {s : Sys} {b : Ptr} (hb : s.valid b) (q : Ptr) :
    (bread_load b s).get q = if q = b then (s.get b).load s.disk else s.get q := by
  unfold bread_load Buf.load virtio_disk_rw
  by_cases hv : (s.get b).valid = 0
  · by_cases h : q = b
    · subst h; simp [hv, get_modify, hb]
    · simp [hv, get_modify, h]
  · by_cases h : q = b
    · subst h; simp [hv]
    · simp [hv, h]

@[simp] theorem bread_load_length (b : Ptr) (s : Sys) :
    (bread_load b s).buf.length = s.buf.length := by
  unfold bread_load virtio_disk_rw
  split <;> simp

@[simp] theorem bread_load_disk (b : Ptr) (s : Sys) : (bread_load b s).disk = s.disk := by
  unfold bread_load virtio_disk_rw
  split <;> simp

@[simp] theorem load_dev (x : Buf) (d : Nat → Nat → Data) : (x.load d).dev = x.dev := by
  unfold Buf.load; split <;> rfl

@[simp] theorem load_blockno (x : Buf) (d : Nat → Nat → Data) :
    (x.load d).blockno = x.blockno := by
  unfold Buf.load; split <;> rfl

@[simp] theorem load_refcnt (x : Buf) (d : Nat → Nat → Data) : (x.load d).refcnt = x.refcnt := by
  unfold Buf.load; split <;> rfl

@[simp] theorem load_lock (x : Buf) (d : Nat → Nat → Data) : (x.load d).lock = x.lock := by
  unfold Buf.load; split <;> rfl

@[simp] theorem load_next (x : Buf) (d : Nat → Nat → Data) : (x.load d).next = x.next := by
  unfold Buf.load; split <;> rfl

@[simp] theorem load_prev (x : Buf) (d : Nat → Nat → Data) : (x.load d).prev = x.prev := by
  unfold Buf.load; split <;> rfl

theorem load_valid_ne (x : Buf) (d : Nat → Nat → Data) : (x.load d).valid ≠ 0 := by
  unfold Buf.load; split <;> simp_all

theorem load_data (x : Buf) (d : Nat → Nat → Data) :
    (x.load d).data = if x.valid = 0 then d x.dev x.blockno else x.data := by
  unfold Buf.load; split <;> rfl

/-- The selection made by `bget` on a well-formed list, with the state it leaves
(`locked` tells whether the content lock was free and has been taken). -/
theorem WF.bget_inv {s : Sys} (hwf : WF s) {pid dev blockno : Nat} {b : Ptr} {s' : Sys}
    (h : bget pid s dev blockno = Result.ret b s' ∨ bget pid s dev blockno = Result.sleeps b s') :
    s.isSlot b ∧ s'.buf.length = s.buf.length ∧ s'.disk = s.disk ∧
    (∀ q, q ≠ b → s'.get q = s.get q) ∧
    ((bget pid s dev blockno = Result.ret b s' ∧ (s.get b).lock = none ∧
        (s'.get b).lock = some pid) ∨
     (bget pid s dev blockno = Result.sleeps b s' ∧ (s.get b).lock ≠ none ∧
        (s'.get b).lock = (s.get b).lock)) ∧
    ((s.cached dev blockno = some b ∧
        s'.get b = { s.get b with
          refcnt := ((s.get b).refcnt + 1) % UINT_MOD, lock := (s'.get b).lock }) ∨
     (s.cached dev blockno = none ∧ s.victim = some b ∧
        s'.get b = { s.get b with
          dev := dev, blockno := blockno, valid := 0, refcnt := 1,
          lock := (s'.get b).lock })) := by
  cases hc : s.cached dev blockno with
  | some c =>
    obtain ⟨t, ht, hb, ho, hlen, hdisk⟩ := hwf.bget_hit_res pid dev blockno hc
    have hcs : s.isSlot c := hwf.mem_lru.mp (cached_some hc).1
    by_cases hl : (s.get c).lock = none
    · rw [if_pos hl] at ht
      rw [ht] at h
      rcases h with h | h
      · simp only [Result.ret.injEq] at h
        obtain ⟨rfl, rfl⟩ := h
        refine ⟨hcs, hlen, hdisk, ho, Or.inl ⟨ht, hl, by rw [hb]; simp [hl]⟩, Or.inl ⟨rfl, ?_⟩⟩
        rw [hb]
      · cases h
    · rw [if_neg hl] at ht
      rw [ht] at h
      rcases h with h | h
      · cases h
      · simp only [Result.sleeps.injEq] at h
        obtain ⟨rfl, rfl⟩ := h
        refine ⟨hcs, hlen, hdisk, ho, Or.inr ⟨ht, hl, by rw [hb]; simp [hl]⟩, Or.inl ⟨rfl, ?_⟩⟩
        rw [hb]
  | none =>
    cases hv : s.victim with
    | none =>
      have := (hwf.bget_panic_iff pid dev blockno).mpr ⟨hc, hv⟩
      obtain ⟨m, t, ht⟩ := this
      rw [ht] at h
      rcases h with h | h <;> cases h
    | some c =>
      obtain ⟨t, ht, hb, ho, hlen, hdisk⟩ := hwf.bget_miss pid dev blockno hc hv
      have hcs : s.isSlot c := by
        obtain ⟨_, l1, l2, hl, _⟩ := victim_some hv
        exact hwf.mem_lru.mp (by rw [hl]; simp)
      by_cases hl : (s.get c).lock = none
      · rw [if_pos hl] at ht
        rw [ht] at h
        rcases h with h | h
        · simp only [Result.ret.injEq] at h
          obtain ⟨rfl, rfl⟩ := h
          refine ⟨hcs, hlen, hdisk, ho, Or.inl ⟨ht, hl, by rw [hb]; simp [hl]⟩,
            Or.inr ⟨rfl, rfl, ?_⟩⟩
          rw [hb]
        · cases h
      · rw [if_neg hl] at ht
        rw [ht] at h
        rcases h with h | h
        · cases h
        · simp only [Result.sleeps.injEq] at h
          obtain ⟨rfl, rfl⟩ := h
          refine ⟨hcs, hlen, hdisk, ho, Or.inr ⟨ht, hl, by rw [hb]; simp [hl]⟩,
            Or.inr ⟨rfl, rfl, ?_⟩⟩
          rw [hb]

theorem bread_ret_iff {s s1 : Sys} {pid dev blockno : Nat} {b : Ptr} :
    bread pid s dev blockno = Result.ret b s1 ↔
      ∃ s0, bget pid s dev blockno = Result.ret b s0 ∧ s1 = bread_load b s0 := by
  unfold bread
  cases h : bget pid s dev blockno <;> simp
  constructor
  · rintro ⟨rfl, rfl⟩; exact ⟨_, ⟨rfl, rfl⟩, rfl⟩
  · rintro ⟨_, ⟨rfl, rfl⟩, rfl⟩; exact ⟨rfl, rfl⟩

theorem bread_sleeps_iff {s s1 : Sys} {pid dev blockno : Nat} {b : Ptr} :
    bread pid s dev blockno = Result.sleeps b s1 ↔
      bget pid s dev blockno = Result.sleeps b s1 := by
  unfold bread
  cases h : bget pid s dev blockno <;> simp

theorem bread_panic_iff {s s1 : Sys} {pid dev blockno : Nat} {m : String} :
    bread pid s dev blockno = Result.panic m s1 ↔
      bget pid s dev blockno = Result.panic m s1 := by
  unfold bread
  cases h : bget pid s dev blockno <;> simp

/-- The recency order only depends on the `next` links. -/
theorem lru_eq_of_get {s s' : Sys} (hlen : s'.buf.length = s.buf.length) {b : Ptr}
    (ho : ∀ q, q ≠ b → s'.get q = s.get q) (hb : (s'.get b).next = (s.get b).next) :
    s'.lru = s.lru := by
  apply lru_congr hlen
  intro q
  by_cases h : q = b
  · rw [h, hb]
  · rw [ho q h]

theorem WF.of_get {s s' : Sys} (hwf : WF s) (hlen : s'.buf.length = s.buf.length) {b : Ptr}
    (ho : ∀ q, q ≠ b → s'.get q = s.get q) (hn : (s'.get b).next = (s.get b).next)
    (hp : (s'.get b).prev = (s.get b).prev) : WF s' := by
  apply hwf.congr hlen
  · intro q
    by_cases h : q = b
    · rw [h, hn]
    · rw [ho q h]
  · intro q
    by_cases h : q = b
    · rw [h, hp]
    · rw [ho q h]

theorem WF.tail_eq {s : Sys} (hwf : WF s) {l : List Ptr} {b : Ptr} (h : s.lru = l ++ [b]) :
    s.head.prev = b := by
  have hl := hwf.1.1
  rw [h, Linked.snoc] at hl
  exact hl.2.2

/-- C4 (eviction choice on a miss): on a well-formed pool, for a key no slot has,
if some slot has `refcnt == 0` then `bget` selects the slot `b` with `refcnt == 0`
nearest the tail of the recency list (`lru = l1 ++ b :: l2` with every slot of `l2`
at `refcnt > 0`), and in the state `s'` it leaves (returned at once when the
content lock of `b` is free, the caller suspended on it otherwise) `b` has identity
`(dev, blockno)`, `valid = 0`, `refcnt = 1` and its other fields as before (the
content lock taken when it was free), every other slot and the sentinel are
unchanged, and so are the recency order and the device; when all slots have
`refcnt == 0` the slot chosen is the tail `head.prev`. -/
theorem C4_miss_recycles_lru_tail (s : Sys) (hwf : WF s) (pid dev blockno : Nat)
    (hmiss : ∀ p, s.isSlot p → s.key p ≠ (dev, blockno))
    (hfree : ∃ p, s.isSlot p ∧ (s.get p).refcnt = 0) :
    ∃ b l1 l2 s', s.isSlot b ∧ s.lru = l1 ++ b :: l2 ∧ (s.get b).refcnt = 0 ∧
      (∀ q ∈ l2, 0 < (s.get q).refcnt) ∧
      bget pid s dev blockno =
        (if (s.get b).lock = none then Result.ret b s' else Result.sleeps b s') ∧
      s'.get b =
        { s.get b with
          dev := dev, blockno := blockno, valid := 0, refcnt := 1,
          lock := if (s.get b).lock = none then some pid else (s.get b).lock } ∧
      (∀ q, q ≠ b → s'.get q = s.get q) ∧ s'.NBUF = s.NBUF ∧
      s'.lru = s.lru ∧ s'.disk = s.disk ∧
      ((∀ p, s.isSlot p → (s.get p).refcnt = 0) → b = s.head.prev) := by
  have hc : s.cached dev blockno = none := (cached_eq_none_iff hwf).mpr hmiss
  have hv : ∃ b, s.victim = some b := by
    cases hv : s.victim with
    | some b => exact ⟨b, rfl⟩
    | none =>
      obtain ⟨p, hp, hr⟩ := hfree
      exact absurd hr ((victim_eq_none_iff hwf).mp hv p hp)
  obtain ⟨b, hv⟩ := hv
  obtain ⟨hr, l1, l2, hl, hl2⟩ := victim_some hv
  obtain ⟨s', hres, hb, ho, hlen, hdisk⟩ := hwf.bget_miss pid dev blockno hc hv
  have hbs : s.isSlot b := hwf.mem_lru.mp (by rw [hl]; simp)
  refine ⟨b, l1, l2, s', hbs, hl, hr, fun q hq => Nat.pos_of_ne_zero (hl2 q hq), hres, hb, ho,
    by unfold Sys.NBUF; rw [hlen], lru_eq_of_get hlen ho (by rw [hb]), hdisk, ?_⟩
  intro hall
  have : l2 = [] := by
    cases l2 with
    | nil => rfl
    | cons c l2 =>
      have hcm : c ∈ s.lru := by rw [hl]; simp
      exact absurd (hall c (hwf.mem_lru.mp hcm)) (hl2 c (List.mem_cons_self _ _))
  subst this
  exact (hwf.tail_eq hl).symm

/-! ## Hits -/

theorem cached_congr {s s' : Sys} (hl : s'.lru = s.lru)
    (hk : ∀ q, (s'.get q).dev = (s.get q).dev ∧ (s'.get q).blockno = (s.get q).blockno)
    (dev blockno : Nat) : s'.cached dev blockno = s.cached dev blockno := by
  unfold Sys.cached
  rw [hl]
  congr 1
  funext q
  rw [(hk q).1, (hk q).2]

theorem cached_after_miss {s s' : Sys} {dev blockno : Nat} {b : Ptr}
    (hnd : s.lru.Nodup) (hc : s.cached dev blockno = none) (hb : b ∈ s.lru)
    (hl : s'.lru = s.lru) (hkb : (s'.get b).dev = dev ∧ (s'.get b).blockno = blockno)
    (ho : ∀ q, q ≠ b → s'.get q = s.get q) : s'.cached dev blockno = some b := by
  unfold Sys.cached
  rw [hl, List.find?_eq_some]
  refine ⟨by simp [hkb], ?_⟩
  obtain ⟨as, bs, habs⟩ := List.append_of_mem hb
  refine ⟨as, bs, habs, ?_⟩
  intro a ha
  have hab : a ≠ b := by
    rintro rfl
    rw [habs] at hnd
    have := (List.nodup_middle.mp hnd)
    exact (List.nodup_cons.mp this).1 (List.mem_append_left _ ha)
  have hk := cached_none hc a (by rw [habs]; exact List.mem_append_left _ ha)
  rw [ho a hab]
  simp only [Sys.key, ne_eq, Prod.mk.injEq] at hk
  simp only [Bool.not_eq_true', decide_eq_false_iff_not]
  exact hk

/-- After `bget` has selected `b` for a key, `b` is the first slot in recency order
with that key, the list is still well formed and in the same order. -/
theorem WF.bget_post {s : Sys} (hwf : WF s) {pid dev blockno : Nat} {b : Ptr} {s' : Sys}
    (h : bget pid s dev blockno = Result.ret b s' ∨ bget pid s dev blockno = Result.sleeps b s') :
    WF s' ∧ s'.lru = s.lru ∧ s'.cached dev blockno = some b ∧ (s'.get b).lock ≠ none ∧
      (s'.get b).refcnt = ((s.get b).refcnt + 1) % UINT_MOD ∧
      (s.cached dev blockno = none → (s.get b).refcnt = 0) := by
  obtain ⟨hbs, hlen, hdisk, ho, hlock, hcase⟩ := hwf.bget_inv h
  have hn : (s'.get b).next = (s.get b).next := by
    rcases hcase with hh | hh
    · rw [hh.2]
    · rw [hh.2.2]
  have hp : (s'.get b).prev = (s.get b).prev := by
    rcases hcase with hh | hh
    · rw [hh.2]
    · rw [hh.2.2]
  have hl : s'.lru = s.lru := lru_eq_of_get hlen ho hn
  have hlk : (s'.get b).lock ≠ none := by
    rcases hlock with hh | hh
    · rw [hh.2.2]; simp
    · rw [hh.2.2]; exact hh.2.1
  refine ⟨hwf.of_get hlen ho hn hp, hl, ?_, hlk, ?_, ?_⟩
  · rcases hcase with hh | hh
    · rw [← hh.1]
      apply cached_congr hl
      intro q
      by_cases hq : q = b
      · rw [hq, hh.2]; exact ⟨rfl, rfl⟩
      · rw [ho q hq]; exact ⟨rfl, rfl⟩
    · apply cached_after_miss hwf.1.2.1 hh.1 (hwf.mem_lru.mpr hbs) hl _ ho
      rw [hh.2.2]; exact ⟨rfl, rfl⟩
  · rcases hcase with hh | hh
    · rw [hh.2]
    · rw [hh.2.2, (victim_some hh.2.1).1]; rfl
  · intro hc
    rcases hcase with hh | hh
    · rw [hc] at hh; cases hh.1
    · exact (victim_some hh.2.1).1

theorem WF.bread_post {s : Sys} (hwf : WF s) {pid dev blockno : Nat} {b : Ptr} {s' : Sys}
    (h : bread pid s dev blockno = Result.ret b s' ∨
      bread pid s dev blockno = Result.sleeps b s') :
    WF s' ∧ s'.lru = s.lru ∧ s'.cached dev blockno = some b ∧ (s'.get b).lock ≠ none ∧
      (s'.get b).refcnt = ((s.get b).refcnt + 1) % UINT_MOD ∧
      (s.cached dev blockno = none → (s.get b).refcnt = 0) := by
  rcases h with h | h
  · obtain ⟨s0, h0, rfl⟩ := bread_ret_iff.mp h
    obtain ⟨hwf0, hl0, hc0, hlk0, hr0, hm0⟩ := hwf.bget_post (Or.inl h0)
    have hbs : s.isSlot b := (hwf.bget_inv (Or.inl h0)).1
    have hbv : s0.valid b :=
      isSlot_valid ((isSlot_congr (hwf.bget_inv (Or.inl h0)).2.1 b).mpr hbs)
    have hg := bread_load_get hbv
    have hl : (bread_load b s0).lru = s0.lru :=
      lru_congr (by simp) (fun q => by rw [hg]; split_ifs with hq <;> simp [hq])
    refine ⟨?_, by rw [hl, hl0], ?_, ?_, ?_, hm0⟩
    · apply hwf0.congr (by simp)
      · intro q; rw [hg]; split_ifs with hq <;> simp [hq]
      · intro q; rw [hg]; split_ifs with hq <;> simp [hq]
    · rw [← hc0]
      apply cached_congr hl
      intro q; rw [hg]; split_ifs with hq <;> simp [hq]
    · rw [hg]; simpa using hlk0
    · rw [hg]; simpa using hr0
  · exact hwf.bget_post (Or.inr (bread_sleeps_iff.mp h))

theorem WF.bread_twice {s : Sys} (hwf : WF s) (pid pid2 dev blockno : Nat)
    {b : Ptr} {s1 : Sys}
    (h1 : bread pid s dev blockno = Result.ret b s1 ∨
      bread pid s dev blockno = Result.sleeps b s1) :
    ∃ s2, bread pid2 s1 dev blockno = Result.sleeps b s2 ∧
      (s1.get b).refcnt = ((s.get b).refcnt + 1) % UINT_MOD ∧
      (s2.get b).refcnt = ((s1.get b).refcnt + 1) % UINT_MOD ∧
      ((s.get b).refcnt + 2 < UINT_MOD →
        (s1.get b).refcnt = (s.get b).refcnt + 1 ∧ (s2.get b).refcnt = (s.get b).refcnt + 2) ∧
      (s.cached dev blockno = none → (s.get b).refcnt = 0 ∧ (s1.get b).refcnt = 1) ∧
      s1.lru = s.lru ∧ s2.lru = s1.lru := by
  obtain ⟨hwf1, hl1, hc1, hlk1, hr1, hm1⟩ := hwf.bread_post h1
  obtain ⟨s2, hres, hb2, ho2, hlen2, hdisk2⟩ := hwf1.bget_hit_res pid2 dev blockno hc1
  rw [if_neg hlk1] at hres
  have h2 : bread pid2 s1 dev blockno = Result.sleeps b s2 := bread_sleeps_iff.mpr hres
  obtain ⟨_, hl2, _, _, hr2, _⟩ := hwf1.bread_post (Or.inr h2)
  refine ⟨s2, h2, hr1, hr2, ?_, ?_, hl1, hl2⟩
  · intro hlt
    have e1 : (s1.get b).refcnt = (s.get b).refcnt + 1 := by
      rw [hr1]; exact Nat.mod_eq_of_lt (by omega)
    refine ⟨e1, ?_⟩
    rw [hr2, e1]; exact Nat.mod_eq_of_lt (by omega)
  · intro hc
    have := hm1 hc
    refine ⟨this, ?_⟩
    rw [hr1, this]; rfl

/-! ## `brelse` -/

theorem Chain.next_valid {s : Sys} {xs ys : List Ptr} {b : Ptr} (h : Chain s (xs ++ b :: ys)) :
    s.valid (s.get b).next := by
  rcases Linked.next_mem h.1 with hm | hm
  · exact isSlot_valid (h.2.2 _ (by simp [hm]))
  · rw [hm]; trivial

theorem Chain.prev_valid {s : Sys} {xs ys : List Ptr} {b : Ptr} (h : Chain s (xs ++ b :: ys)) :
    s.valid (s.get b).prev := by
  rcases Linked.prev_mem h.1 with hm | hm
  · rw [hm]; trivial
  · exact isSlot_valid (h.2.2 _ (by simp [hm]))

/-- Linking slot `b`, which is not in the list, in right after the sentinel, as
the last four stores of `brelse` do. -/
theorem Chain.push_front {s : Sys} {l : List Ptr} {b : Ptr}
    (h : Chain s l) (hb : s.isSlot b) (hnot : b ∉ l) :
    Chain ((((s.modify b fun x => { x with next := s.head.next }).modify b
      fun x => { x with prev := Ptr.head }).modify
        ((s.modify b fun x => { x with next := s.head.next }).modify b
          fun x => { x with prev := Ptr.head }).head.next
        fun x => { x with prev := b }).modify Ptr.head fun x => { x with next := b })
      (b :: l) := by
  have hbv : s.valid b := isSlot_valid hb
  have hbh : b ≠ Ptr.head := isSlot_ne_head hb
  have hhb : Ptr.head ≠ b := fun e => hbh e.symm
  have hnv : s.valid (s.get Ptr.head).next := h.next_head_valid
  refine Chain.insert_head h hb hnot (by intro q; simp) ?_ ?_
  · intro q
    simp only [head_eq_get, get_modify_next_pres, get_modify_prev_pres, get_modify_next_set,
      get_modify_prev_set, modify_valid]
    by_cases h1 : q = Ptr.head
    · subst h1; simp [Sys.valid]
    · by_cases h2 : q = b
      · subst h2; simp [hbv, hhb, h1]
      · simp [h1, h2]
  · intro q
    simp only [head_eq_get, get_modify_next_pres, get_modify_prev_pres, get_modify_next_set,
      get_modify_prev_set, modify_valid]
    by_cases h1 : q = (s.get Ptr.head).next
    · subst h1; simp [hnv, hhb]
    · by_cases h2 : q = b
      · subst h2; simp [h1, hbv, hhb]
      · simp [h1, h2, hhb]

/-- The relinking of `brelse` moves `b` to the front of the list and keeps the
other slots in their order. -/
theorem Chain.relink {s : Sys} {xs ys : List Ptr} {b : Ptr} (h : Chain s (xs ++ b :: ys)) :
    Chain (brelse_relink s b) (b :: (xs ++ ys)) := by
  have hb : s.isSlot b := h.2.2 b (by simp)
  have hnv := h.next_valid
  have hpv := h.prev_valid
  have hu := @Chain.unlink s ((s.modify (s.get b).next
      fun x => { x with prev := (s.get b).prev }).modify
        ((s.modify (s.get b).next fun x => { x with prev := (s.get b).prev }).get b).prev
        fun x => { x with next :=
          ((s.modify (s.get b).next fun x => { x with prev := (s.get b).prev }).get b).next })
    xs ys b h (by intro q; simp) ?_ ?_
  · exact Chain.push_front hu.1 (by simpa using hb) hu.2
  · intro q
    simp only [get_modify_next_pres, get_modify_prev_pres, get_modify_next_set,
      get_modify_prev_set, modify_valid, ite_self]
    by_cases h1 : q = (s.get b).prev
    · simp [h1, hpv]
    · simp [h1]
  · intro q
    simp only [get_modify_next_pres, get_modify_prev_pres, get_modify_next_set,
      get_modify_prev_set, modify_valid, ite_self]
    by_cases h1 : q = (s.get b).next
    · simp [h1, hnv]
    · simp [h1]

theorem brelse_eq {s : Sys} {pid : Nat} {b : Ptr} (h : holdingsleep pid b s = true) :
    brelse pid s b = Result.ret ()
      (release (if ((brelse_dec s b).get b).refcnt = 0 then brelse_relink (brelse_dec s b) b
        else brelse_dec s b)) := by
  unfold brelse brelse_dec
  simp [h]

theorem brelse_ret_iff {s s' : Sys} {pid : Nat} {b : Ptr} :
    brelse pid s b = Result.ret () s' ↔ holdingsleep pid b s = true ∧
      s' = release (if ((brelse_dec s b).get b).refcnt = 0 then
        brelse_relink (brelse_dec s b) b else brelse_dec s b) := by
  cases h : holdingsleep pid b s
  · simp [brelse, h]
  · rw [brelse_eq h]
    simp only [Result.ret.injEq, true_and]
    exact eq_comm

theorem brelse_dec_get {s : Sys} {b : Ptr} (hb : s.valid b) (q : Ptr) :
    (brelse_dec s b).get q =
      if q = b then
        { s.get b with
          lock := none, refcnt := ((s.get b).refcnt + UINT_MOD - 1) % UINT_MOD }
      else s.get q := by
  unfold brelse_dec releasesleep acquire
  by_cases h : q = b
  · subst h; simp [get_modify, hb]
  · simp [get_modify, h]

@[simp] theorem brelse_dec_length (s : Sys) (b : Ptr) :
    (brelse_dec s b).buf.length = s.buf.length := by
  simp [brelse_dec, releasesleep]

@[simp] theorem brelse_dec_disk (s : Sys) (b : Ptr) : (brelse_dec s b).disk = s.disk := by
  simp [brelse_dec, releasesleep]

@[simp] theorem brelse_relink_length (s : Sys) (b : Ptr) :
    (brelse_relink s b).buf.length = s.buf.length := by
  simp [brelse_relink]

@[simp] theorem brelse_relink_disk (s : Sys) (b : Ptr) : (brelse_relink s b).disk = s.disk := by
  simp [brelse_relink]

/-- The relinking of `brelse` only writes `prev` and `next`. -/
theorem brelse_relink_fields (s : Sys) (b q : Ptr) :
    ((brelse_relink s b).get q).valid = (s.get q).valid ∧
    ((brelse_relink s b).get q).dev = (s.get q).dev ∧
    ((brelse_relink s b).get q).blockno = (s.get q).blockno ∧
    ((brelse_relink s b).get q).lock = (s.get q).lock ∧
    ((brelse_relink s b).get q).refcnt = (s.get q).refcnt ∧
    ((brelse_relink s b).get q).data = (s.get q).data := by
  simp [brelse_relink]

theorem WF.brelse_dec {s : Sys} (hwf : WF s) {b : Ptr} (hb : s.isSlot b) :
    WF (brelse_dec s b) ∧ (Bio.brelse_dec s b).lru = s.lru := by
  have hg := brelse_dec_get (isSlot_valid hb)
  constructor
  · apply hwf.congr (by simp)
    · intro q; rw [hg]; split_ifs with hq <;> simp [hq]
    · intro q; rw [hg]; split_ifs with hq <;> simp [hq]
  · apply lru_congr (by simp)
    intro q; rw [hg]; split_ifs with hq <;> simp [hq]

theorem erase_middle {xs ys : List Ptr} {b : Ptr} (h : (xs ++ b :: ys).Nodup) :
    (xs ++ b :: ys).erase b = xs ++ ys := by
  have hb : b ∉ xs := by
    have := List.nodup_middle.mp h
    exact fun hm => (List.nodup_cons.mp this).1 (List.mem_append_left _ hm)
  rw [List.erase_append_right _ hb, List.erase_cons_head]

/-- On a well-formed list the relinking of `brelse` moves `b` to the front. -/
theorem WF.relink_wf {s : Sys} (hwf : WF s) {b : Ptr} (hb : s.isSlot b) :
    WF (brelse_relink s b) ∧ (brelse_relink s b).lru = b :: s.lru.erase b := by
  obtain ⟨xs, ys, hl⟩ := List.append_of_mem (hwf.mem_lru.mpr hb)
  have hc : Chain s (xs ++ b :: ys) := hl ▸ hwf.1
  have hc' := hc.relink
  have hlen : (b :: (xs ++ ys)).length = (brelse_relink s b).NBUF := by
    have := hwf.2
    rw [hl] at this
    simp only [Sys.NBUF, brelse_relink_length]
    simp only [Sys.NBUF] at this
    simp only [List.length_cons, List.length_append] at this ⊢
    omega
  refine ⟨hc'.wf hlen, ?_⟩
  rw [hc'.lru_eq, hl, erase_middle hc.2.1]

/-- What a returning `brelse` does on a well-formed list. -/
theorem WF.brelse_inv {s s' : Sys} (hwf : WF s) {pid : Nat} {b : Ptr} (hb : s.isSlot b)
    (h : brelse pid s b = Result.ret () s') :
    holdingsleep pid b s = true ∧ WF s' ∧ s'.buf.length = s.buf.length ∧ s'.disk = s.disk ∧
    (∀ q, (s'.get q).valid = (s.get q).valid ∧ (s'.get q).dev = (s.get q).dev ∧
      (s'.get q).blockno = (s.get q).blockno ∧ (s'.get q).data = (s.get q).data ∧
      (s'.get q).lock = (if q = b then none else (s.get q).lock) ∧
      (s'.get q).refcnt =
        (if q = b then ((s.get b).refcnt + UINT_MOD - 1) % UINT_MOD else (s.get q).refcnt)) ∧
    ((s'.get b).refcnt = 0 → s'.lru = b :: s.lru.erase b) ∧
    ((s'.get b).refcnt ≠ 0 → s'.lru = s.lru ∧
      ∀ q, (s'.get q).next = (s.get q).next ∧ (s'.get q).prev = (s.get q).prev) := by
  obtain ⟨hh, rfl⟩ := brelse_ret_iff.mp h
  have hbv := isSlot_valid hb
  have hg := brelse_dec_get hbv
  obtain ⟨hwfd, hld⟩ := hwf.brelse_dec hb
  have hbd : (Bio.brelse_dec s b).isSlot b := (isSlot_congr (by simp) b).mpr hb
  by_cases hz : ((Bio.brelse_dec s b).get b).refcnt = 0
  · simp only [hz, if_true, release_get, release_buf, release_disk, release_lru]
    obtain ⟨hwfr, hlr⟩ := hwfd.relink_wf hbd
    have hf := brelse_relink_fields (Bio.brelse_dec s b) b
    refine ⟨hh, emit_wf _ hwfr, by simp, by simp, ?_, ?_, ?_⟩
    · intro q
      obtain ⟨f1, f2, f3, f4, f5, f6⟩ := hf q
      rw [f1, f2, f3, f4, f5, f6, hg]
      by_cases hq : q = b <;> simp [hq]
    · intro _; rw [hlr, hld]
    · intro hne
      rw [(hf b).2.2.2.2.1] at hne
      exact absurd hz hne
  · simp only [hz, if_false, release_get, release_buf, release_disk, release_lru]
    refine ⟨hh, emit_wf _ hwfd, by simp, by simp, ?_, ?_, ?_⟩
    · intro q
      rw [hg]
      by_cases hq : q = b <;> simp [hq]
    · intro h0; exact h0.elim
    · intro _
      refine ⟨hld, ?_⟩
      intro q; rw [hg]
      by_cases hq : q = b <;> simp [hq]

theorem WF.head_next_eq {s : Sys} (hwf : WF s) {b : Ptr} {l : List Ptr} (h : s.lru = b :: l) :
    s.head.next = b := by
  have hl := hwf.1.1
  rw [h] at hl
  simp only [Linked] at hl
  exact hl.1

theorem uint_dec_succ {r : Nat} (h0 : 0 < r) (hlt : r < UINT_MOD) :
    (r + UINT_MOD - 1) % UINT_MOD + 1 = r := by
  unfold UINT_MOD at *
  omega

/-- C9 amended (recency update on release): on a well-formed pool, for a slot `b`
whose content lock the caller holds, `brelse(b)` returns, releases the content
lock and applies the `uint` decrement `refcnt--` to `refcnt` of `b`: the new
value is the old one less one modulo `2^32`, which is exactly one less for a
counter in `1 .. 2^32-1` and is `2^32-1` for a counter at 0; the list stays well
formed; if the new `refcnt`
is 0 then `b` is the first element of the recency list (`head.next`) and the other
slots keep their relative order (the new order is `b` followed by the old order
without `b`, also when `b` was already first or was the tail); if the new `refcnt`
is not 0 the recency order and every `next`/`prev` link are exactly as before. -/
theorem C9_amended_brelse_moves_to_head (s : Sys) (hwf : WF s) (pid : Nat) (b : Ptr)
    (hb : s.isSlot b) (hh : holdingsleep pid b s = true) :
    ∃ s', brelse pid s b = Result.ret () s' ∧ WF s' ∧
      (s'.get b).refcnt = ((s.get b).refcnt + UINT_MOD - 1) % UINT_MOD ∧
      (0 < (s.get b).refcnt → (s.get b).refcnt < UINT_MOD →
        (s'.get b).refcnt + 1 = (s.get b).refcnt) ∧
      (s'.get b).lock = none ∧
      (∀ q, q ≠ b → (s'.get q).refcnt = (s.get q).refcnt) ∧
      ((s'.get b).refcnt = 0 → s'.lru = b :: s.lru.erase b ∧ s'.head.next = b) ∧
      ((s'.get b).refcnt ≠ 0 → s'.lru = s.lru ∧
        ∀ q, (s'.get q).next = (s.get q).next ∧ (s'.get q).prev = (s.get q).prev) := by
  have hres := brelse_eq hh
  obtain ⟨_, hwf', _, _, hf, hz, hnz⟩ := hwf.brelse_inv hb hres
  refine ⟨_, hres, hwf', ?_, ?_, ?_, ?_, ?_, hnz⟩
  · rw [(hf b).2.2.2.2.2]; simp
  · intro h0 hlt
    rw [(hf b).2.2.2.2.2]; simp only [if_true]
    exact uint_dec_succ h0 hlt
  · rw [(hf b).2.2.2.2.1]; simp
  · intro q hq
    rw [(hf q).2.2.2.2.2]; simp [hq]
  · intro h0
    exact ⟨hz h0, hwf'.head_next_eq (hz h0)⟩

/-! ## The calls of a run, one by one -/

/-- What `bread` does on a well-formed list, whether it returns `b` or leaves its
caller waiting for the content lock of `b`: `x` is the slot `b` as `bget` leaves
it. -/
theorem WF.bread_inv {s : Sys} (hwf : WF s) {pid dev blockno : Nat} {b : Ptr} {s' : Sys}
    (h : bread pid s dev blockno = Result.ret b s' ∨
      bread pid s dev blockno = Result.sleeps b s') :
    s.isSlot b ∧ s'.buf.length = s.buf.length ∧ s'.disk = s.disk ∧
    (∀ q, q ≠ b → s'.get q = s.get q) ∧
    ∃ x : Buf,
      ((s.cached dev blockno = some b ∧
          x = { s.get b with refcnt := ((s.get b).refcnt + 1) % UINT_MOD, lock := x.lock }) ∨
        (s.cached dev blockno = none ∧ s.victim = some b ∧
          x = { s.get b with
            dev := dev, blockno := blockno, valid := 0, refcnt := 1, lock := x.lock })) ∧
      ((bread pid s dev blockno = Result.ret b s' ∧ (s.get b).lock = none ∧
          x.lock = some pid ∧ s'.get b = x.load s.disk) ∨
        (bread pid s dev blockno = Result.sleeps b s' ∧ (s.get b).lock ≠ none ∧
          x.lock = (s.get b).lock ∧ s'.get b = x)) := by
  rcases h with h | h
  · obtain ⟨s0, h0, rfl⟩ := bread_ret_iff.mp h
    obtain ⟨hbs, hlen, hdisk, ho, hlock, hcase⟩ := hwf.bget_inv (Or.inl h0)
    have hbv : s0.valid b := isSlot_valid ((isSlot_congr hlen b).mpr hbs)
    have hg := bread_load_get hbv
    refine ⟨hbs, by simpa using hlen, by simpa using hdisk, ?_, s0.get b, hcase, Or.inl ?_⟩
    · intro q hq; rw [hg, if_neg hq]; exact ho q hq
    · rcases hlock with hh | hh
      · exact ⟨h, hh.2.1, hh.2.2, by rw [hg, if_pos rfl, hdisk]⟩
      · rw [hh.1] at h0; cases h0
  · have h0 := bread_sleeps_iff.mp h
    obtain ⟨hbs, hlen, hdisk, ho, hlock, hcase⟩ := hwf.bget_inv (Or.inr h0)
    refine ⟨hbs, hlen, hdisk, ho, s'.get b, hcase, Or.inr ?_⟩
    rcases hlock with hh | hh
    · rw [hh.1] at h0; cases h0
    · exact ⟨h, hh.2.1, hh.2.2, rfl⟩

theorem bread_wake_ret_iff {s s' : Sys} {pid : Nat} {b b' : Ptr} :
    bread_wake pid b s = Result.ret b' s' ↔
      (s.get b).lock = none ∧ b' = b ∧
        s' = bread_load b (s.modify b (fun x => { x with lock := some pid })) := by
  unfold bread_wake
  cases h : (s.get b).lock with
  | none =>
    simp only [Result.ret.injEq, true_and]
    constructor
    · rintro ⟨rfl, rfl⟩; exact ⟨rfl, rfl⟩
    · rintro ⟨rfl, rfl⟩; exact ⟨rfl, rfl⟩
  | some o => simp

theorem bread_wake_get {s : Sys} {b : Ptr} (pid : Nat) (hb : s.valid b) (q : Ptr) :
    (bread_load b (s.modify b (fun x => { x with lock := some pid }))).get q =
      if q = b then ({ s.get b with lock := some pid } : Buf).load s.disk else s.get q := by
  rw [bread_load_get (by simpa using hb)]
  by_cases h : q = b
  · subst h; simp [get_modify, hb]
  · simp [get_modify, h]

theorem bwrite_ret_iff {s s' : Sys} {pid : Nat} {b : Ptr} :
    bwrite pid s b = Result.ret () s' ↔
      holdingsleep pid b s = true ∧ s' = virtio_disk_rw b 1 s := by
  unfold bwrite
  cases h : holdingsleep pid b s
  · simp
  · simp only [Bool.not_true, Bool.false_eq_true, if_false, Result.ret.injEq, true_and]
    exact eq_comm

@[simp] theorem disk_write_get (s : Sys) (b q : Ptr) :
    (virtio_disk_rw b 1 s).get q = s.get q := by
  unfold virtio_disk_rw
  cases q <;> simp [Sys.get, Sys.emit]

@[simp] theorem disk_write_buf (s : Sys) (b : Ptr) : (virtio_disk_rw b 1 s).buf = s.buf := by
  unfold virtio_disk_rw
  simp [Sys.emit]

theorem disk_write_disk (s : Sys) (b : Ptr) (d n : Nat) :
    (virtio_disk_rw b 1 s).disk d n =
      if d = (s.get b).dev ∧ n = (s.get b).blockno then (s.get b).data else s.disk d n := by
  unfold virtio_disk_rw
  simp

theorem bpin_get {s : Sys} {b : Ptr} (hb : s.valid b) (q : Ptr) :
    (bpin s b).get q =
      if q = b then { s.get b with refcnt := ((s.get b).refcnt + 1) % UINT_MOD }
      else s.get q := by
  unfold bpin
  by_cases h : q = b
  · subst h; simp [get_modify, hb]
  · simp [get_modify, h]

theorem bunpin_get {s : Sys} {b : Ptr} (hb : s.valid b) (q : Ptr) :
    (bunpin s b).get q =
      if q = b then { s.get b with refcnt := ((s.get b).refcnt + UINT_MOD - 1) % UINT_MOD }
      else s.get q := by
  unfold bunpin
  by_cases h : q = b
  · subst h; simp [get_modify, hb]
  · simp [get_modify, h]

@[simp] theorem bpin_length (s : Sys) (b : Ptr) : (bpin s b).buf.length = s.buf.length := by
  simp [bpin]

@[simp] theorem bunpin_length (s : Sys) (b : Ptr) : (bunpin s b).buf.length = s.buf.length := by
  simp [bunpin]

@[simp] theorem bpin_disk (s : Sys) (b : Ptr) : (bpin s b).disk = s.disk := by
  simp [bpin]

@[simp] theorem bunpin_disk (s : Sys) (b : Ptr) : (bunpin s b).disk = s.disk := by
  simp [bunpin]

theorem store_get {s : Sys} {b : Ptr} (c : Data) (hb : s.valid b) (q : Ptr) :
    (s.modify b (fun x => { x with data := c })).get q =
      if q = b then { s.get b with data := c } else s.get q := by
  by_cases h : q = b
  · subst h; simp [get_modify, hb]
  · simp [get_modify, h]

theorem run_bread_iff {s s' : Sys} {pid dev blockno : Nat} :
    (Op.bread pid dev blockno).run s = some s' ↔
      ∃ b, bread pid s dev blockno = Result.ret b s' ∨
        bread pid s dev blockno = Result.sleeps b s' := by
  cases h : bread pid s dev blockno <;> simp [Op.run, h]

theorem run_wake_iff {s s' : Sys} {pid : Nat} {b : Ptr} :
    (Op.wake pid b).run s = some s' ↔
      (s.get b).lock = none ∧
        s' = bread_load b (s.modify b (fun x => { x with lock := some pid })) := by
  cases hl : (s.get b).lock with
  | none => simp [Op.run, bread_wake, hl, eq_comm]
  | some o => simp [Op.run, bread_wake, hl]

theorem run_store_iff {s s' : Sys} {pid : Nat} {b : Ptr} {c : Data} :
    (Op.store pid b c).run s = some s' ↔
      holdingsleep pid b s = true ∧ s' = s.modify b (fun x => { x with data := c }) := by
  cases h : holdingsleep pid b s
  · simp [Op.run, h]
  · simp [Op.run, h, eq_comm]

theorem run_bwrite_iff {s s' : Sys} {pid : Nat} {b : Ptr} :
    (Op.bwrite pid b).run s = some s' ↔ bwrite pid s b = Result.ret () s' := by
  cases h : bwrite pid s b <;> simp [Op.run, h]

theorem run_brelse_iff {s s' : Sys} {pid : Nat} {b : Ptr} :
    (Op.brelse pid b).run s = some s' ↔ brelse pid s b = Result.ret () s' := by
  cases h : brelse pid s b <;> simp [Op.run, h]

theorem run_bpin_iff {s s' : Sys} {b : Ptr} :
    (Op.bpin b).run s = some s' ↔ s' = bpin s b := by
  unfold Op.run
  simp only [Option.some.injEq]
  exact eq_comm

theorem run_bunpin_iff {s s' : Sys} {b : Ptr} :
    (Op.bunpin b).run s = some s' ↔ s' = bunpin s b := by
  unfold Op.run
  simp only [Option.some.injEq]
  exact eq_comm

/-! ## Well-formedness is kept by every call -/

/-- A state that differs from a well-formed one in one slot, and there not in
`prev`/`next`, is well formed, with the same recency order. -/
theorem WF.of_get_if {s s' : Sys} (hwf : WF s) (hlen : s'.buf.length = s.buf.length)
    {b : Ptr} {x : Buf} (hg : ∀ q, s'.get q = if q = b then x else s.get q)
    (hn : x.next = (s.get b).next) (hp : x.prev = (s.get b).prev) :
    WF s' ∧ s'.lru = s.lru := by
  have ho : ∀ q, q ≠ b → s'.get q = s.get q := fun q hq => by rw [hg, if_neg hq]
  have hb : s'.get b = x := by rw [hg, if_pos rfl]
  exact ⟨hwf.of_get hlen ho (by rw [hb, hn]) (by rw [hb, hp]),
    lru_eq_of_get hlen ho (by rw [hb, hn])⟩

theorem WF.run {s s' : Sys} (hwf : WF s) {op : Op}
    (hP : ∀ b, op.handle = some b → s.isSlot b) (h : op.run s = some s') : WF s' := by
  cases op with
  | bread pid dev blockno =>
    obtain ⟨b, hb⟩ := run_bread_iff.mp h
    exact (hwf.bread_post hb).1
  | wake pid b =>
    obtain ⟨_, rfl⟩ := run_wake_iff.mp h
    have hb := isSlot_valid (hP b rfl)
    exact (hwf.of_get_if (by simp) (bread_wake_get pid hb) (by simp) (by simp)).1
  | store pid b c =>
    obtain ⟨_, rfl⟩ := run_store_iff.mp h
    have hb := isSlot_valid (hP b rfl)
    exact (hwf.of_get_if (by simp) (store_get c hb) rfl rfl).1
  | bwrite pid b =>
    obtain ⟨_, rfl⟩ := bwrite_ret_iff.mp (run_bwrite_iff.mp h)
    exact hwf.congr (by simp) (fun q => by simp) (fun q => by simp)
  | brelse pid b =>
    exact (hwf.brelse_inv (hP b rfl) (run_brelse_iff.mp h)).2.1
  | bpin b =>
    rw [run_bpin_iff.mp h]
    have hb := isSlot_valid (hP b rfl)
    exact (hwf.of_get_if (by simp) (bpin_get hb) rfl rfl).1
  | bunpin b =>
    rw [run_bunpin_iff.mp h]
    have hb := isSlot_valid (hP b rfl)
    exact (hwf.of_get_if (by simp) (bunpin_get hb) rfl rfl).1

theorem Reachable.mono {P Q : Sys → Ptr → Prop} (hPQ : ∀ s b, P s b → Q s b) {s : Sys}
    (h : Reachable P s) : Reachable Q s := by
  induction h with
  | boot nbuf bsize disk => exact Reachable.boot nbuf bsize disk
  | step _ hs ih =>
    obtain ⟨op, hop, hrun⟩ := hs
    exact Reachable.step ih ⟨op, fun b hb => hPQ _ _ (hop b hb), hrun⟩

theorem Reachable.wf_of {s : Sys} (h : Reachable AnySlot s) : WF s := by
  induction h with
  | boot nbuf bsize disk => exact binit_wf _
  | step _ hs ih =>
    obtain ⟨op, hop, hrun⟩ := hs
    exact ih.run hop hrun

/-- C10 (recency-list well-formedness): `binit` establishes, from any state of the
pool, and every call of `bread` (returning or suspended on the content lock, and
its completion after the wait), `bwrite`, `brelse`, `bpin` and `bunpin` on a slot
of the pool (and a caller's store to a slot's bytes) preserves, that the
`next`/`prev` links form one circular doubly-linked list through the sentinel:
following `next` from `head` visits the slots of `lru` and returns to `head` with
`prev` leading back (`Linked`), and each of the `NBUF` slots occurs in it exactly
once. -/
theorem C10_list_well_formed :
    (∀ s : Sys, WF (binit s)) ∧
    (∀ s s' : Sys, WF s → Step AnySlot s s' → WF s') ∧
    (∀ s : Sys, WF s → Linked s Ptr.head s.lru Ptr.head ∧ s.lru.length = s.NBUF ∧
      ∀ p, s.isSlot p → s.lru.count p = 1) :=
  ⟨binit_wf, fun _ _ hwf ⟨_, hop, hrun⟩ => hwf.run hop hrun,
    fun _ hwf => ⟨hwf.1.1, hwf.2, fun _ hp => hwf.count_eq_one hp⟩⟩

/-! ## Identities -/

theorem key_of_get_if {s s' : Sys} {b : Ptr} {x : Buf}
    (hg : ∀ q, s'.get q = if q = b then x else s.get q)
    (hd : x.dev = (s.get b).dev) (hn : x.blockno = (s.get b).blockno) (q : Ptr) :
    s'.key q = s.key q := by
  unfold Sys.key
  rw [hg]
  by_cases h : q = b
  · rw [if_pos h, h, hd, hn]
  · rw [if_neg h]

/-- Identities only change in the miss path of `bget`, and only that of the slot
recycled, which had `refcnt == 0`. -/
theorem WF.run_keys {s s' : Sys} (hwf : WF s) {op : Op}
    (hP : ∀ b, op.handle = some b → s.isSlot b) (h : op.run s = some s') :
    (∀ q, s'.key q = s.key q) ∨
    (∃ pid dev blockno b, op = Op.bread pid dev blockno ∧ s.cached dev blockno = none ∧
      s.victim = some b ∧ s'.key b = (dev, blockno) ∧ ∀ q, q ≠ b → s'.key q = s.key q) := by
  cases op with
  | bread pid dev blockno =>
    obtain ⟨b, hb⟩ := run_bread_iff.mp h
    obtain ⟨hbs, hlen, hdisk, ho, x, hx, hres⟩ := hwf.bread_inv hb
    have hkb : s'.key b = (x.dev, x.blockno) := by
      unfold Sys.key
      rcases hres with hh | hh
      · rw [hh.2.2.2]; simp
      · rw [hh.2.2.2]
    have hko : ∀ q, q ≠ b → s'.key q = s.key q := fun q hq => by
      unfold Sys.key; rw [ho q hq]
    rcases hx with hh | hh
    · left
      intro q
      by_cases hq : q = b
      · rw [hq, hkb, hh.2]; rfl
      · exact hko q hq
    · right
      refine ⟨pid, dev, blockno, b, rfl, hh.1, hh.2.1, ?_, hko⟩
      rw [hkb, hh.2.2]
  | wake pid b =>
    obtain ⟨_, rfl⟩ := run_wake_iff.mp h
    exact Or.inl (key_of_get_if (bread_wake_get pid (isSlot_valid (hP b rfl))) (by simp) (by simp))
  | store pid b c =>
    obtain ⟨_, rfl⟩ := run_store_iff.mp h
    exact Or.inl (key_of_get_if (store_get c (isSlot_valid (hP b rfl))) rfl rfl)
  | bwrite pid b =>
    obtain ⟨_, rfl⟩ := bwrite_ret_iff.mp (run_bwrite_iff.mp h)
    exact Or.inl (fun q => by simp [Sys.key])
  | brelse pid b =>
    have hf := (hwf.brelse_inv (hP b rfl) (run_brelse_iff.mp h)).2.2.2.2.1
    exact Or.inl (fun q => by unfold Sys.key; rw [(hf q).2.1, (hf q).2.2.1])
  | bpin b =>
    rw [run_bpin_iff.mp h]
    exact Or.inl (key_of_get_if (bpin_get (isSlot_valid (hP b rfl))) rfl rfl)
  | bunpin b =>
    rw [run_bunpin_iff.mp h]
    exact Or.inl (key_of_get_if (bunpin_get (isSlot_valid (hP b rfl))) rfl rfl)

theorem WF.run_length {s s' : Sys} (hwf : WF s) {op : Op}
    (hP : ∀ b, op.handle = some b → s.isSlot b) (h : op.run s = some s') :
    s'.buf.length = s.buf.length := by
  cases op with
  | bread pid dev blockno =>
    obtain ⟨b, hb⟩ := run_bread_iff.mp h
    exact (hwf.bread_inv hb).2.1
  | wake pid b => obtain ⟨_, rfl⟩ := run_wake_iff.mp h; simp
  | store pid b c => obtain ⟨_, rfl⟩ := run_store_iff.mp h; simp
  | bwrite pid b => obtain ⟨_, rfl⟩ := bwrite_ret_iff.mp (run_bwrite_iff.mp h); simp
  | brelse pid b => exact (hwf.brelse_inv (hP b rfl) (run_brelse_iff.mp h)).2.2.1
  | bpin b => rw [run_bpin_iff.mp h]; simp
  | bunpin b => rw [run_bunpin_iff.mp h]; simp

/-- The fields `binit` does not write. -/
theorem binit_loop_fields (k : Nat) : ∀ (i : Nat) (s : Sys) (q : Ptr),
    ((binit_loop k i s).get q).valid = (s.get q).valid ∧
    ((binit_loop k i s).get q).dev = (s.get q).dev ∧
    ((binit_loop k i s).get q).blockno = (s.get q).blockno ∧
    ((binit_loop k i s).get q).refcnt = (s.get q).refcnt ∧
    ((binit_loop k i s).get q).data = (s.get q).data ∧
    (((s.get q).lock = none) → ((binit_loop k i s).get q).lock = none) := by
  induction k with
  | zero => intro i s q; simp [binit_loop]
  | succ k ih =>
    intro i s q
    simp only [binit_loop, initsleeplock]
    obtain ⟨h1, h2, h3, h4, h5, h6⟩ := ih (i + 1)
      (((((s.modify (Ptr.slot i) fun x => { x with next := s.head.next }).modify (Ptr.slot i)
        fun x => { x with prev := Ptr.head }).modify (Ptr.slot i)
          fun x => { x with lock := none }).modify
            (((s.modify (Ptr.slot i) fun x => { x with next := s.head.next }).modify (Ptr.slot i)
              fun x => { x with prev := Ptr.head }).modify (Ptr.slot i)
                fun x => { x with lock := none }).head.next
            fun x => { x with prev := Ptr.slot i }).modify Ptr.head
              fun x => { x with next := Ptr.slot i }) q
    rw [h1, h2, h3, h4, h5]
    refine ⟨by simp, by simp, by simp, by simp, by simp, ?_⟩
    intro hl
    apply h6
    simp [hl]

theorem binit_fields (s : Sys) (q : Ptr) :
    ((binit s).get q).valid = (s.get q).valid ∧
    ((binit s).get q).dev = (s.get q).dev ∧
    ((binit s).get q).blockno = (s.get q).blockno ∧
    ((binit s).get q).refcnt = (s.get q).refcnt ∧
    ((binit s).get q).data = (s.get q).data ∧
    (((s.get q).lock = none) → ((binit s).get q).lock = none) := by
  unfold binit
  obtain ⟨h1, h2, h3, h4, h5, h6⟩ := binit_loop_fields
    ((s.modify Ptr.head fun x => { x with prev := Ptr.head }).modify Ptr.head
      fun x => { x with next := Ptr.head }).NBUF 0
    ((s.modify Ptr.head fun x => { x with prev := Ptr.head }).modify Ptr.head
      fun x => { x with next := Ptr.head }) q
  simp only []
  rw [h1, h2, h3, h4, h5]
  refine ⟨by simp, by simp, by simp, by simp, by simp, ?_⟩
  intro hl
  apply h6
  simpa using hl

theorem zeroSys_get (nbuf bsize : Nat) (disk : Nat → Nat → Data) (q : Ptr) :
    ((zeroSys nbuf bsize disk).get q).valid = 0 ∧ ((zeroSys nbuf bsize disk).get q).dev = 0 ∧
    ((zeroSys nbuf bsize disk).get q).blockno = 0 ∧
    ((zeroSys nbuf bsize disk).get q).refcnt = 0 ∧
    ((zeroSys nbuf bsize disk).get q).lock = none := by
  cases q with
  | null => simp [Sys.get, zeroBuf]
  | head => simp [Sys.get, zeroSys, zeroBuf]
  | slot i =>
    by_cases hi : i < nbuf
    · simp [Sys.get, zeroSys, zeroBuf, List.getElem?_replicate, hi]
    · simp [Sys.get, zeroSys, zeroBuf, List.getElem?_replicate, hi]

/-- Right after `binit` on the zero-initialised pool every slot has identity
`(0, 0)`, `refcnt` 0, `valid` 0 and a free content lock. -/
theorem boot_get (nbuf bsize : Nat) (disk : Nat → Nat → Data) (q : Ptr) :
    ((binit (zeroSys nbuf bsize disk)).get q).valid = 0 ∧
    ((binit (zeroSys nbuf bsize disk)).get q).dev = 0 ∧
    ((binit (zeroSys nbuf bsize disk)).get q).blockno = 0 ∧
    ((binit (zeroSys nbuf bsize disk)).get q).refcnt = 0 ∧
    ((binit (zeroSys nbuf bsize disk)).get q).lock = none := by
  obtain ⟨h1, h2, h3, h4, _, h6⟩ := binit_fields (zeroSys nbuf bsize disk) q
  obtain ⟨z1, z2, z3, z4, z5⟩ := zeroSys_get nbuf bsize disk q
  exact ⟨h1.trans z1, h2.trans z2, h3.trans z3, h4.trans z4, h6 z5⟩

theorem KeysUnique.run_keysUnique {s s' : Sys} (inv : KeysUnique s) (hwf : WF s) {op : Op}
    (hP : ∀ b, op.handle = some b → s.isSlot b) (h : op.run s = some s') : KeysUnique s' := by
  have hlen := hwf.run_length hP h
  intro p q hp hq hne hk
  rw [isSlot_congr hlen] at hp hq
  rcases hwf.run_keys hP h with hk' | ⟨pid, dev, blockno, b, _, hc, _, hkb, hko⟩
  · rw [hk' p, hk' q] at hk
    rw [hk' p]
    exact inv p q hp hq hne hk
  · have hnone := (cached_eq_none_iff hwf).mp hc
    by_cases hpb : p = b
    · subst hpb
      have hqb : q ≠ p := fun e => hne e.symm
      rw [hkb, hko q hqb] at hk
      exact absurd hk.symm (hnone q hq)
    · by_cases hqb : q = b
      · subst hqb
        rw [hkb, hko p hpb] at hk
        exact absurd hk (hnone p hp)
      · rw [hko p hpb, hko q hqb] at hk
        rw [hko p hpb]
        exact inv p q hp hq hne hk

theorem boot_keysUnique (nbuf bsize : Nat) (disk : Nat → Nat → Data) :
    KeysUnique (binit (zeroSys nbuf bsize disk)) := by
  intro p q _ _ _ _
  obtain ⟨_, h2, h3, _, _⟩ := boot_get nbuf bsize disk p
  simp [Sys.key, h2, h3]

theorem Reachable.keysUnique {s : Sys} (h : Reachable AnySlot s) : KeysUnique s := by
  induction h with
  | boot nbuf bsize disk => exact boot_keysUnique nbuf bsize disk
  | step hr hs ih =>
    obtain ⟨op, hop, hrun⟩ := hs
    exact ih.run_keysUnique hr.wf_of hop hrun

/-- C2, as the code has it: in every state reached from `binit` by the operations
applied to slots of the pool, for every `(dev, blockno)` other than `(0, 0)` at
most one slot has that pair as its identity, whatever the slots' `refcnt`; slots
not yet recycled by `bget` still carry the identity `(0, 0)` of the
zero-initialised pool. -/
theorem C2_amended_unique_identity (s : Sys) (h : Reachable AnySlot s) (p q : Ptr)
    (hp : s.isSlot p) (hq : s.isSlot q) (hk : s.key p = s.key q) (hnz : s.key p ≠ (0, 0)) :
    p = q := by
  by_contra hne
  exact hnz (h.keysUnique p q hp hq hne hk)

/-- C2 as stated fails: right after `binit` on a pool of two slots, slot 0 and
slot 1 both have identity `(0, 0)`. -/
theorem C2_counterexample :
    Reachable AnySlot exBoot ∧ exBoot.isSlot (Ptr.slot 0) ∧ exBoot.isSlot (Ptr.slot 1) ∧
      exBoot.key (Ptr.slot 0) = exBoot.key (Ptr.slot 1) ∧ Ptr.slot 0 ≠ Ptr.slot 1 :=
  ⟨Reachable.boot 2 2 exDisk, by decide, by decide, by decide, by decide⟩

/-! ## Slots in use are first with their identity -/

theorem find_erase_of_not {p : Ptr → Bool} {c : Ptr} (hc : p c = false) (l : List Ptr) :
    (l.erase c).find? p = l.find? p := by
  induction l with
  | nil => rfl
  | cons a l ih =>
    by_cases hac : a = c
    · subst hac
      simp [List.find?_cons, hc]
    · rw [List.erase_cons_tail (by simpa using hac)]
      simp only [List.find?_cons, ih]

theorem first_unique {s : Sys} {a b : Ptr} (ha : s.first a) (hb : s.first b)
    (hk : s.key a = s.key b) : a = b := by
  unfold Sys.first at ha hb
  simp only [Sys.key, Prod.mk.injEq] at hk
  rw [hk.1, hk.2, hb] at ha
  exact (Option.some.inj ha).symm

/-- Calls that keep the recency order and all identities. -/
theorem InUseFirst.frame_first {s s' : Sys} (inv : InUseFirst s)
    (hlen : s'.buf.length = s.buf.length) (hl : s'.lru = s.lru)
    (hk : ∀ q, (s'.get q).dev = (s.get q).dev ∧ (s'.get q).blockno = (s.get q).blockno)
    {c : Ptr} (ho : ∀ q, q ≠ c → ((s'.get q).pristine ↔ (s.get q).pristine))
    (hc : s.isSlot c → ¬ (s'.get c).pristine → s.first c) : InUseFirst s' := by
  intro b hb hnp
  rw [isSlot_congr hlen] at hb
  unfold Sys.first
  rw [cached_congr hl hk, (hk b).1, (hk b).2]
  by_cases hbc : b = c
  · subst hbc; exact hc hb hnp
  · exact inv b hb (fun h => hnp ((ho b hbc).mpr h))

/-- The miss path of `bget`. -/
theorem InUseFirst.miss {s s' : Sys} (inv : InUseFirst s) (hwf : WF s)
    (hlen : s'.buf.length = s.buf.length) (hl : s'.lru = s.lru) {dev blockno : Nat} {c : Ptr}
    (hc : s.cached dev blockno = none) (hcs : s.isSlot c)
    (hkc : (s'.get c).dev = dev ∧ (s'.get c).blockno = blockno)
    (ho : ∀ q, q ≠ c → ((s'.get q).pristine ↔ (s.get q).pristine) ∧
      (s'.get q).dev = (s.get q).dev ∧ (s'.get q).blockno = (s.get q).blockno) :
    InUseFirst s' := by
  intro b hb hnp
  rw [isSlot_congr hlen] at hb
  have hnone := cached_none hc
  unfold Sys.first Sys.cached
  rw [hl, List.find?_eq_some]
  refine ⟨by simp, ?_⟩
  by_cases hbc : b = c
  · subst hbc
    obtain ⟨as, bs, habs⟩ := List.append_of_mem (hwf.mem_lru.mpr hcs)
    refine ⟨as, bs, habs, ?_⟩
    intro a ha
    have hab : a ≠ b := by
      rintro rfl
      have hnd := hwf.1.2.1
      rw [habs] at hnd
      exact (List.nodup_cons.mp (List.nodup_middle.mp hnd)).1 (List.mem_append_left _ ha)
    have hka := hnone a (by rw [habs]; exact List.mem_append_left _ ha)
    simp only [Sys.key, ne_eq, Prod.mk.injEq] at hka
    simp only [Bool.not_eq_true', decide_eq_false_iff_not]
    rw [(ho a hab).2.1, (ho a hab).2.2, hkc.1, hkc.2]
    exact hka
  · have hfb := inv b hb (fun h => hnp (((ho b hbc).1).mpr h))
    unfold Sys.first Sys.cached at hfb
    rw [List.find?_eq_some] at hfb
    obtain ⟨_, as, bs, habs, has⟩ := hfb
    refine ⟨as, bs, habs, ?_⟩
    intro a ha
    have hkb := hnone b (hwf.mem_lru.mpr hb)
    simp only [Sys.key, ne_eq, Prod.mk.injEq] at hkb
    simp only [Bool.not_eq_true', decide_eq_false_iff_not]
    rw [(ho b hbc).2.1, (ho b hbc).2.2]
    by_cases hac : a = c
    · subst hac
      rw [hkc.1, hkc.2]
      exact fun h => hkb ⟨h.1.symm, h.2.symm⟩
    · rw [(ho a hac).2.1, (ho a hac).2.2]
      have := has a ha
      simp only [Bool.not_eq_true', decide_eq_false_iff_not] at this
      exact this

/-- The slot released by `brelse` moves to the front. -/
theorem InUseFirst.move {s s' : Sys} (inv : InUseFirst s)
    (hlen : s'.buf.length = s.buf.length) {c : Ptr} (hl : s'.lru = c :: s.lru.erase c)
    (hk : ∀ q, (s'.get q).dev = (s.get q).dev ∧ (s'.get q).blockno = (s.get q).blockno)
    (ho : ∀ q, q ≠ c → ((s'.get q).pristine ↔ (s.get q).pristine))
    (hc : s.first c) : InUseFirst s' := by
  intro b hb hnp
  rw [isSlot_congr hlen] at hb
  have hfb : s.first b := by
    by_cases hbc : b = c
    · rw [hbc]; exact hc
    · exact inv b hb (fun h => hnp ((ho b hbc).mpr h))
  unfold Sys.first Sys.cached
  rw [hl, List.find?_cons, (hk b).1, (hk b).2, (hk c).1, (hk c).2]
  by_cases hkc : (s.get c).dev = (s.get b).dev ∧ (s.get c).blockno = (s.get b).blockno
  · have : c = b := first_unique hc hfb (by simp [Sys.key, hkc])
    simp [hkc, this]
  · simp only [hkc, decide_False]
    have hfun : (fun p => decide ((s'.get p).dev = (s.get b).dev ∧
        (s'.get p).blockno = (s.get b).blockno)) =
        (fun p => decide ((s.get p).dev = (s.get b).dev ∧
          (s.get p).blockno = (s.get b).blockno)) := by
      funext p; rw [(hk p).1, (hk p).2]
    rw [hfun, find_erase_of_not (by simp [hkc])]
    exact hfb

theorem InUseFirst.first_of_get_if {s s' : Sys} (inv : InUseFirst s)
    (hlen : s'.buf.length = s.buf.length) (hwf : WF s)
    {b : Ptr} {x : Buf} (hg : ∀ q, s'.get q = if q = b then x else s.get q)
    (hd : x.dev = (s.get b).dev) (hn : x.blockno = (s.get b).blockno)
    (hnx : x.next = (s.get b).next) (hpx : x.prev = (s.get b).prev)
    (hb : s.first b) : InUseFirst s' := by
  have hl := (hwf.of_get_if hlen hg hnx hpx).2
  refine inv.frame_first hlen hl ?_ ?_ (fun _ _ => hb)
  · intro q
    rw [hg]
    by_cases hq : q = b
    · rw [if_pos hq, hq]; exact ⟨hd, hn⟩
    · rw [if_neg hq]; exact ⟨rfl, rfl⟩
  · intro q hq
    rw [hg, if_neg hq]

theorem InUseFirst.run_first {s s' : Sys} (inv : InUseFirst s) (hwf : WF s) {op : Op}
    (hP : ∀ b, op.handle = some b → InUse s b) (h : op.run s = some s') : InUseFirst s' := by
  cases op with
  | bread pid dev blockno =>
    obtain ⟨b, hb⟩ := run_bread_iff.mp h
    obtain ⟨hbs, hlen, hdisk, ho, x, hx, hres⟩ := hwf.bread_inv hb
    have hl := (hwf.bread_post hb).2.1
    have hsb : (s'.get b).dev = x.dev ∧ (s'.get b).blockno = x.blockno := by
      rcases hres with hh | hh
      · rw [hh.2.2.2]; simp
      · rw [hh.2.2.2]; exact ⟨rfl, rfl⟩
    rcases hx with hh | hh
    · refine inv.frame_first hlen hl ?_ (fun q hq => by rw [ho q hq]) ?_
      · intro q
        by_cases hq : q = b
        · rw [hq, hsb.1, hsb.2, hh.2]; exact ⟨rfl, rfl⟩
        · rw [ho q hq]; exact ⟨rfl, rfl⟩
      · intro _ _
        have hk := cached_some hh.1
        unfold Sys.first
        rw [hk.2.1, hk.2.2]
        exact hh.1
    · refine inv.miss hwf hlen hl hh.1 hbs ?_ (fun q hq => by rw [ho q hq]; simp)
      rw [hsb.1, hsb.2, hh.2.2]; exact ⟨rfl, rfl⟩
  | wake pid b =>
    obtain ⟨_, rfl⟩ := run_wake_iff.mp h
    have hb := hP b rfl
    exact inv.first_of_get_if (by simp) hwf (bread_wake_get pid (isSlot_valid hb.1))
      (by simp) (by simp) (by simp) (by simp) (inv b hb.1 hb.2)
  | store pid b c =>
    obtain ⟨_, rfl⟩ := run_store_iff.mp h
    have hb := hP b rfl
    exact inv.first_of_get_if (by simp) hwf (store_get c (isSlot_valid hb.1))
      rfl rfl rfl rfl (inv b hb.1 hb.2)
  | bwrite pid b =>
    obtain ⟨_, rfl⟩ := bwrite_ret_iff.mp (run_bwrite_iff.mp h)
    have hb := hP b rfl
    refine inv.frame_first (by simp) (lru_congr (by simp) (fun q => by simp)) (fun q => by simp)
      (fun q _ => by simp) (fun _ _ => inv b hb.1 hb.2)
  | brelse pid b =>
    have hb := hP b rfl
    obtain ⟨_, _, hlen, _, hf, hz, hnz⟩ := hwf.brelse_inv hb.1 (run_brelse_iff.mp h)
    have hk : ∀ q, (s'.get q).dev = (s.get q).dev ∧ (s'.get q).blockno = (s.get q).blockno :=
      fun q => ⟨(hf q).2.1, (hf q).2.2.1⟩
    have ho : ∀ q, q ≠ b → ((s'.get q).pristine ↔ (s.get q).pristine) := by
      intro q hq
      unfold Buf.pristine
      rw [(hf q).1, (hf q).2.2.2.2.1, (hf q).2.2.2.2.2, if_neg hq, if_neg hq]
    by_cases h0 : (s'.get b).refcnt = 0
    · exact inv.move hlen (hz h0) hk ho (inv b hb.1 hb.2)
    · exact inv.frame_first hlen (hnz h0).1 hk ho (fun _ _ => inv b hb.1 hb.2)
  | bpin b =>
    rw [run_bpin_iff.mp h]
    have hb := hP b rfl
    exact inv.first_of_get_if (by simp) hwf (bpin_get (isSlot_valid hb.1))
      rfl rfl rfl rfl (inv b hb.1 hb.2)
  | bunpin b =>
    rw [run_bunpin_iff.mp h]
    have hb := hP b rfl
    exact inv.first_of_get_if (by simp) hwf (bunpin_get (isSlot_valid hb.1))
      rfl rfl rfl rfl (inv b hb.1 hb.2)

theorem boot_inUseFirst (nbuf bsize : Nat) (disk : Nat → Nat → Data) :
    InUseFirst (binit (zeroSys nbuf bsize disk)) := by
  intro b _ hnp
  obtain ⟨h1, _, _, h4, h5⟩ := boot_get nbuf bsize disk b
  exact absurd ⟨h4, h5, h1⟩ hnp

theorem held_inUse (s : Sys) (b : Ptr) (h : Held s b) : InUse s b :=
  ⟨h.1, fun hp => by have h1 := hp.1; have h2 := h.2; omega⟩

theorem Reachable.inUseFirst {s : Sys} (h : Reachable InUse s) : InUseFirst s ∧ WF s := by
  induction h with
  | boot nbuf bsize disk => exact ⟨boot_inUseFirst nbuf bsize disk, binit_wf _⟩
  | step _ hs ih =>
    obtain ⟨op, hop, hrun⟩ := hs
    exact ⟨ih.1.run_first ih.2 hop hrun, ih.2.run (fun b hb => (hop b hb).1) hrun⟩

/-- C1 (uniqueness of held blocks): in every state reached from `binit` by
`bread`, `bwrite`, `brelse`, `bpin` and `bunpin` (and a caller's stores to a slot's
bytes), where every handle passed is a slot the caller still holds
(`refcnt > 0`), no two distinct slots with `refcnt > 0` have the same
`(dev, blockno)`. -/
theorem C1_held_blocks_unique (s : Sys) (h : Reachable Held s) (p q : Ptr)
    (hp : s.isSlot p) (hq : s.isSlot q) (hrp : 0 < (s.get p).refcnt)
    (hrq : 0 < (s.get q).refcnt) (hk : s.key p = s.key q) : p = q := by
  have inv := (h.mono held_inUse).inUseFirst.1
  exact first_unique (inv p hp (fun hh => by have := hh.1; omega))
    (inv q hq (fun hh => by have := hh.1; omega)) hk

/-! ## Identities of held slots, in any state -/

theorem scan_unused_some {s : Sys} {b : Ptr} (fuel : Nat) : ∀ p : Ptr,
    bget_scan_unused s fuel p = some (some b) → (s.get b).refcnt = 0 := by
  induction fuel with
  | zero => intro p h; simp [bget_scan_unused] at h
  | succ f ih =>
    intro p h
    unfold bget_scan_unused at h
    split_ifs at h with h1 h2
    · simp at h
    · simp only [Option.some.injEq] at h
      rw [← h]; exact h2
    · exact ih _ h

theorem lock_and_return_key (pid : Nat) (b : Ptr) (s : Sys) {c : Ptr} {s' : Sys}
    (h : lock_and_return pid b s = Result.ret c s' ∨
      lock_and_return pid b s = Result.sleeps c s') :
    c = b ∧ ∀ q, s'.key q = s.key q := by
  rcases lock_and_return_cases pid b s with h1 | h1
  · rw [h1.2] at h
    rcases h with h | h
    · simp only [Result.ret.injEq] at h
      obtain ⟨rfl, rfl⟩ := h
      exact ⟨rfl, fun q => by simp [Sys.key]⟩
    · cases h
  · rw [h1.2] at h
    rcases h with h | h
    · cases h
    · simp only [Result.sleeps.injEq] at h
      obtain ⟨rfl, rfl⟩ := h
      exact ⟨rfl, fun q => by simp [Sys.key]⟩

theorem bread_load_key (b : Ptr) (s : Sys) (q : Ptr) : (bread_load b s).key q = s.key q := by
  unfold bread_load virtio_disk_rw Sys.key
  split <;> simp

/-- In any state, a call of `bget` that selects a slot changes an identity only
on its miss path, and only that of the slot it recycles, whose `refcnt` was 0. -/
theorem bget_key_change {s s' : Sys} {pid dev blockno : Nat} {b : Ptr}
    (h : bget pid s dev blockno = Result.ret b s' ∨ bget pid s dev blockno = Result.sleeps b s')
    (q : Ptr) (hk : s'.key q ≠ s.key q) :
    q = b ∧ (s.get q).refcnt = 0 ∧
      bget_scan_cached (acquire s) dev blockno (s.NBUF + 1) (acquire s).head.next =
        some none := by
  unfold bget bgetFuel at h
  simp only [] at h
  split at h
  · rcases h with h | h <;> cases h
  · rename_i c hc
    obtain ⟨_, hkeys⟩ := lock_and_return_key pid c _ h
    exfalso; apply hk
    rw [hkeys]
    simp [Sys.key, bget_hit]
  · rename_i hc
    split at h
    · rcases h with h | h <;> cases h
    · rename_i c hu
      obtain ⟨hbc, hkeys⟩ := lock_and_return_key pid c _ h
      subst hbc
      have hr := scan_unused_some _ _ hu
      simp only [acquire_get] at hr
      have hq : q = b := by
        by_contra hne
        apply hk
        rw [hkeys]
        simp [Sys.key, bget_recycle, hne]
      exact ⟨hq, hq ▸ hr, hc⟩
    · rcases h with h | h <;> cases h

theorem brelse_key {s s' : Sys} {pid : Nat} {b : Ptr} (h : brelse pid s b = Result.ret () s')
    (q : Ptr) : s'.key q = s.key q := by
  obtain ⟨_, rfl⟩ := brelse_ret_iff.mp h
  unfold Sys.key
  split_ifs
  · rw [release_get, (brelse_relink_fields _ b q).2.1, (brelse_relink_fields _ b q).2.2.1]
    simp [brelse_dec, releasesleep]
  · simp [brelse_dec, releasesleep]

/-- C5 (pin exclusion, no repurposing of held slots): for every state `s`, every
call `op` (`bread`, `bwrite`, `brelse`, `bpin`, `bunpin`, with any handle at all)
that leaves a state `s'`, and every slot `q`: if `refcnt` of `q` is `> 0` before
the call, its identity `(dev, blockno)` is the same after it; and if the identity
of `q` changes at all, then `refcnt` of `q` was 0 and the call is a `bread` whose
`bget` found no slot with the key (its first loop ran to the end) and recycled
`q`. -/
theorem C5_held_slot_keeps_identity (s s' : Sys) (op : Op) (h : op.run s = some s')
    (q : Ptr) :
    (0 < (s.get q).refcnt → s'.key q = s.key q) ∧
    (s'.key q ≠ s.key q → (s.get q).refcnt = 0 ∧
      ∃ pid dev blockno, op = Op.bread pid dev blockno ∧
        bget_scan_cached (acquire s) dev blockno (s.NBUF + 1) (acquire s).head.next =
          some none ∧
        (bread pid s dev blockno = Result.ret q s' ∨
          bread pid s dev blockno = Result.sleeps q s')) := by
  have key : s'.key q ≠ s.key q → (s.get q).refcnt = 0 ∧
      ∃ pid dev blockno, op = Op.bread pid dev blockno ∧
        bget_scan_cached (acquire s) dev blockno (s.NBUF + 1) (acquire s).head.next =
          some none ∧
        (bread pid s dev blockno = Result.ret q s' ∨
          bread pid s dev blockno = Result.sleeps q s') := by
    intro hk
    cases op with
    | bread pid dev blockno =>
      obtain ⟨b, hb⟩ := run_bread_iff.mp h
      rcases hb with hb | hb
      · obtain ⟨s0, h0, rfl⟩ := bread_ret_iff.mp hb
        rw [bread_load_key] at hk
        obtain ⟨hq, hr, hc⟩ := bget_key_change (Or.inl h0) q hk
        subst hq
        exact ⟨hr, pid, dev, blockno, rfl, hc, Or.inl hb⟩
      · have h0 := bread_sleeps_iff.mp hb
        obtain ⟨hq, hr, hc⟩ := bget_key_change (Or.inr h0) q hk
        subst hq
        exact ⟨hr, pid, dev, blockno, rfl, hc, Or.inr hb⟩
    | wake pid b =>
      obtain ⟨_, rfl⟩ := run_wake_iff.mp h
      exact absurd (by rw [bread_load_key]; simp [Sys.key]) hk
    | store pid b c =>
      obtain ⟨_, rfl⟩ := run_store_iff.mp h
      exact absurd (by simp [Sys.key]) hk
    | bwrite pid b =>
      obtain ⟨_, rfl⟩ := bwrite_ret_iff.mp (run_bwrite_iff.mp h)
      exact absurd (by simp [Sys.key]) hk
    | brelse pid b => exact absurd (brelse_key (run_brelse_iff.mp h) q) hk
    | bpin b =>
      rw [run_bpin_iff.mp h] at hk
      exact absurd (by simp [Sys.key, bpin]) hk
    | bunpin b =>
      rw [run_bunpin_iff.mp h] at hk
      exact absurd (by simp [Sys.key, bunpin]) hk
  refine ⟨?_, key⟩
  intro hpos
  by_contra hk
  have := (key hk).1
  omega

/-! ## Read your write -/

theorem Fresh.fresh_of_get_if {s s' : Sys} {dev blockno : Nat} {c : Data} (inv : Fresh dev blockno c s)
    (hlen : s'.buf.length = s.buf.length) (hdisk : s'.disk = s.disk)
    {b : Ptr} {x : Buf} (hg : ∀ q, s'.get q = if q = b then x else s.get q)
    (hx : (x.dev, x.blockno) ≠ (dev, blockno) ∨
      (x.dev = (s.get b).dev ∧ x.blockno = (s.get b).blockno ∧ x.valid = (s.get b).valid ∧
        x.data = (s.get b).data)) : Fresh dev blockno c s' := by
  refine ⟨by rw [hdisk]; exact inv.1, ?_⟩
  intro q hq hk hv
  rw [isSlot_congr hlen] at hq
  unfold Sys.key at hk
  rw [hg] at hk hv ⊢
  by_cases hqb : q = b
  · rw [if_pos hqb] at hk hv ⊢
    rcases hx with hx | hx
    · exact absurd hk hx
    · rw [hx.2.2.2]
      rw [hx.1, hx.2.1] at hk
      rw [hx.2.2.1] at hv
      exact inv.2 b (hqb ▸ hq) hk hv
  · rw [if_neg hqb] at hk hv ⊢
    exact inv.2 q hq hk hv

theorem Fresh.quiet {s s' : Sys} {dev blockno : Nat} {c : Data} (inv : Fresh dev blockno c s)
    (hwf : WF s) (h : QuietStep dev blockno s s') : Fresh dev blockno c s' := by
  obtain ⟨op, hq, hP, hrun⟩ := h
  cases op with
  | bread pid d n =>
    obtain ⟨b, hb⟩ := run_bread_iff.mp hrun
    obtain ⟨hbs, hlen, hdisk, ho, x, hx, hres⟩ := hwf.bread_inv hb
    have hkb : ((s'.get b).dev, (s'.get b).blockno) ≠ (dev, blockno) := by
      have hsb : (s'.get b).dev = x.dev ∧ (s'.get b).blockno = x.blockno := by
        rcases hres with hh | hh
        · rw [hh.2.2.2]; simp
        · rw [hh.2.2.2]; exact ⟨rfl, rfl⟩
      rw [hsb.1, hsb.2]
      rcases hx with hh | hh
      · have hk := cached_some hh.1
        rw [hh.2]; simp only []
        rw [hk.2.1, hk.2.2]; exact hq
      · rw [hh.2.2]; exact hq
    refine ⟨by rw [hdisk]; exact inv.1, ?_⟩
    intro q hqs hk hv
    rw [isSlot_congr hlen] at hqs
    by_cases hqb : q = b
    · subst hqb; exact absurd hk hkb
    · unfold Sys.key at hk
      rw [ho q hqb] at hk hv ⊢
      exact inv.2 q hqs hk hv
  | wake pid b =>
    obtain ⟨_, rfl⟩ := run_wake_iff.mp hrun
    exact inv.fresh_of_get_if (by simp) (by simp) (bread_wake_get pid (isSlot_valid (hP b rfl)))
      (Or.inl (by
        have hq' : s.key b ≠ (dev, blockno) := hq
        simpa [Sys.key] using hq'))
  | store pid b d =>
    obtain ⟨_, rfl⟩ := run_store_iff.mp hrun
    exact inv.fresh_of_get_if (by simp) (by simp) (store_get d (isSlot_valid (hP b rfl)))
      (Or.inl hq)
  | bwrite pid b =>
    obtain ⟨_, rfl⟩ := bwrite_ret_iff.mp (run_bwrite_iff.mp hrun)
    refine ⟨?_, ?_⟩
    · rw [disk_write_disk]
      have hq' : s.key b ≠ (dev, blockno) := hq
      simp only [Sys.key, ne_eq, Prod.mk.injEq] at hq'
      rw [if_neg (fun hh => hq' ⟨hh.1.symm, hh.2.symm⟩)]
      exact inv.1
    · intro q hqs hk hv
      have hqs' : s.isSlot q := (isSlot_congr (by simp) q).mp hqs
      simp only [Sys.key, disk_write_get] at hk hv ⊢
      exact inv.2 q hqs' hk hv
  | brelse pid b =>
    obtain ⟨_, _, hlen, hdisk, hf, _, _⟩ := hwf.brelse_inv (hP b rfl) (run_brelse_iff.mp hrun)
    refine ⟨by rw [hdisk]; exact inv.1, ?_⟩
    intro q hqs hk hv
    rw [isSlot_congr hlen] at hqs
    unfold Sys.key at hk
    rw [(hf q).1] at hv
    rw [(hf q).2.1, (hf q).2.2.1] at hk
    rw [(hf q).2.2.2.1]
    exact inv.2 q hqs hk hv
  | bpin b =>
    rw [run_bpin_iff.mp hrun]
    exact inv.fresh_of_get_if (by simp) (by simp) (bpin_get (isSlot_valid (hP b rfl)))
      (Or.inr ⟨rfl, rfl, rfl, rfl⟩)
  | bunpin b =>
    rw [run_bunpin_iff.mp hrun]
    exact inv.fresh_of_get_if (by simp) (by simp) (bunpin_get (isSlot_valid (hP b rfl)))
      (Or.inr ⟨rfl, rfl, rfl, rfl⟩)

theorem Fresh.quiet_star {dev blockno : Nat} {c : Data} {s s' : Sys}
    (h : Relation.ReflTransGen (QuietStep dev blockno) s s')
    (inv : Fresh dev blockno c s) (hwf : WF s) : Fresh dev blockno c s' ∧ WF s' := by
  induction h with
  | refl => exact ⟨inv, hwf⟩
  | tail _ hstep ih =>
    refine ⟨ih.1.quiet ih.2 hstep, ?_⟩
    obtain ⟨op, _, hP, hrun⟩ := hstep
    exact ih.2.run hP hrun

/-- With block `(dev, blockno)` fresh, `bread` of it returns its bytes. -/
theorem Fresh.bread_data {s s' : Sys} {dev blockno : Nat} {c : Data} (inv : Fresh dev blockno c s)
    (hwf : WF s) {pid : Nat} {b : Ptr} (h : bread pid s dev blockno = Result.ret b s') :
    (s'.get b).data = c := by
  obtain ⟨hbs, hlen, hdisk, ho, x, hx, hres⟩ := hwf.bread_inv (Or.inl h)
  rcases hres with hh | hh
  · rw [hh.2.2.2, load_data]
    rcases hx with hc | hc
    · have hk := cached_some hc.1
      rw [hc.2]; simp only []
      rw [hk.2.1, hk.2.2]
      split_ifs with hv
      · exact inv.1
      · exact inv.2 b hbs (by simp [Sys.key, hk.2.1, hk.2.2]) hv
    · rw [hc.2.2]; simp only [if_true]
      exact inv.1
  · rw [hh.1] at h; cases h

theorem holdingsleep_iff {s : Sys} {pid : Nat} {b : Ptr} :
    holdingsleep pid b s = true ↔ (s.get b).lock = some pid := by
  unfold holdingsleep
  simp

theorem not_pristine_of_lock {x : Buf} {pid : Nat} (h : x.lock = some pid) : ¬ x.pristine :=
  fun hp => by rw [hp.2.1] at h; cases h

/-- After `bread`, a store of `c`, `bwrite` and `brelse` on the slot returned,
block `(dev, blockno)` is fresh with bytes `c`. -/
theorem fresh_after_write {s0 s1 s3 s4 : Sys} (hr : Reachable InUse s0)
    {pid dev blockno : Nat} {c : Data} {b : Ptr}
    (h1 : bread pid s0 dev blockno = Result.ret b s1)
    (h3 : bwrite pid (s1.modify b (fun x => { x with data := c })) b = Result.ret () s3)
    (h4 : brelse pid s3 b = Result.ret () s4) :
    Fresh dev blockno c s4 ∧ WF s4 := by
  obtain ⟨inv0, hwf0⟩ := hr.inUseFirst
  -- after `bread`
  obtain ⟨hbs0, hlen1, hdisk1, ho1, x, hx, hres⟩ := hwf0.bread_inv (Or.inl h1)
  obtain ⟨hwf1, _, hc1, _, _, _⟩ := hwf0.bread_post (Or.inl h1)
  have hk1 := cached_some hc1
  have hlock1 : (s1.get b).lock = some pid := by
    rcases hres with hh | hh
    · rw [hh.2.2.2, load_lock]; exact hh.2.2.1
    · rw [hh.1] at h1; cases h1
  have hvalid1 : (s1.get b).valid ≠ 0 := by
    rcases hres with hh | hh
    · rw [hh.2.2.2]; exact load_valid_ne _ _
    · rw [hh.1] at h1; cases h1
  have hbs1 : s1.isSlot b := (isSlot_congr hlen1 b).mpr hbs0
  have inv1 : InUseFirst s1 :=
    inv0.run_first hwf0 (fun _ hb => by cases hb) (run_bread_iff.mpr ⟨b, Or.inl h1⟩)
  -- after the store
  have hg2 := store_get c (isSlot_valid hbs1)
  have hrun2 : (Op.store pid b c).run s1 = some (s1.modify b (fun x => { x with data := c })) :=
    run_store_iff.mpr ⟨holdingsleep_iff.mpr hlock1, rfl⟩
  have hP1 : ∀ b', (Op.store pid b c).handle = some b' → InUse s1 b' := by
    intro b' hb'
    simp only [Op.handle, Option.some.injEq] at hb'
    subst hb'
    exact ⟨hbs1, not_pristine_of_lock hlock1⟩
  have inv2 := inv1.run_first hwf1 hP1 hrun2
  have hwf2 := hwf1.run (fun b' hb' => (hP1 b' hb').1) hrun2
  have hbs2 : (s1.modify b (fun x => { x with data := c })).isSlot b := by simpa using hbs1
  have hb2 : (s1.modify b (fun x => { x with data := c })).get b = { s1.get b with data := c } := by
    rw [hg2, if_pos rfl]
  -- after `bwrite`
  obtain ⟨hh3, rfl⟩ := bwrite_ret_iff.mp h3
  have hP2 : ∀ b', (Op.bwrite pid b).handle = some b' →
      InUse (s1.modify b (fun x => { x with data := c })) b' := by
    intro b' hb'
    simp only [Op.handle, Option.some.injEq] at hb'
    subst hb'
    exact ⟨hbs2, not_pristine_of_lock (holdingsleep_iff.mp hh3)⟩
  have inv3 := inv2.run_first hwf2 hP2 (run_bwrite_iff.mpr h3)
  have hwf3 := hwf2.run (fun b' hb' => (hP2 b' hb').1) (run_bwrite_iff.mpr h3)
  have hbs3 : (virtio_disk_rw b 1 (s1.modify b (fun x => { x with data := c }))).isSlot b :=
    (isSlot_congr (by simp) b).mpr hbs1
  have hb3 : (virtio_disk_rw b 1 (s1.modify b (fun x => { x with data := c }))).get b =
      { s1.get b with data := c } := by
    rw [disk_write_get, hb2]
  -- after `brelse`
  obtain ⟨hh4, hwf4, hlen4, hdisk4, hf4, _, _⟩ := hwf3.brelse_inv hbs3 h4
  have hP3 : ∀ b', (Op.brelse pid b).handle = some b' →
      InUse (virtio_disk_rw b 1 (s1.modify b (fun x => { x with data := c }))) b' := by
    intro b' hb'
    simp only [Op.handle, Option.some.injEq] at hb'
    subst hb'
    exact ⟨hbs3, not_pristine_of_lock (holdingsleep_iff.mp hh4)⟩
  have inv4 := inv3.run_first hwf3 hP3 (run_brelse_iff.mpr h4)
  have hbs4 : s4.isSlot b := (isSlot_congr hlen4 b).mpr hbs3
  have hkey4 : s4.key b = (dev, blockno) := by
    unfold Sys.key
    rw [(hf4 b).2.1, (hf4 b).2.2.1, hb3]
    simp only []
    rw [hk1.2.1, hk1.2.2]
  have hvalid4 : (s4.get b).valid ≠ 0 := by
    rw [(hf4 b).1, hb3]; exact hvalid1
  have hdata4 : (s4.get b).data = c := by
    rw [(hf4 b).2.2.2.1, hb3]
  refine ⟨⟨?_, ?_⟩, hwf4⟩
  · rw [hdisk4, disk_write_disk, hb2]
    simp only []
    rw [hk1.2.1, hk1.2.2]
    simp
  · intro q hq hk hv
    have hfq := inv4 q hq (fun hp => hv hp.2.2)
    have hfb := inv4 b hbs4 (fun hp => hvalid4 hp.2.2)
    have : q = b := first_unique hfq hfb (by rw [hk, hkey4])
    rw [this]; exact hdata4

/-- C7 (read-your-write round trip): the device is the map `disk`.  From any state
`s0` reached from `binit` by calls on slots in use (referenced, locked or loaded,
in particular held with `refcnt > 0`), for every key `(dev, blockno)` and bytes
`c`: `bread` returns `b`, the caller sets the content of `b` to `c`, calls
`bwrite` and `brelse`; then any sequence of calls on slots of the pool follows
that neither asks for block `(dev, blockno)` nor stores to or writes back a slot
with that identity (`bread`/`brelse` of other keys among them); then
`bread(dev, blockno)` returns a slot whose content is `c`, whether it is a hit on
the retained slot or a miss that reloads from the device. -/
theorem C7_read_your_write (s0 s1 s3 s4 s5 s6 : Sys) (hr : Reachable InUse s0)
    (pid pid2 dev blockno : Nat) (c : Data) (b b2 : Ptr)
    (h1 : bread pid s0 dev blockno = Result.ret b s1)
    (h3 : bwrite pid (s1.modify b (fun x => { x with data := c })) b = Result.ret () s3)
    (h4 : brelse pid s3 b = Result.ret () s4)
    (hq : Relation.ReflTransGen (QuietStep dev blockno) s4 s5)
    (h6 : bread pid2 s5 dev blockno = Result.ret b2 s6) :
    (s6.get b2).data = c := by
  obtain ⟨hf4, hwf4⟩ := fresh_after_write hr h1 h3 h4
  obtain ⟨hf5, hwf5⟩ := Fresh.quiet_star hq hf4 hwf4
  exact hf5.bread_data hwf5 h6

/-! ## Lookup of a held slot -/

/-- In a reachable state, `bread` of the key of a slot in use selects that slot. -/
theorem Reachable.bread_in_use {s : Sys} (hr : Reachable InUse s) {b : Ptr}
    (hb : s.isSlot b) (hnp : ¬ (s.get b).pristine) (pid : Nat) :
    ∃ s', (bread pid s (s.get b).dev (s.get b).blockno = Result.ret b s' ∨
        bread pid s (s.get b).dev (s.get b).blockno = Result.sleeps b s') ∧
      (s'.get b).refcnt = ((s.get b).refcnt + 1) % UINT_MOD ∧ s'.lru = s.lru := by
  obtain ⟨inv, hwf⟩ := hr.inUseFirst
  have hf : s.cached (s.get b).dev (s.get b).blockno = some b := inv b hb hnp
  obtain ⟨s0, hres, _⟩ := hwf.bget_hit_res pid (s.get b).dev (s.get b).blockno hf
  by_cases hl : (s.get b).lock = none
  · rw [if_pos hl] at hres
    have h1 := bread_ret_iff.mpr ⟨s0, hres, rfl⟩
    obtain ⟨_, hl1, _, _, hr1, _⟩ := hwf.bread_post (Or.inl h1)
    exact ⟨_, Or.inl h1, hr1, hl1⟩
  · rw [if_neg hl] at hres
    have h1 := bread_sleeps_iff.mpr hres
    obtain ⟨_, hl1, _, _, hr1, _⟩ := hwf.bread_post (Or.inr h1)
    exact ⟨_, Or.inr h1, hr1, hl1⟩

/-- C3 amended (hit correctness).  On a well-formed pool, once the lookup of
`bread(dev, blockno)` has selected slot `b` (the call returned `b`, or its caller
is waiting for the content lock of `b`), a second `bread(dev, blockno)` with
nothing in between selects the same slot `b` (its caller waits in `acquiresleep`
for the lock the slot is held under).  Each call raises `refcnt` of `b` by one as
the `uint` increment `refcnt++` does, that is modulo `2^32`: exactly `+1` and
`+2` when the counter was below `2^32 - 2`, while a counter at `2^32 - 1` goes
to 0; a miss on the first call takes it from 0 to 1.  The recency
order is the same after each call.  And with other calls in between: in every
state reached from `binit` by calls on held slots, as long as slot `b` is held
(`refcnt > 0`, no `brelse`/`bunpin` has given it back), `bread` of its key
selects `b` again, raises its `refcnt` by one and leaves the recency order as it
is. -/
theorem C3_amended_bread_twice_same_slot :
    (∀ (s : Sys) (pid pid2 dev blockno : Nat) (b : Ptr) (s1 : Sys), WF s →
      (bread pid s dev blockno = Result.ret b s1 ∨
        bread pid s dev blockno = Result.sleeps b s1) →
      ∃ s2, bread pid2 s1 dev blockno = Result.sleeps b s2 ∧
        (s1.get b).refcnt = ((s.get b).refcnt + 1) % UINT_MOD ∧
        (s2.get b).refcnt = ((s1.get b).refcnt + 1) % UINT_MOD ∧
        ((s.get b).refcnt + 2 < UINT_MOD →
          (s1.get b).refcnt = (s.get b).refcnt + 1 ∧
          (s2.get b).refcnt = (s.get b).refcnt + 2) ∧
        (s.cached dev blockno = none → (s.get b).refcnt = 0 ∧ (s1.get b).refcnt = 1) ∧
        s1.lru = s.lru ∧ s2.lru = s1.lru) ∧
    (∀ (s : Sys) (b : Ptr) (pid : Nat), Reachable Held s → s.isSlot b →
      0 < (s.get b).refcnt →
      ∃ s', (bread pid s (s.get b).dev (s.get b).blockno = Result.ret b s' ∨
          bread pid s (s.get b).dev (s.get b).blockno = Result.sleeps b s') ∧
        (s'.get b).refcnt = ((s.get b).refcnt + 1) % UINT_MOD ∧ s'.lru = s.lru) :=
  ⟨fun _ pid pid2 dev blockno _ _ hwf h1 => hwf.bread_twice pid pid2 dev blockno h1,
    fun _ _ pid hr hb hpos =>
      (hr.mono held_inUse).bread_in_use hb (fun hp => by have := hp.1; omega) pid⟩

/-! ## The claims on a pool of two slots -/

theorem exA_reachable : Reachable Held exA := by
  refine Reachable.step (Reachable.boot 2 2 exDisk) ⟨Op.bread 1 1 5, ?_, rfl⟩
  intro b hb
  cases hb

theorem exB_reachable : Reachable Held exB := by
  refine Reachable.step exA_reachable ⟨Op.bread 2 1 6, ?_, rfl⟩
  intro b hb
  cases hb

theorem exB_full : ∀ p, exB.isSlot p → 0 < (exB.get p).refcnt := by
  intro p hp
  cases p with
  | null => cases hp
  | head => cases hp
  | slot i =>
    have : i < 2 := hp
    interval_cases i <;> decide

theorem exB_keys : ∀ p, exB.isSlot p → exB.key p ≠ (1, 7) := by
  intro p hp
  cases p with
  | null => cases hp
  | head => cases hp
  | slot i =>
    have : i < 2 := hp
    interval_cases i <;> decide

theorem exBoot_keys : ∀ p, exBoot.isSlot p → exBoot.key p ≠ (1, 5) := by
  intro p hp
  cases p with
  | null => cases hp
  | head => cases hp
  | slot i =>
    have : i < 2 := hp
    interval_cases i <;> decide

theorem exBoot_unused : ∀ p, exBoot.isSlot p → (exBoot.get p).refcnt = 0 := by
  intro p hp
  cases p with
  | null => cases hp
  | head => cases hp
  | slot i =>
    have : i < 2 := hp
    interval_cases i <;> decide

/-- C1 on the pool `exB`, both of whose slots are held. -/
theorem C1_witness :
    Reachable Held exB ∧ 0 < (exB.get (Ptr.slot 1)).refcnt ∧
      exB.key (Ptr.slot 1) = exB.key (Ptr.slot 1) ∧ Ptr.slot 1 = Ptr.slot 1 :=
  ⟨exB_reachable, by decide, rfl,
    C1_held_blocks_unique exB exB_reachable (Ptr.slot 1) (Ptr.slot 1) (by decide) (by decide)
      (by decide) (by decide) rfl⟩

/-- C2 as amended, on the pool `exA`, whose slot 0 has identity `(1, 5)`. -/
theorem C2_witness :
    Reachable AnySlot exA ∧ exA.key (Ptr.slot 0) ≠ (0, 0) ∧ Ptr.slot 0 = Ptr.slot 0 :=
  ⟨exA_reachable.mono (fun _ _ h => h.1), by decide,
    C2_amended_unique_identity exA (exA_reachable.mono (fun _ _ h => h.1)) (Ptr.slot 0)
      (Ptr.slot 0) (by decide) (by decide) rfl (by decide)⟩

/-- C3 amended, on the pool `exBoot`: after `bread(1, 5)` has returned slot 0, a second
`bread(1, 5)` selects slot 0 and takes its `refcnt` to 2. -/
theorem C3_witness :
    WF exBoot ∧ bread 1 exBoot 1 5 = Result.ret (Ptr.slot 0) exA ∧
      ∃ s2, bread 2 exA 1 5 = Result.sleeps (Ptr.slot 0) s2 ∧
        (s2.get (Ptr.slot 0)).refcnt = 2 := by
  refine ⟨by decide, rfl, ?_⟩
  obtain ⟨s2, h2, _, _, h5, _⟩ :=
    C3_amended_bread_twice_same_slot.1 exBoot 1 2 1 5 (Ptr.slot 0) exA (by decide) (Or.inl rfl)
  exact ⟨s2, h2, (h5 (by decide)).2⟩

/-- C4 on the pool `exBoot`: a miss recycles the tail slot. -/
theorem C4_witness :
    WF exBoot ∧ ∃ b, exBoot.isSlot b ∧ (exBoot.get b).refcnt = 0 ∧ b = exBoot.head.prev := by
  refine ⟨by decide, ?_⟩
  obtain ⟨b, _, _, _, h1, _, h3, _, _, _, _, _, _, _, h11⟩ :=
    C4_miss_recycles_lru_tail exBoot (by decide) 1 1 5 exBoot_keys
      ⟨Ptr.slot 0, by decide, by decide⟩
  exact ⟨b, h1, h3, h11 exBoot_unused⟩

/-- C5 on the pool `exA`: `bread(1, 6)` leaves the identity of the held slot 0
alone. -/
theorem C5_witness :
    (Op.bread 2 1 6).run exA = some exB ∧ 0 < (exA.get (Ptr.slot 0)).refcnt ∧
      exB.key (Ptr.slot 0) = exA.key (Ptr.slot 0) :=
  ⟨rfl, by decide,
    (C5_held_slot_keeps_identity exA exB (Op.bread 2 1 6) rfl (Ptr.slot 0)).1 (by decide)⟩

/-- C6 on the pool `exB`, both of whose slots are held: a third key panics. -/
theorem C6_witness :
    WF exB ∧ ∃ s', bget 3 exB 1 7 = Result.panic "bget: no buffers" s' :=
  ⟨by decide, (C6_exhaustion_iff exB (by decide) 3 1 7).2.2.2 exB_full exB_keys⟩

theorem exQuiet : Relation.ReflTransGen (QuietStep 1 5) exW4 exW5 := by
  have s1 : QuietStep 1 5 exW4 (runOps [Op.bread 2 1 6] exW4) := by
    refine ⟨Op.bread 2 1 6, by simp [Op.quiet], ?_, rfl⟩
    intro b hb
    cases hb
  have s2 : QuietStep 1 5 (runOps [Op.bread 2 1 6] exW4)
      (runOps [Op.bread 2 1 6, Op.brelse 2 (Ptr.slot 1)] exW4) := by
    refine ⟨Op.brelse 2 (Ptr.slot 1), trivial, ?_, rfl⟩
    intro b hb
    cases hb
    decide
  have s3 : QuietStep 1 5 (runOps [Op.bread 2 1 6, Op.brelse 2 (Ptr.slot 1)] exW4)
      (runOps [Op.bread 2 1 6, Op.brelse 2 (Ptr.slot 1), Op.bread 2 1 8] exW4) := by
    refine ⟨Op.bread 2 1 8, by simp [Op.quiet], ?_, rfl⟩
    intro b hb
    cases hb
  have s4 : QuietStep 1 5
      (runOps [Op.bread 2 1 6, Op.brelse 2 (Ptr.slot 1), Op.bread 2 1 8] exW4) exW5 := by
    refine ⟨Op.brelse 2 (Ptr.slot 0), trivial, ?_, rfl⟩
    intro b hb
    cases hb
    decide
  exact (((Relation.ReflTransGen.single s1).tail s2).tail s3).tail s4

/-- C7 on the pool `exBoot`: block `(1, 5)` is read, set to `[7, 7]`, written and
released, evicted by reads of `(1, 6)` and `(1, 8)`, and read again: the slot
returned holds `[7, 7]`. -/
theorem C7_witness :
    Reachable InUse exBoot ∧ bread 1 exW5 1 5 = Result.ret (Ptr.slot 1) exW6 ∧
      (exW6.get (Ptr.slot 1)).data = [7, 7] :=
  ⟨Reachable.boot 2 2 exDisk, rfl,
    C7_read_your_write exBoot exA exW3 exW4 exW5 exW6 (Reachable.boot 2 2 exDisk) 1 1 1 5
      [7, 7] (Ptr.slot 0) (Ptr.slot 1) rfl rfl rfl exQuiet rfl⟩

/-- C8 on the pool `exA`: process 2 does not hold the lock of slot 0. -/
theorem C8_witness :
    holdingsleep 2 (Ptr.slot 0) exA = false ∧
      ∃ m s', brelse 2 exA (Ptr.slot 0) = Result.panic m s' :=
  ⟨by decide, (C8_lock_discipline exA 2 (Ptr.slot 0)).2.1.mpr (by decide)⟩

/-- C9 amended, on the pool `exB`: process 2 releases slot 1, which moves to the front. -/
theorem C9_witness :
    WF exB ∧ holdingsleep 2 (Ptr.slot 1) exB = true ∧
      ∃ s', brelse 2 exB (Ptr.slot 1) = Result.ret () s' ∧ s'.head.next = Ptr.slot 1 := by
  refine ⟨by decide, by decide, ?_⟩
  obtain ⟨s', h1, _, h3, _, _, _, h7, _⟩ :=
    C9_amended_brelse_moves_to_head exB (by decide) 2 (Ptr.slot 1) (by decide) (by decide)
  exact ⟨s', h1, (h7 (by rw [h3]; decide)).2⟩

/-- C10 on the pool `exBoot`. -/
theorem C10_witness : WF exBoot ∧ exBoot.lru.count (Ptr.slot 0) = 1 :=
  ⟨C10_list_well_formed.1 _,
    (C10_list_well_formed.2.2 exBoot (C10_list_well_formed.1 _)).2.2 (Ptr.slot 0) (by decide)⟩

/-! ## The pool after `binit` -/

theorem zeroSys_NBUF (nbuf bsize : Nat) (disk : Nat → Nat → Data) :
    (zeroSys nbuf bsize disk).NBUF = nbuf := by
  simp [zeroSys, Sys.NBUF]

theorem range_rev_snoc (n : Nat) :
    (List.range (n + 1)).reverse.map Ptr.slot =
      ((List.range n).reverse.map (fun i => Ptr.slot (i + 1))) ++ [Ptr.slot 0] := by
  rw [List.range_succ_eq_map]
  simp [List.map_reverse]

theorem boot_lru (nbuf bsize : Nat) (disk : Nat → Nat → Data) :
    (binit (zeroSys nbuf bsize disk)).lru = (List.range nbuf).reverse.map Ptr.slot := by
  rw [binit_lru, zeroSys_NBUF]

theorem boot_victim (n bsize : Nat) (disk : Nat → Nat → Data) :
    (binit (zeroSys (n + 1) bsize disk)).victim = some (Ptr.slot 0) := by
  unfold Sys.victim
  rw [boot_lru, range_rev_snoc]
  simp [(boot_get (n + 1) bsize disk (Ptr.slot 0)).2.2.2.1]

/-- C18 (initial pool state): after `binit` on the zero-initialised pool of `nbuf`
slots, every slot has `refcnt == 0` and `valid == 0` (and a free content lock),
the pool still has `nbuf` slots, and the recency list from head to tail is slot
`nbuf-1`, slot `nbuf-2`, ..., slot 0; for a pool that is not empty `head.next` is
the last array slot and `head.prev` is slot 0, which is the slot the eviction scan
stops at first. -/
theorem C18_initial_pool_state (nbuf bsize : Nat) (disk : Nat → Nat → Data) :
    (∀ q, ((binit (zeroSys nbuf bsize disk)).get q).refcnt = 0 ∧
      ((binit (zeroSys nbuf bsize disk)).get q).valid = 0 ∧
      ((binit (zeroSys nbuf bsize disk)).get q).lock = none) ∧
    (binit (zeroSys nbuf bsize disk)).NBUF = nbuf ∧
    (binit (zeroSys nbuf bsize disk)).lru = (List.range nbuf).reverse.map Ptr.slot ∧
    (0 < nbuf →
      (binit (zeroSys nbuf bsize disk)).head.next = Ptr.slot (nbuf - 1) ∧
      (binit (zeroSys nbuf bsize disk)).head.prev = Ptr.slot 0 ∧
      (binit (zeroSys nbuf bsize disk)).victim = some (Ptr.slot 0)) := by
  refine ⟨fun q => ?_, ?_, boot_lru nbuf bsize disk, ?_⟩
  · obtain ⟨h1, _, _, h4, h5⟩ := boot_get nbuf bsize disk q
    exact ⟨h4, h1, h5⟩
  · rw [(binit_chain _).2, zeroSys_NBUF]
  · intro hpos
    obtain ⟨n, rfl⟩ : ∃ n, nbuf = n + 1 := ⟨nbuf - 1, by omega⟩
    have hwf := binit_wf (zeroSys (n + 1) bsize disk)
    refine ⟨?_, ?_, boot_victim n bsize disk⟩
    · exact hwf.head_next_eq (by rw [boot_lru, range_rev_succ]; rfl)
    · exact hwf.tail_eq (by rw [boot_lru, range_rev_snoc])

/-- C18 on a pool of two slots. -/
theorem C18_witness :
    exBoot.lru = [Ptr.slot 1, Ptr.slot 0] ∧ exBoot.head.prev = Ptr.slot 0 :=
  ⟨(C18_initial_pool_state 2 2 exDisk).2.2.1,
    ((C18_initial_pool_state 2 2 exDisk).2.2.2 (by decide)).2.1⟩

/-! ## Frames of `bwrite`, `bpin` and `bunpin` -/

theorem disk_write_head (s : Sys) (b : Ptr) : (virtio_disk_rw b 1 s).head = s.head := by
  unfold virtio_disk_rw
  simp [Sys.emit]

theorem disk_write_trace (s : Sys) (b : Ptr) :
    (virtio_disk_rw b 1 s).trace = s.trace ++ [Event.disk_rw b 1] := by
  unfold virtio_disk_rw
  simp [Sys.emit]

/-- Two states with as many slots and the same slot contents have the same pool. -/
theorem buf_eq_of_get {s s' : Sys} (hlen : s'.buf.length = s.buf.length)
    (hg : ∀ i, s'.get (Ptr.slot i) = s.get (Ptr.slot i)) : s'.buf = s.buf := by
  apply List.ext_getElem hlen
  intro i h1 h2
  have := hg i
  simpa [Sys.get, List.getElem?_eq_getElem h1, List.getElem?_eq_getElem h2] using this

/-- C13 (`bwrite` effect and frame): for every state and every `b` whose content
lock the caller holds, `bwrite(b)` returns, sets the device's block
`(b.dev, b.blockno)` to the content of `b`, leaves every other device block
unchanged, and leaves the whole cache unchanged: the pool and the sentinel (every
slot's `refcnt`, `valid`, identity, content, lock and links) and the recency
order; the one event it issues is the device write. -/
theorem C13_bwrite_effect_frame (s : Sys) (pid : Nat) (b : Ptr)
    (hh : holdingsleep pid b s = true) :
    ∃ s', bwrite pid s b = Result.ret () s' ∧
      s'.disk (s.get b).dev (s.get b).blockno = (s.get b).data ∧
      (∀ d n, (d, n) ≠ ((s.get b).dev, (s.get b).blockno) → s'.disk d n = s.disk d n) ∧
      s'.buf = s.buf ∧ s'.head = s.head ∧ (∀ q, s'.get q = s.get q) ∧ s'.lru = s.lru ∧
      s'.trace = s.trace ++ [Event.disk_rw b 1] := by
  refine ⟨virtio_disk_rw b 1 s, bwrite_ret_iff.mpr ⟨hh, rfl⟩, ?_, ?_, disk_write_buf s b,
    disk_write_head s b, disk_write_get s b, ?_, disk_write_trace s b⟩
  · rw [disk_write_disk]; simp
  · intro d n hne
    rw [disk_write_disk, if_neg]
    intro h
    exact hne (by rw [h.1, h.2])
  · exact lru_congr (by simp) (fun q => by simp)

/-- C13 on the pool `exA`, whose slot 0 process 1 holds. -/
theorem C13_witness :
    holdingsleep 1 (Ptr.slot 0) exA = true ∧
      ∃ s', bwrite 1 exA (Ptr.slot 0) = Result.ret () s' ∧ s'.buf = exA.buf := by
  refine ⟨by decide, ?_⟩
  obtain ⟨s', h1, _, _, h4, _⟩ := C13_bwrite_effect_frame exA 1 (Ptr.slot 0) (by decide)
  exact ⟨s', h1, h4⟩

theorem uint_inc_dec {r : Nat} (h : r < UINT_MOD) :
    ((r + 1) % UINT_MOD + UINT_MOD - 1) % UINT_MOD = r := by
  unfold UINT_MOD at *
  omega

theorem bpin_head {s : Sys} {b : Ptr} (hb : s.isSlot b) : (bpin s b).head = s.head := by
  rw [head_eq_get, head_eq_get, bpin_get (isSlot_valid hb), if_neg (isSlot_ne_head hb).symm]

theorem bunpin_head {s : Sys} {b : Ptr} (hb : s.isSlot b) : (bunpin s b).head = s.head := by
  rw [head_eq_get, head_eq_get, bunpin_get (isSlot_valid hb), if_neg (isSlot_ne_head hb).symm]

theorem bpin_lru {s : Sys} {b : Ptr} (hb : s.isSlot b) : (bpin s b).lru = s.lru :=
  lru_congr (by simp) (fun q => by
    rw [bpin_get (isSlot_valid hb)]; split_ifs with h <;> simp [h])

theorem bunpin_lru {s : Sys} {b : Ptr} (hb : s.isSlot b) : (bunpin s b).lru = s.lru :=
  lru_congr (by simp) (fun q => by
    rw [bunpin_get (isSlot_valid hb)]; split_ifs with h <;> simp [h])

theorem bunpin_bpin_get {s : Sys} {b : Ptr} (hb : s.isSlot b)
    (hr : (s.get b).refcnt < UINT_MOD) (q : Ptr) : (bunpin (bpin s b) b).get q = s.get q := by
  have hb' : (bpin s b).valid b := (valid_congr (by simp) b).mpr (isSlot_valid hb)
  by_cases h : q = b
  · subst h
    rw [bunpin_get hb', if_pos rfl, bpin_get (isSlot_valid hb), if_pos rfl]
    simp only []
    rw [uint_inc_dec hr]
  · rw [bunpin_get hb', if_neg h, bpin_get (isSlot_valid hb), if_neg h]

/-- C14 amended (pin/unpin effect and frame): for every state and slot `b`,
`bpin(b)` raises `refcnt` of `b` by one and `bunpin(b)` lowers it by one, as the
`uint` operations `refcnt++` and `refcnt--` do, that is modulo `2^32`: exactly
`+1` for a counter below `2^32 - 1` (a counter at `2^32 - 1` goes to 0), exactly
`-1` for `refcnt > 0`; neither changes any other field of `b` (content lock,
identity, `valid`, content, links), any other slot or the sentinel, the recency
order or the device, also when `bunpin` brings `refcnt` to 0; and `bunpin` after
`bpin` gives back the pool, the sentinel and the device exactly as they were. -/
theorem C14_amended_pin_unpin_frame (s : Sys) (b : Ptr) (hb : s.isSlot b) :
    (bpin s b).get b =
      { s.get b with refcnt := ((s.get b).refcnt + 1) % UINT_MOD } ∧
    ((s.get b).refcnt + 1 < UINT_MOD → ((bpin s b).get b).refcnt = (s.get b).refcnt + 1) ∧
    (bunpin s b).get b =
      { s.get b with refcnt := ((s.get b).refcnt + UINT_MOD - 1) % UINT_MOD } ∧
    (0 < (s.get b).refcnt → (s.get b).refcnt < UINT_MOD →
      ((bunpin s b).get b).refcnt + 1 = (s.get b).refcnt) ∧
    (∀ q, q ≠ b → (bpin s b).get q = s.get q ∧ (bunpin s b).get q = s.get q) ∧
    (bpin s b).lru = s.lru ∧ (bunpin s b).lru = s.lru ∧
    (bpin s b).disk = s.disk ∧ (bunpin s b).disk = s.disk ∧
    ((s.get b).refcnt < UINT_MOD →
      (bunpin (bpin s b) b).buf = s.buf ∧ (bunpin (bpin s b) b).head = s.head ∧
      (bunpin (bpin s b) b).disk = s.disk) := by
  have hbv := isSlot_valid hb
  have hp := bpin_get hbv
  have hu := bunpin_get hbv
  refine ⟨by rw [hp, if_pos rfl], ?_, by rw [hu, if_pos rfl], ?_, ?_, bpin_lru hb, bunpin_lru hb,
    bpin_disk s b, bunpin_disk s b, ?_⟩
  · intro hlt
    rw [hp, if_pos rfl]
    exact Nat.mod_eq_of_lt hlt
  · intro h0 hlt
    rw [hu, if_pos rfl]
    exact uint_dec_succ h0 hlt
  · intro q hq
    rw [hp, hu, if_neg hq, if_neg hq]
    exact ⟨rfl, rfl⟩
  · intro hr
    have hg := bunpin_bpin_get hb hr
    refine ⟨buf_eq_of_get (by simp) (fun i => hg _), ?_, by simp⟩
    rw [head_eq_get, head_eq_get, hg]

/-- C14 amended, on the pool `exA`: slot 0 is pinned and unpinned. -/
theorem C14_witness :
    exA.isSlot (Ptr.slot 0) ∧ ((bpin exA (Ptr.slot 0)).get (Ptr.slot 0)).refcnt = 2 ∧
      (bunpin (bpin exA (Ptr.slot 0)) (Ptr.slot 0)).buf = exA.buf :=
  ⟨by decide, (C14_amended_pin_unpin_frame exA (Ptr.slot 0) (by decide)).2.1 (by decide),
    ((C14_amended_pin_unpin_frame exA (Ptr.slot 0) (by decide)).2.2.2.2.2.2.2.2.2 (by decide)).1⟩

/-! ## The events each operation issues -/

@[simp] theorem emit_trace (s : Sys) (e : Event) : (s.emit e).trace = s.trace ++ [e] := rfl

theorem lock_and_return_trace (pid : Nat) (b : Ptr) (s : Sys) {c : Ptr} {s' : Sys}
    (h : lock_and_return pid b s = Result.ret c s' ∨
      lock_and_return pid b s = Result.sleeps c s') :
    c = b ∧ s'.trace = s.trace ++ [Event.acquiresleep b] := by
  rcases lock_and_return_cases pid b s with h1 | h1
  · rw [h1.2] at h
    rcases h with h | h
    · simp only [Result.ret.injEq] at h
      obtain ⟨rfl, rfl⟩ := h
      exact ⟨rfl, by simp⟩
    · cases h
  · rw [h1.2] at h
    rcases h with h | h
    · cases h
    · simp only [Result.sleeps.injEq] at h
      obtain ⟨rfl, rfl⟩ := h
      exact ⟨rfl, by simp⟩

/-- Whatever the state, a call of `bget` that selects `b` has taken and released
the metadata lock and then asked for the content lock of `b`. -/
theorem bget_trace {s s' : Sys} {pid dev blockno : Nat} {b : Ptr}
    (h : bget pid s dev blockno = Result.ret b s' ∨ bget pid s dev blockno = Result.sleeps b s') :
    Emits s s' [Event.acquire, Event.release, Event.acquiresleep b] := by
  unfold Emits
  unfold bget bgetFuel at h
  simp only [] at h
  split at h
  · rcases h with h | h <;> cases h
  · rename_i c hc
    obtain ⟨hbc, ht⟩ := lock_and_return_trace pid c _ h
    subst hbc
    rw [ht]
    simp [bget_hit, release, acquire]
  · split at h
    · rcases h with h | h <;> cases h
    · rename_i c hu
      obtain ⟨hbc, ht⟩ := lock_and_return_trace pid c _ h
      subst hbc
      rw [ht]
      simp [bget_recycle, release, acquire]
    · rcases h with h | h <;> cases h

theorem bget_panic_trace {s s' : Sys} {pid dev blockno : Nat} {m : String}
    (h : bget pid s dev blockno = Result.panic m s') : Emits s s' [Event.acquire] := by
  rw [(bget_panic_msg h).2]
  rfl

theorem bread_load_trace (b : Ptr) (s : Sys) :
    Emits s (bread_load b s) (if (s.get b).valid = 0 then [Event.disk_rw b 0] else []) := by
  unfold Emits bread_load virtio_disk_rw
  split <;> simp

theorem brelse_trace {s s' : Sys} {pid : Nat} {b : Ptr}
    (h : brelse pid s b = Result.ret () s') :
    Emits s s' [Event.releasesleep b, Event.acquire, Event.release] := by
  obtain ⟨_, rfl⟩ := brelse_ret_iff.mp h
  unfold Emits
  split_ifs <;> simp [brelse_relink, brelse_dec, releasesleep, release, acquire]

theorem bpin_trace (s : Sys) (b : Ptr) : Emits s (bpin s b) [Event.acquire, Event.release] := by
  simp [Emits, bpin, release, acquire]

theorem bunpin_trace (s : Sys) (b : Ptr) :
    Emits s (bunpin s b) [Event.acquire, Event.release] := by
  simp [Emits, bunpin, release, acquire]

theorem bread_trace {s s' : Sys} {pid dev blockno : Nat} {b : Ptr}
    (h : bread pid s dev blockno = Result.ret b s') :
    ∃ s0, bget pid s dev blockno = Result.ret b s0 ∧ s' = bread_load b s0 ∧
      Emits s s' ([Event.acquire, Event.release, Event.acquiresleep b] ++
        (if (s0.get b).valid = 0 then [Event.disk_rw b 0] else [])) := by
  obtain ⟨s0, h0, rfl⟩ := bread_ret_iff.mp h
  refine ⟨s0, h0, rfl, ?_⟩
  have h1 := bget_trace (Or.inl h0)
  have h2 := bread_load_trace b s0
  unfold Emits at *
  rw [h2, h1, List.append_assoc]

/-! ## C12: the postcondition of `bread` -/

theorem load_valid_one (x : Buf) (d : Nat → Nat → Data) (h : x.valid ≤ 1) :
    (x.load d).valid = 1 := by
  unfold Buf.load
  split
  · rfl
  · omega

theorem heldLocks_of_holding {pid : Nat} {b : Ptr} {s : Sys}
    (h : holdingsleep pid b s = true) : heldLocks pid b s = [b] := by
  simp [heldLocks, h]

theorem lockOrder_bread (b : Ptr) :
    lockOrder false [] [Event.acquire, Event.release, Event.acquiresleep b] = true ∧
    lockOrder false []
      [Event.acquire, Event.release, Event.acquiresleep b, Event.disk_rw b 0] = true := by
  simp [lockOrder]

theorem lockOrder_brelse (b : Ptr) :
    lockOrder false [b] [Event.releasesleep b, Event.acquire, Event.release] = true := by
  simp [lockOrder]

/-- C17 (two-tier lock order).  Each operation appends a fixed sequence of lock
and device events to the trace.  `bget` that selects `b` issues
`acquire, release, acquiresleep b`, and `acquire` alone when it panics; `bread`
issues the events of `bget` followed by one read of `b` when the slot was not
valid; `bwrite` issues one write of `b`; `brelse` issues
`releasesleep b, acquire, release`, the content lock first; `bpin` and `bunpin`
issue `acquire, release`; the panics of `bwrite` and `brelse` issue nothing.
Each of these sequences respects the lock order (`lockOrder`, started with the
metadata lock free and with the content locks the caller holds on entry): the
metadata lock is not held when a content lock is asked for or a transfer is
issued, and a transfer on `b` is issued while the content lock of `b` is held.
Each sequence of a call that does not panic ends with the metadata lock
released (`metaHeld`).  On a well-formed list the slot `bget` returns to
`bread` is locked by the caller in the very state the read starts from.  A
caller resumed after waiting for the content lock holds it and then issues the
read, if one is due, with the metadata lock free. -/
theorem C17_lock_order (s : Sys) (pid : Nat) :
    (∀ dev blockno b s',
      (bget pid s dev blockno = Result.ret b s' ∨ bget pid s dev blockno = Result.sleeps b s') →
      ∃ ev, Emits s s' ev ∧ ev = [Event.acquire, Event.release, Event.acquiresleep b] ∧
        lockOrder false [] ev = true ∧ metaHeld false ev = false) ∧
    (∀ dev blockno m s', bget pid s dev blockno = Result.panic m s' →
      ∃ ev, Emits s s' ev ∧ ev = [Event.acquire] ∧ lockOrder false [] ev = true) ∧
    (∀ dev blockno b s', bread pid s dev blockno = Result.ret b s' →
      ∃ s0 ev, bget pid s dev blockno = Result.ret b s0 ∧ Emits s s' ev ∧
        ev = [Event.acquire, Event.release, Event.acquiresleep b] ++
          (if (s0.get b).valid = 0 then [Event.disk_rw b 0] else []) ∧
        lockOrder false [] ev = true ∧ metaHeld false ev = false ∧
        (WF s → (s0.get b).lock = some pid)) ∧
    (∀ dev blockno b s', bread pid s dev blockno = Result.sleeps b s' →
      ∃ ev, Emits s s' ev ∧ ev = [Event.acquire, Event.release, Event.acquiresleep b] ∧
        lockOrder false [] ev = true ∧ metaHeld false ev = false) ∧
    (∀ dev blockno m s', bread pid s dev blockno = Result.panic m s' →
      ∃ ev, Emits s s' ev ∧ ev = [Event.acquire] ∧ lockOrder false [] ev = true) ∧
    (∀ b s', bwrite pid s b = Result.ret () s' →
      ∃ ev, Emits s s' ev ∧ ev = [Event.disk_rw b 1] ∧ heldLocks pid b s = [b] ∧
        lockOrder false (heldLocks pid b s) ev = true ∧ metaHeld false ev = false) ∧
    (∀ b s', brelse pid s b = Result.ret () s' →
      ∃ ev, Emits s s' ev ∧ ev = [Event.releasesleep b, Event.acquire, Event.release] ∧
        heldLocks pid b s = [b] ∧
        lockOrder false (heldLocks pid b s) ev = true ∧ metaHeld false ev = false) ∧
    (∀ b m s', (bwrite pid s b = Result.panic m s' ∨ brelse pid s b = Result.panic m s') →
      Emits s s' []) ∧
    (∀ b, ∃ ev, Emits s (bpin s b) ev ∧ Emits s (bunpin s b) ev ∧
      ev = [Event.acquire, Event.release] ∧
      lockOrder false [] ev = true ∧ metaHeld false ev = false) ∧
    (∀ b s', s.isSlot b → bread_wake pid b s = Result.ret b s' →
      ∃ ev, Emits s s' ev ∧
        ev = (if (s.get b).valid = 0 then [Event.disk_rw b 0] else []) ∧
        (s'.get b).lock = some pid ∧
        lockOrder false [b] ev = true ∧ metaHeld false ev = false) := by
  refine ⟨?_, ?_, ?_, ?_, ?_, ?_, ?_, ?_, ?_, ?_⟩
  · intro dev blockno b s' h
    exact ⟨_, bget_trace h, rfl, (lockOrder_bread b).1, rfl⟩
  · intro dev blockno m s' h
    exact ⟨_, bget_panic_trace h, rfl, rfl⟩
  · intro dev blockno b s' h
    obtain ⟨s0, h0, _, he⟩ := bread_trace h
    refine ⟨s0, _, h0, he, rfl, ?_, ?_, ?_⟩
    · split_ifs
      · exact (lockOrder_bread b).2
      · exact (lockOrder_bread b).1
    · split_ifs <;> rfl
    · intro hwf
      rcases (hwf.bget_inv (Or.inl h0)).2.2.2.2.1 with hh | hh
      · exact hh.2.2
      · rw [hh.1] at h0; cases h0
  · intro dev blockno b s' h
    exact ⟨_, bget_trace (Or.inr (bread_sleeps_iff.mp h)), rfl, (lockOrder_bread b).1, rfl⟩
  · intro dev blockno m s' h
    exact ⟨_, bget_panic_trace (bread_panic_iff.mp h), rfl, rfl⟩
  · intro b s' h
    obtain ⟨hh, rfl⟩ := bwrite_ret_iff.mp h
    refine ⟨_, disk_write_trace s b, rfl, heldLocks_of_holding hh, ?_, rfl⟩
    rw [heldLocks_of_holding hh]
    simp [lockOrder]
  · intro b s' h
    have hh := (brelse_ret_iff.mp h).1
    refine ⟨_, brelse_trace h, rfl, heldLocks_of_holding hh, ?_, rfl⟩
    rw [heldLocks_of_holding hh]
    exact lockOrder_brelse b
  · intro b m s' h
    rcases h with h | h
    · rw [(bwrite_panic_state h).2]; simp [Emits]
    · rw [(brelse_panic_state h).2]; simp [Emits]
  · intro b
    exact ⟨_, bpin_trace s b, bunpin_trace s b, rfl, rfl, rfl⟩
  · intro b s' hb h
    obtain ⟨_, _, rfl⟩ := bread_wake_ret_iff.mp h
    have he := bread_load_trace b (s.modify b (fun x => { x with lock := some pid }))
    have hv : ((s.modify b (fun x => { x with lock := some pid })).get b).valid =
        (s.get b).valid := by simp
    rw [hv] at he
    refine ⟨_, by simpa [Emits] using he, rfl, ?_, ?_, ?_⟩
    · rw [bread_wake_get pid (isSlot_valid hb), if_pos rfl, load_lock]
    · split_ifs <;> simp [lockOrder]
    · split_ifs <;> rfl

theorem C17_witness :
    exA.trace = [Event.acquire, Event.release, Event.acquiresleep (Ptr.slot 0),
      Event.disk_rw (Ptr.slot 0) 0] ∧
    ∃ s0 ev, bget 1 exBoot 1 5 = Result.ret (Ptr.slot 0) s0 ∧ Emits exBoot exA ev ∧
      ev = [Event.acquire, Event.release, Event.acquiresleep (Ptr.slot 0)] ++
        (if (s0.get (Ptr.slot 0)).valid = 0 then [Event.disk_rw (Ptr.slot 0) 0] else []) ∧
      lockOrder false [] ev = true ∧ metaHeld false ev = false ∧
      (WF exBoot → (s0.get (Ptr.slot 0)).lock = some 1) :=
  ⟨by decide, (C17_lock_order exBoot 1).2.2.1 1 5 (Ptr.slot 0) exA rfl⟩

/-! ## C15: the scenario on a pool of two slots -/

theorem key_mismatch {d n x1 x2 dev blockno : Nat} (h1 : d = x1) (h2 : n = x2)
    (hne : (x1, x2) ≠ (dev, blockno)) : ¬ (d = dev ∧ n = blockno) := by
  rintro ⟨rfl, rfl⟩
  exact hne (by rw [h1, h2])

theorem cached_two_none {s : Sys} {p q : Ptr} {dev blockno : Nat} (hl : s.lru = [p, q])
    (hp : ¬ ((s.get p).dev = dev ∧ (s.get p).blockno = blockno))
    (hq : ¬ ((s.get q).dev = dev ∧ (s.get q).blockno = blockno)) :
    s.cached dev blockno = none := by
  unfold Sys.cached
  rw [hl]
  simp [List.find?, hp, hq]

theorem cached_two_fst {s : Sys} {p q : Ptr} {dev blockno : Nat} (hl : s.lru = [p, q])
    (hp : (s.get p).dev = dev ∧ (s.get p).blockno = blockno) :
    s.cached dev blockno = some p := by
  unfold Sys.cached
  rw [hl]
  simp [List.find?, hp]

theorem cached_two_snd {s : Sys} {p q : Ptr} {dev blockno : Nat} (hl : s.lru = [p, q])
    (hp : ¬ ((s.get p).dev = dev ∧ (s.get p).blockno = blockno))
    (hq : (s.get q).dev = dev ∧ (s.get q).blockno = blockno) :
    s.cached dev blockno = some q := by
  unfold Sys.cached
  rw [hl]
  simp [List.find?, hp, hq]

theorem victim_two_tail {s : Sys} {p q : Ptr} (hl : s.lru = [p, q])
    (hq : (s.get q).refcnt = 0) : s.victim = some q := by
  unfold Sys.victim
  rw [hl]
  simp [List.find?, hq]

theorem victim_two_head {s : Sys} {p q : Ptr} (hl : s.lru = [p, q])
    (hq : (s.get q).refcnt ≠ 0) (hp : (s.get p).refcnt = 0) : s.victim = some p := by
  unfold Sys.victim
  rw [hl]
  simp [List.find?, hq, hp]

/-- A miss of `bread` on a slot whose content lock is free: the call returns the
victim, reloaded from the device. -/
theorem WF.bread_miss_ret {s : Sys} (hwf : WF s) (pid : Nat) {dev blockno : Nat} {b : Ptr}
    (hc : s.cached dev blockno = none) (hv : s.victim = some b)
    (hl : (s.get b).lock = none) :
    ∃ s0 s', bget pid s dev blockno = Result.ret b s0 ∧ (s0.get b).valid = 0 ∧
      bread pid s dev blockno = Result.ret b s' ∧ WF s' ∧ s'.lru = s.lru ∧
      s'.disk = s.disk ∧ (∀ q, q ≠ b → s'.get q = s.get q) ∧
      (s'.get b).dev = dev ∧ (s'.get b).blockno = blockno ∧ (s'.get b).refcnt = 1 ∧
      (s'.get b).lock = some pid ∧ (s'.get b).valid = 1 ∧
      (s'.get b).data = s.disk dev blockno := by
  have hsel : ¬ (s.cached dev blockno = none ∧ s.victim = none) := by
    rw [hv]; simp
  obtain ⟨c, s0, hcs, hret⟩ := hwf.bget_selects pid dev blockno hsel
  have hor : bget pid s dev blockno = Result.ret c s0 ∨
      bget pid s dev blockno = Result.sleeps c s0 := by
    rcases hret with h | h
    · exact Or.inl h.2
    · exact Or.inr h.2
  obtain ⟨_, hlen, hdisk, ho, _, hcase⟩ := hwf.bget_inv hor
  have hcb : c = b := by
    rcases hcase with hh | hh
    · rw [hc] at hh; cases hh.1
    · rw [hv] at hh; exact (Option.some.inj hh.2.1).symm
  subst hcb
  have h0 : bget pid s dev blockno = Result.ret c s0 := by
    rcases hret with h | h
    · exact h.2
    · exact absurd hl h.1
  have hx : s0.get c = { s.get c with
      dev := dev, blockno := blockno, valid := 0, refcnt := 1, lock := (s0.get c).lock } := by
    rcases hcase with hh | hh
    · rw [hc] at hh; cases hh.1
    · exact hh.2.2
  have hlk : (s0.get c).lock = some pid := by
    rcases (hwf.bget_inv (Or.inl h0)).2.2.2.2.1 with hh | hh
    · exact hh.2.2
    · rw [hh.1] at h0; cases h0
  have hbr : bread pid s dev blockno = Result.ret c (bread_load c s0) :=
    bread_ret_iff.mpr ⟨s0, h0, rfl⟩
  obtain ⟨hwf', hlru, _, _, _, _⟩ := hwf.bread_post (Or.inl hbr)
  have hbv : s0.valid c := isSlot_valid ((isSlot_congr hlen c).mpr hcs)
  have hv0 : (s0.get c).valid = 0 := by rw [hx]
  have hg : (bread_load c s0).get c = (s0.get c).load s0.disk := by
    rw [bread_load_get hbv, if_pos rfl]
  refine ⟨s0, _, h0, hv0, hbr, hwf', hlru, by rw [bread_load_disk, hdisk], ?_, ?_, ?_, ?_, ?_,
    ?_, ?_⟩
  · intro q hq
    rw [bread_load_get hbv, if_neg hq]
    exact ho q hq
  · rw [hg, load_dev, hx]
  · rw [hg, load_blockno, hx]
  · rw [hg, load_refcnt, hx]
  · rw [hg, load_lock]; exact hlk
  · rw [hg]; exact load_valid_one _ _ (by rw [hv0]; exact Nat.zero_le 1)
  · rw [hg, load_data, if_pos hv0, hx, hdisk]

/-- A hit of `bread` on a slot whose content lock is free. -/
theorem WF.bread_hit_ret {s : Sys} (hwf : WF s) (pid : Nat) {dev blockno : Nat} {b : Ptr}
    (hc : s.cached dev blockno = some b) (hl : (s.get b).lock = none) :
    ∃ s', bread pid s dev blockno = Result.ret b s' ∧ WF s' ∧ s'.lru = s.lru ∧
      s'.disk = s.disk ∧ (∀ q, q ≠ b → s'.get q = s.get q) ∧
      (s'.get b).dev = dev ∧ (s'.get b).blockno = blockno ∧
      (s'.get b).refcnt = ((s.get b).refcnt + 1) % UINT_MOD ∧
      (s'.get b).lock = some pid ∧ ((s.get b).valid ≤ 1 → (s'.get b).valid = 1) ∧
      (s'.get b).data =
        if (s.get b).valid = 0 then s.disk dev blockno else (s.get b).data := by
  have hsel : ¬ (s.cached dev blockno = none ∧ s.victim = none) := by
    rw [hc]; simp
  obtain ⟨c, s0, hcs, hret⟩ := hwf.bget_selects pid dev blockno hsel
  have hor : bget pid s dev blockno = Result.ret c s0 ∨
      bget pid s dev blockno = Result.sleeps c s0 := by
    rcases hret with h | h
    · exact Or.inl h.2
    · exact Or.inr h.2
  obtain ⟨_, hlen, hdisk, ho, _, hcase⟩ := hwf.bget_inv hor
  have hcb : c = b := by
    rcases hcase with hh | hh
    · rw [hc] at hh; exact (Option.some.inj hh.1).symm
    · rw [hc] at hh; cases hh.1
  subst hcb
  have h0 : bget pid s dev blockno = Result.ret c s0 := by
    rcases hret with h | h
    · exact h.2
    · exact absurd hl h.1
  have hx : s0.get c = { s.get c with
      refcnt := ((s.get c).refcnt + 1) % UINT_MOD, lock := (s0.get c).lock } := by
    rcases hcase with hh | hh
    · exact hh.2
    · rw [hc] at hh; cases hh.1
  have hlk : (s0.get c).lock = some pid := by
    rcases (hwf.bget_inv (Or.inl h0)).2.2.2.2.1 with hh | hh
    · exact hh.2.2
    · rw [hh.1] at h0; cases h0
  have hbr : bread pid s dev blockno = Result.ret c (bread_load c s0) :=
    bread_ret_iff.mpr ⟨s0, h0, rfl⟩
  obtain ⟨hwf', hlru, _, _, _, _⟩ := hwf.bread_post (Or.inl hbr)
  have hbv : s0.valid c := isSlot_valid ((isSlot_congr hlen c).mpr hcs)
  have hk := (cached_some hc).2
  have hv0 : (s0.get c).valid = (s.get c).valid := by rw [hx]
  have hd0 : (s0.get c).dev = dev := by rw [hx]; exact hk.1
  have hn0 : (s0.get c).blockno = blockno := by rw [hx]; exact hk.2
  have hg : (bread_load c s0).get c = (s0.get c).load s0.disk := by
    rw [bread_load_get hbv, if_pos rfl]
  refine ⟨_, hbr, hwf', hlru, by rw [bread_load_disk, hdisk], ?_, ?_, ?_, ?_, ?_, ?_, ?_⟩
  · intro q hq
    rw [bread_load_get hbv, if_neg hq]
    exact ho q hq
  · rw [hg, load_dev, hd0]
  · rw [hg, load_blockno, hn0]
  · rw [hg, load_refcnt, hx]
  · rw [hg, load_lock]; exact hlk
  · intro hv; rw [hg]; exact load_valid_one _ _ (by rw [hv0]; exact hv)
  · rw [hg, load_data, hv0, hd0, hn0, hdisk]
    split_ifs
    · rfl
    · rw [hx]

/-- Giving back the only reference to a slot: it becomes the head of the
recency list. -/
theorem WF.brelse_last {s : Sys} (hwf : WF s) {pid : Nat} {b : Ptr} (hb : s.isSlot b)
    (hh : (s.get b).lock = some pid) (hr : (s.get b).refcnt = 1) :
    ∃ s', brelse pid s b = Result.ret () s' ∧ WF s' ∧ s'.lru = b :: s.lru.erase b ∧
      s'.disk = s.disk ∧
      (∀ q, (s'.get q).valid = (s.get q).valid ∧ (s'.get q).dev = (s.get q).dev ∧
        (s'.get q).blockno = (s.get q).blockno ∧ (s'.get q).data = (s.get q).data) ∧
      (s'.get b).lock = none ∧ (s'.get b).refcnt = 0 ∧
      (∀ q, q ≠ b → (s'.get q).lock = (s.get q).lock ∧ (s'.get q).refcnt = (s.get q).refcnt) := by
  have hres := brelse_eq (holdingsleep_iff.mpr hh)
  obtain ⟨_, hwf', _, hdisk, hf, hz, _⟩ := hwf.brelse_inv hb hres
  have hr0 : ((release (if ((Bio.brelse_dec s b).get b).refcnt = 0 then
      brelse_relink (Bio.brelse_dec s b) b else Bio.brelse_dec s b)).get b).refcnt = 0 := by
    rw [(hf b).2.2.2.2.2, if_pos rfl, hr]
    rfl
  refine ⟨_, hres, hwf', hz hr0, hdisk, ?_, ?_, hr0, ?_⟩
  · intro q
    exact ⟨(hf q).1, (hf q).2.1, (hf q).2.2.1, (hf q).2.2.2.1⟩
  · rw [(hf b).2.2.2.2.1, if_pos rfl]
  · intro q hq
    exact ⟨by rw [(hf q).2.2.2.2.1, if_neg hq], by rw [(hf q).2.2.2.2.2, if_neg hq]⟩

theorem boot_two_lru (bsize : Nat) (disk : Nat → Nat → Data) :
    (binit (zeroSys 2 bsize disk)).lru = [Ptr.slot 1, Ptr.slot 0] := by
  rw [boot_lru]
  rfl

theorem key_eq {s : Sys} {p : Ptr} {d n : Nat} (h1 : (s.get p).dev = d)
    (h2 : (s.get p).blockno = n) : s.key p = (d, n) := by
  unfold Sys.key
  rw [h1, h2]

theorem slot_one_ne_zero : Ptr.slot 1 ≠ Ptr.slot 0 := by decide

theorem slot_zero_ne_one : Ptr.slot 0 ≠ Ptr.slot 1 := by decide

/-- C15 as stated fails for `A = (0, 0)`: on the pool of two slots right after
`binit`, with the pairwise distinct keys `(0, 0)`, `(1, 1)`, `(1, 2)`, the first
call `bread(0, 0)` is a hit on slot 1, the head of the recency list, which still
carries the identity `(0, 0)` of the zeroed pool; it does not use slot 0. -/
theorem C15_counterexample :
    ((0, 0) : Nat × Nat) ≠ (1, 1) ∧ ((0, 0) : Nat × Nat) ≠ (1, 2) ∧
    ((1, 1) : Nat × Nat) ≠ (1, 2) ∧
    exBoot = binit (zeroSys 2 2 exDisk) ∧
    exBoot.cached 0 0 = some (Ptr.slot 1) ∧
    (∃ s', bread 1 exBoot 0 0 = Result.ret (Ptr.slot 1) s') ∧
    ¬ ∃ s', bread 1 exBoot 0 0 = Result.ret (Ptr.slot 0) s' := by
  refine ⟨by decide, by decide, by decide, rfl, by decide, ⟨_, rfl⟩, ?_⟩
  rintro ⟨s', h⟩
  have h1 : bread 1 exBoot 0 0 =
      Result.ret (Ptr.slot 1) (Result.state exBoot (bread 1 exBoot 0 0)) := rfl
  rw [h1] at h
  injection h with h2 _
  exact slot_one_ne_zero h2

/-- C15 amended (the scenario on a pool of two slots, for `A ≠ (0, 0)`).  On
the pool of two slots right after `binit`, for any block size, device and
caller, and any pairwise distinct keys `A = (a1, a2)`, `B = (b1, b2)`,
`C = (c1, c2)` with `A ≠ (0, 0)`: `bread(A)` returns slot 0; `brelse` makes
slot 0 the head, order `[slot 0, slot 1]`; `bread(B)` returns slot 1; after
`brelse` the order is `[slot 1, slot 0]` with `B` in slot 1 and `A` in slot 0;
`bread(C)` is a miss (no slot has identity `C`), the victim is the tail, slot 0,
which is returned holding the device's block `C`, while `B` is still cached in
slot 1 with its content; a following `bread(A)` is a miss again: `bget`
recycles slot 1 for `A` with `valid == 0` and `bread` reloads it from the
device.  The same holds when `C` is released first: slot 1 is then the tail and
is recycled. -/
theorem C15_amended_scenario (bsize : Nat) (disk : Nat → Nat → Data)
    (pid a1 a2 b1 b2 c1 c2 : Nat)
    (hA : (a1, a2) ≠ (0, 0)) (hAB : (a1, a2) ≠ (b1, b2)) (hAC : (a1, a2) ≠ (c1, c2))
    (hBC : (b1, b2) ≠ (c1, c2)) :
    ∃ s1 s2 s3 s4 s5 t6 s6 r5 u6 : Sys,
      bread pid (binit (zeroSys 2 bsize disk)) a1 a2 = Result.ret (Ptr.slot 0) s1 ∧
      brelse pid s1 (Ptr.slot 0) = Result.ret () s2 ∧
      s2.lru = [Ptr.slot 0, Ptr.slot 1] ∧ s2.head.next = Ptr.slot 0 ∧
      bread pid s2 b1 b2 = Result.ret (Ptr.slot 1) s3 ∧
      brelse pid s3 (Ptr.slot 1) = Result.ret () s4 ∧
      s4.lru = [Ptr.slot 1, Ptr.slot 0] ∧
      s4.key (Ptr.slot 1) = (b1, b2) ∧ s4.key (Ptr.slot 0) = (a1, a2) ∧
      s4.cached c1 c2 = none ∧ s4.head.prev = Ptr.slot 0 ∧ s4.victim = some (Ptr.slot 0) ∧
      bread pid s4 c1 c2 = Result.ret (Ptr.slot 0) s5 ∧
      s5.key (Ptr.slot 0) = (c1, c2) ∧ (s5.get (Ptr.slot 0)).data = disk c1 c2 ∧
      s5.key (Ptr.slot 1) = (b1, b2) ∧ s5.cached b1 b2 = some (Ptr.slot 1) ∧
      (s5.get (Ptr.slot 1)).valid = 1 ∧ (s5.get (Ptr.slot 1)).data = disk b1 b2 ∧
      s5.cached a1 a2 = none ∧
      bget pid s5 a1 a2 = Result.ret (Ptr.slot 1) t6 ∧
      (t6.get (Ptr.slot 1)).valid = 0 ∧
      bread pid s5 a1 a2 = Result.ret (Ptr.slot 1) s6 ∧
      s6.key (Ptr.slot 1) = (a1, a2) ∧ (s6.get (Ptr.slot 1)).data = disk a1 a2 ∧
      brelse pid s5 (Ptr.slot 0) = Result.ret () r5 ∧
      r5.lru = [Ptr.slot 0, Ptr.slot 1] ∧ r5.head.prev = Ptr.slot 1 ∧
      r5.cached a1 a2 = none ∧
      bget pid r5 a1 a2 = Result.ret (Ptr.slot 1) u6 ∧ (u6.get (Ptr.slot 1)).valid = 0 := by
  have hw0 : WF (binit (zeroSys 2 bsize disk)) := binit_wf _
  have hl0 := boot_two_lru bsize disk
  obtain ⟨v00, d00, n00, r00, k00⟩ := boot_get 2 bsize disk (Ptr.slot 0)
  obtain ⟨v01, d01, n01, r01, k01⟩ := boot_get 2 bsize disk (Ptr.slot 1)
  have hdisk0 : (binit (zeroSys 2 bsize disk)).disk = disk := rfl
  -- bread(A)
  have hc0 : (binit (zeroSys 2 bsize disk)).cached a1 a2 = none :=
    cached_two_none hl0 (key_mismatch d01 n01 (Ne.symm hA)) (key_mismatch d00 n00 (Ne.symm hA))
  have hv0 : (binit (zeroSys 2 bsize disk)).victim = some (Ptr.slot 0) :=
    victim_two_tail hl0 r00
  obtain ⟨_, s1, _, _, hb1, hw1, hl1, hk1, ho1, d10, n10, r10, k10, v10, x10⟩ :=
    hw0.bread_miss_ret pid hc0 hv0 k00
  rw [hl0] at hl1
  have g11 := ho1 _ slot_one_ne_zero
  -- brelse(slot 0)
  have hs1 : s1.isSlot (Ptr.slot 0) := hw1.mem_lru.mp (by rw [hl1]; simp)
  obtain ⟨s2, hb2, hw2, hl2, hk2, hf2, k20, r20, ho2⟩ := hw1.brelse_last hs1 k10 r10
  rw [hl1] at hl2
  have hl2' : s2.lru = [Ptr.slot 0, Ptr.slot 1] := by rw [hl2]; decide
  have d20 : (s2.get (Ptr.slot 0)).dev = a1 := by rw [(hf2 _).2.1, d10]
  have n20 : (s2.get (Ptr.slot 0)).blockno = a2 := by rw [(hf2 _).2.2.1, n10]
  have d21 : (s2.get (Ptr.slot 1)).dev = 0 := by rw [(hf2 _).2.1, g11, d01]
  have n21 : (s2.get (Ptr.slot 1)).blockno = 0 := by rw [(hf2 _).2.2.1, g11, n01]
  have v21 : (s2.get (Ptr.slot 1)).valid = 0 := by rw [(hf2 _).1, g11, v01]
  have r21 : (s2.get (Ptr.slot 1)).refcnt = 0 := by
    rw [(ho2 _ slot_one_ne_zero).2, g11, r01]
  have k21 : (s2.get (Ptr.slot 1)).lock = none := by
    rw [(ho2 _ slot_one_ne_zero).1, g11, k01]
  -- bread(B)
  have hB : ∃ s3, bread pid s2 b1 b2 = Result.ret (Ptr.slot 1) s3 ∧ WF s3 ∧
      s3.lru = s2.lru ∧ s3.disk = s2.disk ∧
      (∀ q, q ≠ Ptr.slot 1 → s3.get q = s2.get q) ∧
      (s3.get (Ptr.slot 1)).dev = b1 ∧ (s3.get (Ptr.slot 1)).blockno = b2 ∧
      (s3.get (Ptr.slot 1)).refcnt = 1 ∧ (s3.get (Ptr.slot 1)).lock = some pid ∧
      (s3.get (Ptr.slot 1)).valid = 1 ∧ (s3.get (Ptr.slot 1)).data = s2.disk b1 b2 := by
    by_cases hB0 : (b1, b2) = (0, 0)
    · have e1 : b1 = 0 := congrArg Prod.fst hB0
      have e2 : b2 = 0 := congrArg Prod.snd hB0
      have hc2 : s2.cached b1 b2 = some (Ptr.slot 1) :=
        cached_two_snd hl2' (key_mismatch d20 n20 hAB) ⟨by rw [d21, e1], by rw [n21, e2]⟩
      obtain ⟨s3, h1, h2, h3, h4, h5, h6, h7, h8, h9, h10, h11⟩ := hw2.bread_hit_ret pid hc2 k21
      refine ⟨s3, h1, h2, h3, h4, h5, h6, h7, ?_, h9, h10 (by rw [v21]; exact Nat.zero_le 1), ?_⟩
      · rw [h8, r21]; rfl
      · rw [h11, if_pos v21]
    · have hc2 : s2.cached b1 b2 = none :=
        cached_two_none hl2' (key_mismatch d20 n20 hAB) (key_mismatch d21 n21 (Ne.symm hB0))
      have hv2 : s2.victim = some (Ptr.slot 1) := victim_two_tail hl2' r21
      obtain ⟨_, s3, _, _, h1, h2, h3, h4, h5, h6, h7, h8, h9, h10, h11⟩ :=
        hw2.bread_miss_ret pid hc2 hv2 k21
      exact ⟨s3, h1, h2, h3, h4, h5, h6, h7, h8, h9, h10, h11⟩
  obtain ⟨s3, hb3, hw3, hl3, hk3, ho3, d31, n31, r31, k31, v31, x31⟩ := hB
  rw [hl2'] at hl3
  have g30 := ho3 _ slot_zero_ne_one
  -- brelse(slot 1)
  have hs3 : s3.isSlot (Ptr.slot 1) := hw3.mem_lru.mp (by rw [hl3]; simp)
  obtain ⟨s4, hb4, hw4, hl4, hk4, hf4, k41, r41, ho4⟩ := hw3.brelse_last hs3 k31 r31
  rw [hl3] at hl4
  have hl4' : s4.lru = [Ptr.slot 1, Ptr.slot 0] := by rw [hl4]; decide
  have d41 : (s4.get (Ptr.slot 1)).dev = b1 := by rw [(hf4 _).2.1, d31]
  have n41 : (s4.get (Ptr.slot 1)).blockno = b2 := by rw [(hf4 _).2.2.1, n31]
  have v41 : (s4.get (Ptr.slot 1)).valid = 1 := by rw [(hf4 _).1, v31]
  have x41 : (s4.get (Ptr.slot 1)).data = disk b1 b2 := by
    rw [(hf4 _).2.2.2, x31, hk2, hk1, hdisk0]
  have d40 : (s4.get (Ptr.slot 0)).dev = a1 := by rw [(hf4 _).2.1, g30, d20]
  have n40 : (s4.get (Ptr.slot 0)).blockno = a2 := by rw [(hf4 _).2.2.1, g30, n20]
  have r40 : (s4.get (Ptr.slot 0)).refcnt = 0 := by
    rw [(ho4 _ slot_zero_ne_one).2, g30, r20]
  have k40 : (s4.get (Ptr.slot 0)).lock = none := by
    rw [(ho4 _ slot_zero_ne_one).1, g30, k20]
  have hdisk4 : s4.disk = disk := by rw [hk4, hk3, hk2, hk1, hdisk0]
  -- bread(C)
  have hc4 : s4.cached c1 c2 = none :=
    cached_two_none hl4' (key_mismatch d41 n41 hBC) (key_mismatch d40 n40 hAC)
  have hv4 : s4.victim = some (Ptr.slot 0) := victim_two_tail hl4' r40
  have ht4 : s4.head.prev = Ptr.slot 0 := hw4.tail_eq (show s4.lru = [Ptr.slot 1] ++ _ from hl4')
  obtain ⟨_, s5, _, _, hb5, hw5, hl5, hk5, ho5, d50, n50, r50, k50, v50, x50⟩ :=
    hw4.bread_miss_ret pid hc4 hv4 k40
  rw [hl4'] at hl5
  have g51 := ho5 _ slot_one_ne_zero
  have d51 : (s5.get (Ptr.slot 1)).dev = b1 := by rw [g51, d41]
  have n51 : (s5.get (Ptr.slot 1)).blockno = b2 := by rw [g51, n41]
  have r51 : (s5.get (Ptr.slot 1)).refcnt = 0 := by rw [g51, r41]
  have k51 : (s5.get (Ptr.slot 1)).lock = none := by rw [g51, k41]
  have hc5b : s5.cached b1 b2 = some (Ptr.slot 1) := cached_two_fst hl5 ⟨d51, n51⟩
  -- bread(A) again
  have hc5 : s5.cached a1 a2 = none :=
    cached_two_none hl5 (key_mismatch d51 n51 (Ne.symm hAB)) (key_mismatch d50 n50 (Ne.symm hAC))
  have hv5 : s5.victim = some (Ptr.slot 1) :=
    victim_two_head hl5 (by rw [r50]; exact Nat.one_ne_zero) r51
  obtain ⟨t6, s6, hg6, hv6, hb6, _, _, _, _, d61, n61, _, _, _, x61⟩ :=
    hw5.bread_miss_ret pid hc5 hv5 k51
  -- the same after brelse(slot 0)
  have hs5 : s5.isSlot (Ptr.slot 0) := hw5.mem_lru.mp (by rw [hl5]; simp)
  obtain ⟨r5, hb7, hw7, hl7, _, hf7, _, r70, ho7⟩ := hw5.brelse_last hs5 k50 r50
  rw [hl5] at hl7
  have hl7' : r5.lru = [Ptr.slot 0, Ptr.slot 1] := by rw [hl7]; decide
  have hc7 : r5.cached a1 a2 = none :=
    cached_two_none hl7'
      (key_mismatch (by rw [(hf7 _).2.1, d50]) (by rw [(hf7 _).2.2.1, n50]) (Ne.symm hAC))
      (key_mismatch (by rw [(hf7 _).2.1, d51]) (by rw [(hf7 _).2.2.1, n51]) (Ne.symm hAB))
  have hv7 : r5.victim = some (Ptr.slot 1) :=
    victim_two_tail hl7' (by rw [(ho7 _ slot_one_ne_zero).2, r51])
  obtain ⟨u6, _, hg8, hv8, _⟩ :=
    hw7.bread_miss_ret pid hc7 hv7 (by rw [(ho7 _ slot_one_ne_zero).1, k51])
  exact ⟨s1, s2, s3, s4, s5, t6, s6, r5, u6, hb1, hb2, hl2', hw2.head_next_eq hl2', hb3, hb4,
    hl4', key_eq d41 n41, key_eq d40 n40, hc4, ht4, hv4, hb5, key_eq d50 n50,
    by rw [x50, hdisk4], key_eq d51 n51, hc5b, by rw [g51, v41], by rw [g51, x41], hc5,
    hg6, hv6, hb6, key_eq d61 n61, by rw [x61, hk5, hdisk4], hb7, hl7',
    hw7.tail_eq (show r5.lru = [Ptr.slot 0] ++ _ from hl7'), hc7, hg8, hv8⟩

theorem C15_witness :
    ∃ s1 s2 s3 s4 s5 t6 s6 r5 u6 : Sys,
      bread 1 (binit (zeroSys 2 2 exDisk)) 1 5 = Result.ret (Ptr.slot 0) s1 ∧
      brelse 1 s1 (Ptr.slot 0) = Result.ret () s2 ∧
      s2.lru = [Ptr.slot 0, Ptr.slot 1] ∧ s2.head.next = Ptr.slot 0 ∧
      bread 1 s2 0 0 = Result.ret (Ptr.slot 1) s3 ∧
      brelse 1 s3 (Ptr.slot 1) = Result.ret () s4 ∧
      s4.lru = [Ptr.slot 1, Ptr.slot 0] ∧
      s4.key (Ptr.slot 1) = (0, 0) ∧ s4.key (Ptr.slot 0) = (1, 5) ∧
      s4.cached 1 7 = none ∧ s4.head.prev = Ptr.slot 0 ∧ s4.victim = some (Ptr.slot 0) ∧
      bread 1 s4 1 7 = Result.ret (Ptr.slot 0) s5 ∧
      s5.key (Ptr.slot 0) = (1, 7) ∧ (s5.get (Ptr.slot 0)).data = exDisk 1 7 ∧
      s5.key (Ptr.slot 1) = (0, 0) ∧ s5.cached 0 0 = some (Ptr.slot 1) ∧
      (s5.get (Ptr.slot 1)).valid = 1 ∧ (s5.get (Ptr.slot 1)).data = exDisk 0 0 ∧
      s5.cached 1 5 = none ∧
      bget 1 s5 1 5 = Result.ret (Ptr.slot 1) t6 ∧
      (t6.get (Ptr.slot 1)).valid = 0 ∧
      bread 1 s5 1 5 = Result.ret (Ptr.slot 1) s6 ∧
      s6.key (Ptr.slot 1) = (1, 5) ∧ (s6.get (Ptr.slot 1)).data = exDisk 1 5 ∧
      brelse 1 s5 (Ptr.slot 0) = Result.ret () r5 ∧
      r5.lru = [Ptr.slot 0, Ptr.slot 1] ∧ r5.head.prev = Ptr.slot 1 ∧
      r5.cached 1 5 = none ∧
      bget 1 r5 1 5 = Result.ret (Ptr.slot 1) u6 ∧ (u6.get (Ptr.slot 1)).valid = 0 :=
  C15_amended_scenario 2 exDisk 1 1 5 0 0 1 7 (by decide) (by decide) (by decide) (by decide)

/-! ## The recency order and the times at which `brelse` moves a slot -/

theorem dirtyStep_iff {op : Op} {s s' : Sys} {d d' : List Ptr} :
    dirtyStep op (s, d) = some (s', d') ↔
      dirtyAllows d s op = true ∧ op.run s = some s' ∧ d' = dirtyBook d op := by
  unfold dirtyStep
  by_cases ha : dirtyAllows d s op = true
  · simp only [ha, if_true, true_and]
    cases hr : op.run s with
    | none =>
      constructor
      · intro h; cases h
      · rintro ⟨h, _⟩; cases h
    | some s1 =>
      constructor
      · intro h
        simp only [Option.some.injEq, Prod.mk.injEq] at h
        exact ⟨by rw [h.1], h.2.symm⟩
      · rintro ⟨h1, h2⟩
        cases h1
        rw [h2]
  · simp only [ha, if_false]
    constructor
    · intro h; cases h
    · rintro ⟨h, _⟩; cases h

theorem dirtyAllows_handle {d : List Ptr} {s : Sys} {op : Op}
    (ha : dirtyAllows d s op = true) : ∀ b, op.handle = some b → InUse s b := by
  intro b hb
  unfold dirtyAllows at ha
  rw [hb] at ha
  simp only [Bool.and_eq_true, decide_eq_true_eq] at ha
  exact ha.1

theorem dirtyAllows_brelse {d : List Ptr} {s : Sys} {pid : Nat} {b : Ptr}
    (ha : dirtyAllows d s (Op.brelse pid b) = true) : b ∉ d := by
  unfold dirtyAllows at ha
  simp only [Bool.and_eq_true, decide_eq_true_eq] at ha
  exact ha.2

/-- Calls that leave the device, the ledger of changed slots, and the identity,
`valid` and bytes of every slot as they are keep the last two parts of the
bookkeeping, given the locks of the changed slots stay held. -/
theorem Coherent.frame_dirty {s s' : Sys} {d : List Ptr} (inv : Coherent s d) (hfirst : InUseFirst s')
    (hwf : WF s') (hlen : s'.buf.length = s.buf.length) (hdisk : s'.disk = s.disk)
    (hf : ∀ q, (s'.get q).valid = (s.get q).valid ∧ (s'.get q).dev = (s.get q).dev ∧
      (s'.get q).blockno = (s.get q).blockno ∧ (s'.get q).data = (s.get q).data)
    (hl : ∀ q ∈ d, (s'.get q).lock ≠ none) : Coherent s' d := by
  refine ⟨hfirst, hwf, hl, ?_⟩
  intro q hq hv hnd
  obtain ⟨f1, f2, f3, f4⟩ := hf q
  rw [f4, f2, f3, hdisk]
  rw [f1] at hv
  exact inv.2.2.2 q ((isSlot_congr hlen q).mp hq) hv hnd

theorem dirtyStep_inv {op : Op} {s s' : Sys} {d d' : List Ptr}
    (h : dirtyStep op (s, d) = some (s', d')) (inv : Coherent s d) : Coherent s' d' := by
  obtain ⟨ha, hrun, rfl⟩ := dirtyStep_iff.mp h
  have hIn := dirtyAllows_handle ha
  have hP : ∀ b, op.handle = some b → s.isSlot b := fun b hb => (hIn b hb).1
  obtain ⟨hfirst, hwf, hlk, hdat⟩ := inv
  have hfirst' : InUseFirst s' := hfirst.run_first hwf hIn hrun
  have hwf' : WF s' := hwf.run hP hrun
  have hlen : s'.buf.length = s.buf.length := hwf.run_length hP hrun
  have hs : ∀ q, s'.isSlot q ↔ s.isSlot q := isSlot_congr hlen
  cases op with
  | bread pid dev blockno =>
    obtain ⟨b, hb⟩ := run_bread_iff.mp hrun
    obtain ⟨hbs, _, hdisk, ho, x, hx, hres⟩ := hwf.bread_inv hb
    have hxf : x.valid ≠ 0 → x.valid = (s.get b).valid ∧ x.dev = (s.get b).dev ∧
        x.blockno = (s.get b).blockno ∧ x.data = (s.get b).data := by
      intro hv
      rcases hx with hh | hh
      · have e1 : x.valid = (s.get b).valid := (congrArg Buf.valid hh.2).trans rfl
        have e2 : x.dev = (s.get b).dev := (congrArg Buf.dev hh.2).trans rfl
        have e3 : x.blockno = (s.get b).blockno := (congrArg Buf.blockno hh.2).trans rfl
        have e4 : x.data = (s.get b).data := (congrArg Buf.data hh.2).trans rfl
        exact ⟨e1, e2, e3, e4⟩
      · have e1 : x.valid = 0 := (congrArg Buf.valid hh.2.2).trans rfl
        exact absurd e1 hv
    refine ⟨hfirst', hwf', ?_, ?_⟩
    · intro q hq
      by_cases hqb : q = b
      · subst hqb
        rcases hres with ⟨_, _, hxl, hsx⟩ | ⟨_, hne, hxl, hsx⟩
        · rw [hsx, load_lock, hxl]; simp
        · rw [hsx, hxl]; exact hne
      · rw [ho q hqb]; exact hlk q hq
    · intro q hq hv hnd
      by_cases hqb : q = b
      · subst hqb
        rcases hres with ⟨_, _, _, hsx⟩ | ⟨_, _, _, hsx⟩
        · rw [hsx, load_data, load_dev, load_blockno, hdisk]
          by_cases hxv : x.valid = 0
          · rw [if_pos hxv]
          · rw [if_neg hxv]
            obtain ⟨f1, f2, f3, f4⟩ := hxf hxv
            rw [f2, f3, f4]
            exact hdat q hbs (by rw [← f1]; exact hxv) hnd
        · rw [hsx] at hv ⊢
          obtain ⟨f1, f2, f3, f4⟩ := hxf hv
          rw [f2, f3, f4, hdisk]
          exact hdat q hbs (by rw [← f1]; exact hv) hnd
      · rw [ho q hqb] at hv ⊢
        rw [hdisk]
        exact hdat q ((hs q).mp hq) hv hnd
  | wake pid b =>
    have hbs : s.isSlot b := hP b rfl
    obtain ⟨_, rfl⟩ := run_wake_iff.mp hrun
    have hg := bread_wake_get pid (isSlot_valid hbs)
    have hdisk : (bread_load b (s.modify b (fun x => { x with lock := some pid }))).disk =
        s.disk := by simp
    refine ⟨hfirst', hwf', ?_, ?_⟩
    · intro q hq
      rw [hg]
      by_cases hqb : q = b
      · rw [if_pos hqb, load_lock]; simp
      · rw [if_neg hqb]; exact hlk q hq
    · intro q hq hv hnd
      rw [hg] at hv ⊢
      rw [hdisk]
      by_cases hqb : q = b
      · subst hqb
        rw [if_pos rfl] at hv ⊢
        rw [load_data, load_dev, load_blockno]
        by_cases hxv : (s.get q).valid = 0
        · rw [if_pos hxv]
        · rw [if_neg hxv]
          exact hdat q hbs hxv hnd
      · rw [if_neg hqb] at hv ⊢
        exact hdat q ((hs q).mp hq) hv hnd
  | store pid b c =>
    have hbs : s.isSlot b := hP b rfl
    obtain ⟨hh, rfl⟩ := run_store_iff.mp hrun
    have hg := store_get c (isSlot_valid hbs)
    refine ⟨hfirst', hwf', ?_, ?_⟩
    · intro q hq
      rw [hg]
      by_cases hqb : q = b
      · rw [if_pos hqb]
        rw [holdingsleep_iff.mp hh]
        simp
      · rw [if_neg hqb]
        rcases List.mem_cons.mp hq with h1 | h1
        · exact absurd h1 hqb
        · exact hlk q h1
    · intro q hq hv hnd
      have hqb : q ≠ b := fun e => hnd (by rw [e]; exact List.mem_cons_self _ _)
      have hqd : q ∉ d := fun e => hnd (List.mem_cons_of_mem _ e)
      rw [hg, if_neg hqb] at hv ⊢
      rw [modify_disk]
      exact hdat q ((hs q).mp hq) hv hqd
  | bwrite pid b =>
    have hbs : s.isSlot b := hP b rfl
    obtain ⟨hh, rfl⟩ := bwrite_ret_iff.mp (run_bwrite_iff.mp hrun)
    refine ⟨hfirst', hwf', ?_, ?_⟩
    · intro q hq
      rw [disk_write_get]
      exact hlk q (List.mem_of_mem_filter hq)
    · intro q hq hv hnd
      rw [disk_write_get] at hv ⊢
      rw [disk_write_disk]
      by_cases hqb : q = b
      · rw [hqb, if_pos ⟨rfl, rfl⟩]
      · have hqd : q ∉ d := fun e => hnd (List.mem_filter.mpr ⟨e, by simpa using hqb⟩)
        have hq' : s.isSlot q := (hs q).mp hq
        have hne : ¬ ((s.get q).dev = (s.get b).dev ∧ (s.get q).blockno = (s.get b).blockno) := by
          intro hk
          apply hqb
          apply first_unique (hfirst q hq' (fun hp => hv hp.2.2))
            (hfirst b hbs (not_pristine_of_lock (holdingsleep_iff.mp hh)))
          unfold Sys.key
          rw [hk.1, hk.2]
        rw [if_neg hne]
        exact hdat q hq' hv hqd
  | brelse pid b =>
    have hbs : s.isSlot b := hP b rfl
    have hbd : b ∉ d := dirtyAllows_brelse ha
    obtain ⟨_, _, _, hdisk, hf, _, _⟩ := hwf.brelse_inv hbs (run_brelse_iff.mp hrun)
    refine Coherent.frame_dirty ⟨hfirst, hwf, hlk, hdat⟩ hfirst' hwf' hlen hdisk
      (fun q => ⟨(hf q).1, (hf q).2.1, (hf q).2.2.1, (hf q).2.2.2.1⟩) ?_
    intro q hq
    have hqb : q ≠ b := fun e => hbd (by rw [← e]; exact hq)
    rw [(hf q).2.2.2.2.1, if_neg hqb]
    exact hlk q hq
  | bpin b =>
    have hbs : s.isSlot b := hP b rfl
    rw [run_bpin_iff.mp hrun] at hfirst' hwf' hlen ⊢
    have hg := @bpin_get s b (isSlot_valid hbs)
    refine Coherent.frame_dirty ⟨hfirst, hwf, hlk, hdat⟩ hfirst' hwf' hlen (by simp) ?_ ?_
    · intro q
      rw [hg]
      split_ifs with hq
      · rw [hq]; exact ⟨rfl, rfl, rfl, rfl⟩
      · exact ⟨rfl, rfl, rfl, rfl⟩
    · intro q hq
      rw [hg]
      split_ifs with hqb
      · rw [← hqb]; exact hlk q hq
      · exact hlk q hq
  | bunpin b =>
    have hbs : s.isSlot b := hP b rfl
    rw [run_bunpin_iff.mp hrun] at hfirst' hwf' hlen ⊢
    have hg := @bunpin_get s b (isSlot_valid hbs)
    refine Coherent.frame_dirty ⟨hfirst, hwf, hlk, hdat⟩ hfirst' hwf' hlen (by simp) ?_ ?_
    · intro q
      rw [hg]
      split_ifs with hq
      · rw [hq]; exact ⟨rfl, rfl, rfl, rfl⟩
      · exact ⟨rfl, rfl, rfl, rfl⟩
    · intro q hq
      rw [hg]
      split_ifs with hqb
      · rw [← hqb]; exact hlk q hq
      · exact hlk q hq

theorem dirtyRun_inv {ops : List Op} {s s' : Sys} {d d' : List Ptr}
    (h : dirtyRun ops (s, d) = some (s', d')) (inv : Coherent s d) : Coherent s' d' := by
  induction ops generalizing s d with
  | nil =>
    simp only [dirtyRun, Option.some.injEq, Prod.mk.injEq] at h
    obtain ⟨rfl, rfl⟩ := h
    exact inv
  | cons op ops ih =>
    simp only [dirtyRun] at h
    cases hs : dirtyStep op (s, d) with
    | none => rw [hs] at h; cases h
    | some x =>
      obtain ⟨s1, d1⟩ := x
      rw [hs] at h
      exact ih h (dirtyStep_inv hs inv)

theorem dirtyRun_reachable {ops : List Op} {s s' : Sys} {d d' : List Ptr}
    (h : dirtyRun ops (s, d) = some (s', d')) (hr : Reachable InUse s) :
    Reachable InUse s' := by
  induction ops generalizing s d with
  | nil =>
    simp only [dirtyRun, Option.some.injEq, Prod.mk.injEq] at h
    obtain ⟨rfl, rfl⟩ := h
    exact hr
  | cons op ops ih =>
    simp only [dirtyRun] at h
    cases hs : dirtyStep op (s, d) with
    | none => rw [hs] at h; cases h
    | some x =>
      obtain ⟨s1, d1⟩ := x
      rw [hs] at h
      obtain ⟨ha, hrun, _⟩ := dirtyStep_iff.mp hs
      exact ih h (Reachable.step hr ⟨op, dirtyAllows_handle ha, hrun⟩)

theorem boot_coherent (nbuf bsize : Nat) (disk : Nat → Nat → Data) :
    Coherent (binit (zeroSys nbuf bsize disk)) [] := by
  refine ⟨boot_inUseFirst nbuf bsize disk, binit_wf _, ?_, ?_⟩
  · intro b hb; cases hb
  · intro b _ hv
    exact absurd (boot_get nbuf bsize disk b).1 hv

/-- C19 (cache coherence).  The device is the map `disk`.  In every state
reached from `binit` by a run of `bread` (and its completion after a wait),
`bwrite`, `brelse`, `bpin`, `bunpin` and stores, on slots that are referenced,
locked or loaded, in which a caller stores to a slot only while it holds the
content lock and calls `bwrite` before `brelse` whenever it has changed the
bytes: every slot with `valid` set (`valid == 1`, or any non-zero value) whose
content lock is free holds exactly the bytes of the device's block for its
`(dev, blockno)`.  Hence a `bread` that returns, hit or miss, returns the bytes
of the device's block `(dev, blockno)`; on a hit of a loaded slot these are the
cached bytes, unchanged. -/
theorem C19_cache_coherence (nbuf bsize : Nat) (disk : Nat → Nat → Data)
    (ops : List Op) (s : Sys) (d : List Ptr)
    (h : dirtyRun ops (binit (zeroSys nbuf bsize disk), []) = some (s, d)) :
    Reachable InUse s ∧
    (∀ b, s.isSlot b → (s.get b).valid ≠ 0 → (s.get b).lock = none →
      (s.get b).data = s.disk (s.get b).dev (s.get b).blockno) ∧
    (∀ pid dev blockno b s', bread pid s dev blockno = Result.ret b s' →
      (s'.get b).data = s.disk dev blockno ∧ s'.disk = s.disk ∧
      (s.cached dev blockno = some b → (s.get b).valid ≠ 0 →
        (s'.get b).data = (s.get b).data)) := by
  obtain ⟨hfirst, hwf, hlk, hdat⟩ := dirtyRun_inv h (boot_coherent nbuf bsize disk)
  have hfree : ∀ b, (s.get b).lock = none → b ∉ d := fun b hl hb => hlk b hb hl
  refine ⟨dirtyRun_reachable h (Reachable.boot nbuf bsize disk), ?_, ?_⟩
  · intro b hb hv hl
    exact hdat b hb hv (hfree b hl)
  · intro pid dev blockno b s' hbr
    obtain ⟨hbs, _, hdisk, _, x, hx, hres⟩ := hwf.bread_inv (Or.inl hbr)
    rcases hres with ⟨_, hl, _, hsx⟩ | ⟨hsl, _, _, _⟩
    · have hk : x.dev = dev ∧ x.blockno = blockno := by
        rcases hx with hh | hh
        · have e2 : x.dev = (s.get b).dev := (congrArg Buf.dev hh.2).trans rfl
          have e3 : x.blockno = (s.get b).blockno := (congrArg Buf.blockno hh.2).trans rfl
          rw [e2, e3]
          exact (cached_some hh.1).2
        · exact ⟨(congrArg Buf.dev hh.2.2).trans rfl, (congrArg Buf.blockno hh.2.2).trans rfl⟩
      refine ⟨?_, hdisk, ?_⟩
      · rw [hsx, load_data, hk.1, hk.2]
        by_cases hxv : x.valid = 0
        · rw [if_pos hxv]
        · rw [if_neg hxv]
          rcases hx with hh | hh
          · have e1 : x.valid = (s.get b).valid := (congrArg Buf.valid hh.2).trans rfl
            have e4 : x.data = (s.get b).data := (congrArg Buf.data hh.2).trans rfl
            have hkb := (cached_some hh.1).2
            rw [e4, ← hkb.1, ← hkb.2]
            exact hdat b hbs (by rw [← e1]; exact hxv) (hfree b hl)
          · exact absurd ((congrArg Buf.valid hh.2.2).trans rfl) hxv
      · intro hc hv
        rcases hx with hh | hh
        · have e1 : x.valid = (s.get b).valid := (congrArg Buf.valid hh.2).trans rfl
          have e4 : x.data = (s.get b).data := (congrArg Buf.data hh.2).trans rfl
          rw [hsx, load_data, if_neg (by rw [e1]; exact hv), e4]
        · rw [hc] at hh; cases hh.1
    · rw [hsl] at hbr; cases hbr

theorem C19_witness :
    (exCoh.1.get (Ptr.slot 0)).valid = 1 ∧ (exCoh.1.get (Ptr.slot 0)).lock = none ∧
    (exCoh.1.get (Ptr.slot 0)).data = [7, 7] ∧ exCoh.1.disk 1 5 = [7, 7] ∧
    ∀ b, exCoh.1.isSlot b → (exCoh.1.get b).valid ≠ 0 → (exCoh.1.get b).lock = none →
      (exCoh.1.get b).data = exCoh.1.disk (exCoh.1.get b).dev (exCoh.1.get b).blockno :=
  ⟨by decide, by decide, by decide, by decide,
    (C19_cache_coherence 2 2 exDisk exCohOps exCoh.1 exCoh.2 rfl).2.1⟩

/-! ## The counter at the ends of the `uint` range -/

/-- C3 as stated fails: in the well-formed pool `exWrap` slot 1 has identity
`(0, 0)` and `refcnt` equal to `2^32 - 1`; `bread(0, 0)` selects slot 1 and a
second `bread(0, 0)` selects it again, but the first call takes `refcnt` from
`2^32 - 1` to 0, it does not raise it by one. -/
theorem C3_counterexample :
    WF exWrap ∧ (exWrap.get (Ptr.slot 1)).refcnt = 4294967295 ∧
    bread 1 exWrap 0 0 = Result.ret (Ptr.slot 1) exWrap1 ∧
    (∃ s2, bread 2 exWrap1 0 0 = Result.sleeps (Ptr.slot 1) s2) ∧
    (exWrap1.get (Ptr.slot 1)).refcnt = 0 ∧
    (exWrap1.get (Ptr.slot 1)).refcnt ≠ (exWrap.get (Ptr.slot 1)).refcnt + 1 :=
  ⟨by decide, by decide, rfl, ⟨_, rfl⟩, by decide, by decide⟩

/-- C9 as stated fails: in the well-formed pool `exHeldZero` process 1 holds the
content lock of slot 0 and `refcnt` of slot 0 is 0; `brelse` returns and leaves
`refcnt` at `2^32 - 1`, which is not one less than 0. -/
theorem C9_counterexample :
    WF exHeldZero ∧ exHeldZero.isSlot (Ptr.slot 0) ∧
    holdingsleep 1 (Ptr.slot 0) exHeldZero = true ∧
    (exHeldZero.get (Ptr.slot 0)).refcnt = 0 ∧
    ∃ s', brelse 1 exHeldZero (Ptr.slot 0) = Result.ret () s' ∧
      (s'.get (Ptr.slot 0)).refcnt = 4294967295 ∧
      (s'.get (Ptr.slot 0)).refcnt + 1 ≠ (exHeldZero.get (Ptr.slot 0)).refcnt :=
  ⟨by decide, by decide, by decide, by decide,
    ⟨Result.state exHeldZero (brelse 1 exHeldZero (Ptr.slot 0)), rfl, by decide, by decide⟩⟩

/-- C14 as stated fails: in the pool `exWrap` slot 1 has `refcnt` equal to
`2^32 - 1` and `bpin` takes it to 0, it does not increase it by one. -/
theorem C14_counterexample :
    exWrap.isSlot (Ptr.slot 1) ∧ (exWrap.get (Ptr.slot 1)).refcnt = 4294967295 ∧
    ((bpin exWrap (Ptr.slot 1)).get (Ptr.slot 1)).refcnt = 0 ∧
    ((bpin exWrap (Ptr.slot 1)).get (Ptr.slot 1)).refcnt ≠
      (exWrap.get (Ptr.slot 1)).refcnt + 1 :=
  ⟨by decide, by decide, by decide, by decide⟩

/-! ## C11: the release timeline in runs with valid handles -/

end Bio
